/-
Verification of the type-generation core of the `codegen` repository
(structural fingerprinting of inferred type trees, object-occurrence
collection, deduplication-registry construction, identifier sanitization,
pluralization helper, and the declaration-assembly pipeline of the
`TypeGenerator` class).

Modelling conventions:
* JavaScript strings are modelled as `List Char` (named `Str` below); the
  bridge `str` turns a Lean string literal into that representation.
  Braces inside string literals are written with the escapes `\x7b` / `\x7d`.
* JavaScript `Map` / `Set` values (which iterate in insertion order) are
  modelled as association lists / lists, threaded explicitly through the
  translated functions instead of being mutated in place.
* The memoization caches of the source (`WeakMap` keyed by object identity)
  are semantically transparent: the cached function is pure, so the model is
  the pure function itself.
* Code of the repository that is not under `src/` (`constants.ts`,
  `casing.ts`, `schemaTypeGenerator.ts`, the node `path` module) is modelled
  from the specification; every such definition carries a doc comment
  starting with `Modelled from the spec:`.
-/
import Mathlib

namespace Codegen

/-- Strings are modelled as lists of characters. -/
abbrev Str := List Char

/-- Bridge from Lean string literals to the `Str` model. -/
def str (s : String) : Str := s.data

/-- Membership of a character in the regex class `[$\w]`, i.e. `$`,
underscore, ASCII digits and ASCII letters.  This is both the class kept by
the sanitizer's separator regex and the character set of ECMAScript
`IdentifierName` continuation characters. -/
def isWordChar (c : Char) : Bool :=
  c = '$' || c = '_' || (48 ≤ c.toNat && c.toNat ≤ 57) ||
    (65 ≤ c.toNat && c.toNat ≤ 90) || (97 ≤ c.toNat && c.toNat ≤ 122)

/-- Characters allowed as the first character of an ECMAScript
`IdentifierName`: like `isWordChar` but without the digits. -/
def isIdentStartChar (c : Char) : Bool :=
  c = '$' || c = '_' || (65 ≤ c.toNat && c.toNat ≤ 90) ||
    (97 ≤ c.toNat && c.toNat ≤ 122)

/-- Models `helpers.ts` `isIdentifierName`: test of the anchored regex
`[a-zA-Z_$][a-zA-Z0-9_$]*`. -/
def isIdentifierName (input : Str) : Bool :=
  match input with
  | [] => false
  | c :: cs => isIdentStartChar c && cs.all isWordChar

/-- Models JavaScript `String.prototype.toUpperCase` at the character level,
restricted to the ASCII case mapping (the inputs reached by the code under
verification are ASCII identifiers and schema names). -/
def jsToUpper (c : Char) : Char :=
  if 97 ≤ c.toNat ∧ c.toNat ≤ 122 then Char.ofNat (c.toNat - 32) else c

/-! ### Lexicographic order on `Str` and insertion sort

JavaScript `Array.prototype.toSorted()` with the default comparator sorts
strings lexicographically by code unit.  The model uses an insertion sort
with the code-point order `strLeb`; sortedness and permutation lemmas are
proved below, and uniqueness of sorted permutations makes the choice of
sorting algorithm irrelevant. -/

/-- Lexicographic less-or-equal on character lists, by code point. -/
def strLeb : Str → Str → Bool
  | [], _ => true
  | _ :: _, [] => false
  | a :: as, b :: bs =>
    if a.toNat < b.toNat then true
    else if b.toNat < a.toNat then false
    else strLeb as bs

/-- Insert an element into a list so that a `le`-sorted list stays sorted. -/
def insertLe {α : Type} (le : α → α → Bool) (a : α) : List α → List α
  | [] => [a]
  | b :: bs => if le a b then a :: b :: bs else b :: insertLe le a bs

/-- Insertion sort with respect to a boolean comparator. -/
def sortLe {α : Type} (le : α → α → Bool) : List α → List α
  | [] => []
  | a :: as => insertLe le a (sortLe le as)

/-- Model of `.toSorted()` on an array of strings. -/
def sortStrs (l : List Str) : List Str := sortLe strLeb l

/-! ### Decimal printing

Models the JavaScript template interpolation `${n}` of a non-negative
integer (decimal digits, most significant first) with a structurally
recursive fuel so that the function reduces in the kernel. -/

/-- Decimal digit character for `0 ≤ n ≤ 9`. -/
def digitChar : ℕ → Char
  | 0 => '0' | 1 => '1' | 2 => '2' | 3 => '3' | 4 => '4'
  | 5 => '5' | 6 => '6' | 7 => '7' | 8 => '8' | _ => '9'

/-- Fuel-driven core of decimal printing; the fuel `n + 1` always suffices. -/
def decimalCharsAux : ℕ → ℕ → Str
  | 0, _ => []
  | fuel + 1, n =>
    if n < 10 then [digitChar n]
    else decimalCharsAux fuel (n / 10) ++ [digitChar (n % 10)]

/-- Decimal representation of a natural number, as produced by `${n}` in
JavaScript for integral values. -/
def decimalChars (n : ℕ) : Str := decimalCharsAux (n + 1) n

/-- Decimal representation of an integer (sign, then digits); models `${v}`
for an integral JavaScript number. -/
def intChars : Int → Str
  | .ofNat n => decimalChars n
  | .negSucc n => '-' :: decimalChars (n + 1)

/-! ### `utils/singularize.ts` -/

/-- Models JavaScript `String.prototype.endsWith` on the `Str` model. -/
def endsWith (name suffix : Str) : Bool := suffix.isSuffixOf name

/-- Translation of `singularize` (the doubled-z aware revision of
`utils/singularize.ts`): `-ies` words become `-y`; doubled-z plurals
(`zzes`, length > 4) lose three characters; the sibilant endings `sses`,
`shes`, `ches`, `xes` lose `es`; other words ending in `s` (but not `ss`,
and longer than two characters) lose the final `s`. -/
def singularize (name : Str) : Str :=
  if endsWith name (str "ies") && decide (name.length > 3) then
    name.take (name.length - 3) ++ str "y"
  else if endsWith name (str "zzes") && decide (name.length > 4) then
    name.take (name.length - 3)
  else if endsWith name (str "sses") || endsWith name (str "shes") ||
      endsWith name (str "ches") || endsWith name (str "xes") then
    name.take (name.length - 2)
  else if endsWith name (str "s") && !endsWith name (str "ss") &&
      decide (name.length > 2) then
    name.take (name.length - 1)
  else name

/-! ### `helpers.ts`: identifier sanitizer

`sanitizeIdentifier` is
`input.replace(/^\d/, '_').replaceAll(/[^$\w]+(.)/g, (_, char) => char.toUpperCase())`.
The global replace is modelled by an accumulator state machine:
a maximal run of non-`[$\w]` characters followed by a character is replaced
by that character upper-cased.  A run at the very end of the string can only
match by backtracking so that the capture `(.)` takes the run's final
character (`.` does not match a line feed); `trailingRunCollapse` implements
exactly that rule. -/

/-- Models `input.replace(/^\d/, '_')`: a leading ASCII digit becomes `_`. -/
def replaceLeadingDigit : Str → Str
  | [] => []
  | c :: cs => if 48 ≤ c.toNat ∧ c.toNat ≤ 57 then '_' :: cs else c :: cs

/-- Handling of a maximal separator run that reaches the end of the string,
received in reversed order.  The regex `[^$\w]+(.)` matches inside such a
run only by letting `(.)` capture the last character of the run that is not
a line feed (with at least one run character before it); the characters
after the capture (a tail of line feeds) are left in place.  If no such
split exists the run is left unchanged. -/
def trailingRunCollapse (revRun : Str) : Str :=
  match revRun.dropWhile (fun c => c = '\n') with
  | [] => revRun.reverse
  | x :: before =>
    if before.isEmpty then revRun.reverse
    else jsToUpper x :: (revRun.takeWhile (fun c => c = '\n')).reverse

/-- State machine for `replaceAll(/[^$\w]+(.)/g, (_, char) => char.toUpperCase())`:
`pending` holds the current separator run in reversed order. -/
def replaceSepsAux : Str → Str → Str
  | pending, [] =>
    match pending with
    | [] => []
    | _ :: _ => trailingRunCollapse pending
  | pending, c :: cs =>
    if isWordChar c then
      match pending with
      | [] => c :: replaceSepsAux [] cs
      | _ :: _ => jsToUpper c :: replaceSepsAux [] cs
    else replaceSepsAux (c :: pending) cs

/-- The global separator-collapsing replace of `sanitizeIdentifier`. -/
def replaceSeps (input : Str) : Str := replaceSepsAux [] input

/-- Translation of `helpers.ts` `sanitizeIdentifier`. -/
def sanitizeIdentifier (input : Str) : Str :=
  replaceSeps (replaceLeadingDigit input)

/-- Translation of `helpers.ts` `normalizeIdentifier`: sanitize, then
upper-case the first character (`charAt(0)` of the empty string is the
empty string, so the empty input is returned unchanged). -/
def normalizeIdentifier (input : Str) : Str :=
  match sanitizeIdentifier input with
  | [] => []
  | c :: cs => jsToUpper c :: cs

/-- Modelled from the spec: `constants.ts` is not under `src/`; the spec
describes `RESERVED_IDENTIFIERS` only as "a fixed reserved-word set".  The
fixed identifiers emitted by the generator itself (the names exported by
`constants.ts` according to the test snapshots) are used as that set. -/
def RESERVED_IDENTIFIERS : List Str :=
  [str "AllSanitySchemaTypes", str "ArrayOf",
   str "internalGroqTypeReferenceTo", str "SanityQueries"]

/-- Whether a candidate name is rejected by the `while` condition of
`getUniqueIdentifierForName`. -/
def isTakenIdentifier (name : Str) (currentIdentifiers : List Str) : Bool :=
  currentIdentifiers.contains name || RESERVED_IDENTIFIERS.contains name

/-- The candidate tried at attempt `j` by `getUniqueIdentifierForName`'s
loop: attempt `0` is the bare desired name, attempt `j ≥ 1` is
`desiredName_(j+1)` (the source starts its numeric suffix at `2`). -/
def identifierCandidate (desiredName : Str) (attempt : ℕ) : Str :=
  if attempt = 0 then desiredName
  else desiredName ++ str "_" ++ decimalChars (attempt + 1)

/-- Translation of `helpers.ts` `getUniqueIdentifierForName`.  The source's
unbounded `while` loop is modelled as a search over the first
`currentIdentifiers.length + RESERVED_IDENTIFIERS.length + 1` candidates;
`getUniqueIdentifierForName_spec` proves that this bound always suffices
(the loop always terminates at the first non-taken candidate) and that the
result is the candidate with the least free attempt index. -/
def getUniqueIdentifierForName (name : Str) (currentIdentifiers : List Str) : Str :=
  let desiredName := normalizeIdentifier name
  let bound := currentIdentifiers.length + RESERVED_IDENTIFIERS.length + 1
  match (List.range bound).find?
      (fun j => !isTakenIdentifier (identifierCandidate desiredName j) currentIdentifiers) with
  | some j => identifierCandidate desiredName j
  | none => desiredName

/-! ### The `TypeNode` data model (consumed from `groq-js`)

The recursive, immutable type tree consumed by the fingerprinting engine.
Object attributes are `(key, optional, value)` triples in declaration
order (`Object.entries` iterates string keys in insertion order); the
`optional` field collapses the JavaScript `undefined` / `false` distinction,
which the source only ever reads through its truthiness.  Number literal
values are modelled as integers (decimal interpolation of an integral
JavaScript number). -/

inductive TypeNode where
  | unknown : TypeNode
  | null : TypeNode
  | boolean (value : Option Bool) : TypeNode
  | number (value : Option Int) : TypeNode
  | string (value : Option Str) : TypeNode
  | inline (name : Str) : TypeNode
  | array (of : TypeNode) : TypeNode
  | union (of : List TypeNode) : TypeNode
  | object (attributes : List (Str × Bool × TypeNode)) (rest : Option TypeNode)
      (dereferencesTo : Option Str) : TypeNode

/-- One attribute entry of an object `TypeNode`. -/
abbrev ObjectAttr := Str × Bool × TypeNode

mutual

/-- Boolean structural equality on `TypeNode` (the derived decision
procedure is not available for this nested inductive type). -/
def nodeEq : TypeNode → TypeNode → Bool
  | .unknown, .unknown => true
  | .null, .null => true
  | .boolean v, .boolean w => v == w
  | .number v, .number w => v == w
  | .string v, .string w => v == w
  | .inline n, .inline m => n == m
  | .array a, .array b => nodeEq a b
  | .union xs, .union ys => nodeListEq xs ys
  | .object a r d, .object a2 r2 d2 => attrListEq a a2 && nodeOptEq r r2 && d == d2
  | _, _ => false
termination_by structural a => a

/-- Elementwise `nodeEq` on lists of nodes. -/
def nodeListEq : List TypeNode → List TypeNode → Bool
  | [], [] => true
  | x :: xs, y :: ys => nodeEq x y && nodeListEq xs ys
  | _, _ => false
termination_by structural xs => xs

/-- Elementwise equality on attribute lists. -/
def attrListEq : List ObjectAttr → List ObjectAttr → Bool
  | [], [] => true
  | (k, o, v) :: xs, (k2, o2, v2) :: ys =>
    k == k2 && o == o2 && nodeEq v v2 && attrListEq xs ys
  | _, _ => false
termination_by structural xs => xs

/-- `nodeEq` on optional nodes. -/
def nodeOptEq : Option TypeNode → Option TypeNode → Bool
  | none, none => true
  | some a, some b => nodeEq a b
  | _, _ => false
termination_by structural xs => xs

end

mutual

theorem nodeEq_iff : ∀ a b, nodeEq a b = true ↔ a = b
  | .unknown, b => by cases b <;> simp [nodeEq]
  | .null, b => by cases b <;> simp [nodeEq]
  | .boolean v, b => by cases b <;> simp [nodeEq]
  | .number v, b => by cases b <;> simp [nodeEq]
  | .string v, b => by cases b <;> simp [nodeEq]
  | .inline n, b => by cases b <;> simp [nodeEq]
  | .array a, b => by
      cases b <;> simp [nodeEq]
      exact nodeEq_iff a _
  | .union xs, b => by
      cases b <;> simp [nodeEq]
      exact nodeListEq_iff xs _
  | .object a r d, b => by
      cases b <;> simp only [nodeEq, Bool.and_eq_true, beq_iff_eq, attrListEq_iff a _,
        nodeOptEq_iff r _, TypeNode.object.injEq, reduceCtorEq]
      tauto

theorem nodeListEq_iff : ∀ xs ys, nodeListEq xs ys = true ↔ xs = ys
  | [], ys => by cases ys <;> simp [nodeListEq]
  | x :: xs, ys => by
      cases ys with
      | nil => simp [nodeListEq]
      | cons y ys =>
          simp only [nodeListEq, Bool.and_eq_true, nodeEq_iff x y, nodeListEq_iff xs ys,
            List.cons.injEq]

theorem attrListEq_iff : ∀ xs ys, attrListEq xs ys = true ↔ xs = ys
  | [], ys => by cases ys <;> simp [attrListEq]
  | (k, o, v) :: xs, ys => by
      cases ys with
      | nil => simp [attrListEq]
      | cons y ys =>
          obtain ⟨k2, o2, v2⟩ := y
          simp only [attrListEq, Bool.and_eq_true, nodeEq_iff v v2, attrListEq_iff xs ys,
            List.cons.injEq, beq_iff_eq, Prod.mk.injEq]
          tauto

theorem nodeOptEq_iff : ∀ xs ys, nodeOptEq xs ys = true ↔ xs = ys
  | none, ys => by cases ys <;> simp [nodeOptEq]
  | some a, ys => by
      cases ys with
      | none => simp [nodeOptEq]
      | some b => simp only [nodeOptEq, nodeEq_iff a b, Option.some.injEq]

end

instance : DecidableEq TypeNode := fun a b => decidable_of_iff _ (nodeEq_iff a b)

instance : Inhabited TypeNode := ⟨.unknown⟩

/-! ### `typeNodeFingerprint.ts`: `fingerprintTypeNode`

The `WeakMap` memoization of the source caches a pure computation per node
identity and is therefore semantically transparent; the model is the
underlying pure function `computeFingerprint`. -/

/-- JavaScript `Array.prototype.join(sep)`. -/
def joinSep (sep : Str) : List Str → Str
  | [] => []
  | [x] => x
  | x :: xs => x ++ sep ++ joinSep sep xs

/-- Boolean literal interpolation `${value}` for a JavaScript boolean. -/
def boolChars : Bool → Str
  | true => str "true"
  | false => str "false"

/-- Hexadecimal digit character for `0 ≤ n ≤ 15`. -/
def hexDigit : ℕ → Char
  | 0 => '0' | 1 => '1' | 2 => '2' | 3 => '3' | 4 => '4'
  | 5 => '5' | 6 => '6' | 7 => '7' | 8 => '8' | 9 => '9'
  | 10 => 'a' | 11 => 'b' | 12 => 'c' | 13 => 'd' | 14 => 'e' | _ => 'f'

/-- Escape of a single character inside a JSON-quoted string, following
ECMAScript `QuoteJSONString`: quote and backslash get a backslash escape,
the control characters backspace, tab, line feed, form feed and carriage
return get their two-character escapes, the remaining control characters
get a `\u00XX` escape, and everything else is copied verbatim. -/
def jsonEscapeChar (c : Char) : Str :=
  if c = '"' then ['\\', '"']
  else if c = '\\' then ['\\', '\\']
  else if c = '\x08' then ['\\', 'b']
  else if c = '\x09' then ['\\', 't']
  else if c = '\x0a' then ['\\', 'n']
  else if c = '\x0c' then ['\\', 'f']
  else if c = '\x0d' then ['\\', 'r']
  else if c.toNat < 32 then ['\\', 'u', '0', '0', hexDigit (c.toNat / 16), hexDigit (c.toNat % 16)]
  else [c]

/-- Models `JSON.stringify` applied to a string value: the escaped content
wrapped in double quotes. -/
def jsonStringify (v : Str) : Str :=
  '"' :: (v.map jsonEscapeChar).flatten ++ ['"']

/-- Characters that `jsonEscapeChar` copies verbatim. -/
def isEscFree (c : Char) : Bool :=
  !(c = '"' || c = '\\' || decide (c.toNat < 32))

/-- The character encoded by a two-character escape `\x`, when `x` is one of
the short escape tags. -/
def escTag : Char → Option Char
  | '"' => some '"'
  | '\\' => some '\\'
  | 'b' => some '\x08'
  | 't' => some '\x09'
  | 'n' => some '\x0a'
  | 'f' => some '\x0c'
  | 'r' => some '\x0d'
  | _ => none

/-- The deref marker appended by `fingerprintObjectTypeNode` when
`dereferencesTo` is present (`if (typeNode.dereferencesTo)` — the empty
string is falsy in JavaScript and emits no marker). -/
def derefPart : Option Str → Str
  | none => []
  | some [] => []
  | some name => str "->>" ++ name

mutual

/-- Translation of `fingerprintTypeNode` / `computeFingerprint`: canonical
string fingerprint of a `TypeNode`.  Union member fingerprints are sorted
before joining; the `default` safety-net arm of the source switch is dead
code in this model because the `TypeNode` variants are exhaustive. -/
def fingerprintTypeNode : TypeNode → Str
  | .array of => str "[" ++ fingerprintTypeNode of ++ str "]"
  | .boolean none => str "b"
  | .boolean (some v) => str "b:" ++ boolChars v
  | .inline name => str "@" ++ name
  | .null => str "null"
  | .number none => str "n"
  | .number (some v) => str "n:" ++ intChars v
  | .object attributes rest dereferencesTo =>
    -- `fingerprintObjectTypeNode` of the source, inlined for the
    -- termination checker: sorted `key(?):fingerprint` entries joined by
    -- commas, then the rest marker, then the deref marker, in braces.
    str "\x7b" ++ joinSep (str ",") (sortStrs (attributeEntryFingerprints attributes)) ++
      restPart rest ++ derefPart dereferencesTo ++ str "\x7d"
  | .string none => str "s"
  | .string (some v) => str "s:" ++ jsonStringify v
  | .union of => str "(" ++ joinSep (str "|") (sortStrs (memberFingerprints of)) ++ str ")"
  | .unknown => str "?"
termination_by structural t => t

/-- Fingerprints of the members of a union, in member order (sorted by the
caller). -/
def memberFingerprints : List TypeNode → List Str
  | [] => []
  | t :: ts => fingerprintTypeNode t :: memberFingerprints ts
termination_by structural ts => ts

/-- Entry strings `key + optional marker + ":" + fingerprint(value)` of an
object's attributes, in declaration order (sorted by the caller). -/
def attributeEntryFingerprints : List ObjectAttr → List Str
  | [] => []
  | (key, opt, value) :: rest =>
    (key ++ (if opt then str "?" else str "") ++ str ":" ++ fingerprintTypeNode value) ::
      attributeEntryFingerprints rest
termination_by structural rest => rest

/-- The `@rest` marker plus rest fingerprint of an object node. -/
def restPart : Option TypeNode → Str
  | none => []
  | some r => str "@rest" ++ fingerprintTypeNode r
termination_by structural r => r

end

/-! ### Claim C1: well-formed nodes and canonical forms

The fingerprint grammar delimits names (inline names, attribute keys,
dereference targets) only by the surrounding punctuation, so the claimed
injectivity can only hold when those names stay inside the identifier-like
character class; `wfNode` states that restriction.  `canonNode` sorts
object attributes by their entry string and union members by their
fingerprint — the claim's "structurally identical modulo attribute order
and union-member order" is equality of canonical forms. -/

/-- A name that the fingerprint grammar can always parse back out: nonempty
and made of `[A-Za-z0-9_$]` characters only. -/
def safeName (s : Str) : Bool := !s.isEmpty && s.all isWordChar

/-- Well-formedness of a dereference target: absent or a safe name. -/
def wfDeref : Option Str → Bool
  | none => true
  | some d => safeName d

mutual

/-- Well-formedness of a node for the fingerprint-injectivity claim: every
inline name, attribute key and dereference target is a `safeName`. -/
def wfNode : TypeNode → Bool
  | .array of => wfNode of
  | .union of => wfMembers of
  | .object attrs rest deref =>
    wfAttrs attrs && wfOptNode rest &&
      (match deref with | none => true | some d => safeName d)
  | .inline name => safeName name
  | _ => true
termination_by structural t => t

/-- `wfNode` on every member of a union. -/
def wfMembers : List TypeNode → Bool
  | [] => true
  | t :: ts => wfNode t && wfMembers ts
termination_by structural ts => ts

/-- Safe keys and well-formed values on an attribute list. -/
def wfAttrs : List ObjectAttr → Bool
  | [] => true
  | (k, _, v) :: rest => safeName k && wfNode v && wfAttrs rest
termination_by structural attrs => attrs

/-- `wfNode` on an optional rest node. -/
def wfOptNode : Option TypeNode → Bool
  | none => true
  | some t => wfNode t
termination_by structural r => r

end

/-- The entry string `key + optional marker + ":" + fingerprint(value)`
contributed by one attribute to its object's fingerprint. -/
def entryString (a : ObjectAttr) : Str :=
  a.1 ++ (if a.2.1 then str "?" else str "") ++ str ":" ++ fingerprintTypeNode a.2.2

/-- Comparator on union members: by fingerprint. -/
def fpLe (a b : TypeNode) : Bool :=
  strLeb (fingerprintTypeNode a) (fingerprintTypeNode b)

/-- Comparator on object attributes: by entry string. -/
def entryLe (a b : ObjectAttr) : Bool := strLeb (entryString a) (entryString b)

/-- Consecutive sortedness of a list under a boolean comparator. -/
def sortedByLeb {α : Type} (le : α → α → Bool) : List α → Bool
  | [] => true
  | [_] => true
  | a :: b :: rest => le a b && sortedByLeb le (b :: rest)

mutual

/-- Canonical form of a node: object attributes sorted by entry string,
union members sorted by fingerprint, recursively. -/
def canonNode : TypeNode → TypeNode
  | .array of => .array (canonNode of)
  | .union of => .union (sortLe fpLe (canonMembers of))
  | .object attrs rest deref =>
    .object (sortLe entryLe (canonAttrs attrs)) (canonOpt rest) deref
  | t => t
termination_by structural t => t

/-- Canonical forms of union members (before sorting). -/
def canonMembers : List TypeNode → List TypeNode
  | [] => []
  | t :: ts => canonNode t :: canonMembers ts
termination_by structural ts => ts

/-- Canonical forms of attribute values (before sorting). -/
def canonAttrs : List ObjectAttr → List ObjectAttr
  | [] => []
  | (k, o, v) :: rest => (k, o, canonNode v) :: canonAttrs rest
termination_by structural attrs => attrs

/-- Canonical form of an optional rest node. -/
def canonOpt : Option TypeNode → Option TypeNode
  | none => none
  | some t => some (canonNode t)
termination_by structural r => r

end

mutual

/-- Whether a node is already in canonical form: all attribute lists sorted
by entry string and union member lists sorted by fingerprint. -/
def isCanonNode : TypeNode → Bool
  | .array of => isCanonNode of
  | .union of => isCanonMembers of && sortedByLeb fpLe of
  | .object attrs rest _ =>
    isCanonAttrs attrs && isCanonOpt rest && sortedByLeb entryLe attrs
  | _ => true
termination_by structural t => t

/-- `isCanonNode` on every member of a union. -/
def isCanonMembers : List TypeNode → Bool
  | [] => true
  | t :: ts => isCanonNode t && isCanonMembers ts
termination_by structural ts => ts

/-- `isCanonNode` on every attribute value. -/
def isCanonAttrs : List ObjectAttr → Bool
  | [] => true
  | (_, _, v) :: rest => isCanonNode v && isCanonAttrs rest
termination_by structural attrs => attrs

/-- `isCanonNode` on an optional rest node. -/
def isCanonOpt : Option TypeNode → Bool
  | none => true
  | some t => isCanonNode t
termination_by structural r => r

end

mutual

/-- Size measure used for the strong induction of the injectivity proof. -/
def nodeSize : TypeNode → ℕ
  | .array of => nodeSize of + 1
  | .union of => membersSize of + 1
  | .object attrs rest _ => attrsSize attrs + optNodeSize rest + 1
  | _ => 1
termination_by structural t => t

/-- Total size of a union member list. -/
def membersSize : List TypeNode → ℕ
  | [] => 0
  | t :: ts => nodeSize t + membersSize ts
termination_by structural ts => ts

/-- Total size of the attribute values of an attribute list. -/
def attrsSize : List ObjectAttr → ℕ
  | [] => 0
  | (_, _, v) :: rest => nodeSize v + attrsSize rest
termination_by structural attrs => attrs

/-- Size of an optional rest node. -/
def optNodeSize : Option TypeNode → ℕ
  | none => 0
  | some t => nodeSize t
termination_by structural r => r

end

/-- The first character a fingerprint of each node shape starts with. -/
def headCharOf : TypeNode → Char
  | .array _ => '['
  | .boolean _ => 'b'
  | .inline _ => '@'
  | .null => 'n'
  | .number _ => 'n'
  | .object _ _ _ => '\x7b'
  | .string _ => 's'
  | .union _ => '('
  | .unknown => '?'

/-- The characters that can legally follow a complete fingerprint inside a
composite fingerprint: the array and union closers, the member separator,
the entry separator, the object closer, the deref marker's dash and the
rest marker's at-sign. -/
def FOLLOWCHARS : List Char := [']', ')', '|', ',', '\x7d', '-', '@']

/-- A continuation that is empty or starts with a legal follow character. -/
def followOk : Str → Bool
  | [] => true
  | c :: _ => FOLLOWCHARS.contains c

/-- A continuation that is empty or starts with a non-word character; every
`followOk` continuation satisfies this. -/
def notWordStart : Str → Bool
  | [] => true
  | c :: _ => !isWordChar c

/-! ### `typeNodeFingerprint.ts`: occurrence collection

The result `Map` of `collectObjectFingerprints` is modelled as an
association list in insertion order; `existing.count++` becomes an in-place
update that keeps the entry's position. -/

/-- The value stored per fingerprint by `collectObjectFingerprints`. -/
structure OccurrenceRecord where
  candidateName : Option Str
  count : ℕ
  typeNode : TypeNode
deriving DecidableEq

/-- Insertion-ordered model of the fingerprint `Map`. -/
abbrev FingerprintMap := List (Str × OccurrenceRecord)

/-- JavaScript `Map.prototype.get`. -/
def mapGet (m : FingerprintMap) (k : Str) : Option OccurrenceRecord :=
  (m.find? (fun e => e.1 == k)).map (fun e => e.2)

/-- Models `existing.count++`: bump the count of the entry at `k`, keeping
its position and its other fields. -/
def mapIncrement (m : FingerprintMap) (k : Str) : FingerprintMap :=
  m.map (fun e => if e.1 == k then (e.1, ⟨e.2.candidateName, e.2.count + 1, e.2.typeNode⟩) else e)

/-- Translation of `extractCandidateName`: if the object has a `_type`
attribute that is not optional and whose value is a string type carrying a
literal value, that literal is the candidate name; otherwise the parent key
(`parentKey ?? null`). -/
def extractCandidateName (attributes : List ObjectAttr) (parentKey : Option Str) : Option Str :=
  match attributes.find? (fun a => a.1 == str "_type") with
  | some (_, opt, value) =>
    match opt, value with
    | false, .string (some v) => some v
    | _, _ => parentKey
  | none => parentKey

mutual

/-- Translation of `walkTypeNode`: recursively visits a node, threading the
fingerprint map and the current parent-key hint.  Arrays singularize the
hint, object attributes override it with their own key, union members all
inherit it, and the rest type is walked with no hint. -/
def walkTypeNode : TypeNode → FingerprintMap → Option Str → FingerprintMap
  | .array of, result, parentKey =>
    -- `parentKey ? singularize(parentKey) : undefined`: the empty string is
    -- falsy in JavaScript, so an empty parent key is dropped, not singularized.
    walkTypeNode of result (match parentKey with
      | some (c :: cs) => some (singularize (c :: cs))
      | _ => none)
  | .object attributes rest dereferencesTo, result, parentKey =>
    let fp := fingerprintTypeNode (.object attributes rest dereferencesTo)
    let afterRecord :=
      match mapGet result fp with
      | some _ => mapIncrement result fp
      | none =>
        result ++ [(fp, ⟨extractCandidateName attributes parentKey, 1,
          .object attributes rest dereferencesTo⟩)]
    let afterAttrs := walkAttributes attributes afterRecord
    (match rest with
     | some r => walkTypeNode r afterAttrs none
     | none => afterAttrs)
  | .union of, result, parentKey => walkMembers of result parentKey
  | _, result, _ => result
termination_by structural t => t

/-- The attribute loop of `walkTypeNode`'s object case: each attribute's
value is walked with the attribute's own key as parent key. -/
def walkAttributes : List ObjectAttr → FingerprintMap → FingerprintMap
  | [], result => result
  | (key, _, value) :: rest, result =>
    walkAttributes rest (walkTypeNode value result (some key))
termination_by structural attrs => attrs

/-- The member loop of `walkTypeNode`'s union case: every member is walked
with the same parent key. -/
def walkMembers : List TypeNode → FingerprintMap → Option Str → FingerprintMap
  | [], result, _ => result
  | m :: ms, result, parentKey =>
    walkMembers ms (walkTypeNode m result parentKey) parentKey
termination_by structural ms => ms

end

/-- Translation of `collectObjectFingerprints`: walk every input tree over
one shared map (no initial parent key). -/
def collectObjectFingerprints (typeNodes : List TypeNode) : FingerprintMap :=
  typeNodes.foldl (fun result t => walkTypeNode t result none) []

/-! ### `typeNodeFingerprint.ts`: deduplication registry -/

/-- Translation of `inlinePrefix`: `"InlineType"` when the candidate name is
absent (`!candidateName` is also true for the empty string, which is falsy
in JavaScript), otherwise `"Inline"` followed by the capitalized candidate
name. -/
def inlinePrefix (candidateName : Option Str) : Str :=
  match candidateName with
  | none => str "InlineType"
  | some [] => str "InlineType"
  | some (c :: cs) => str "Inline" ++ (jsToUpper c :: cs)

/-- The fixed set of structural/bookkeeping keys never counted as
meaningful. -/
def STRUCTURAL_KEYS : List Str := [str "_key", str "_ref", str "_type"]

/-- Translation of `isWorthExtracting`: at least two attributes whose key is
not structural.  The source receives an `ObjectTypeNode`; non-object nodes
never reach this function. -/
def isWorthExtracting (typeNode : TypeNode) : Bool :=
  match typeNode with
  | .object attributes _ _ =>
    2 ≤ ((attributes.map (fun a => a.1)).filter
      (fun k => !STRUCTURAL_KEYS.contains k)).length
  | _ => false

/-- The registry built by `buildDeduplicationRegistry`: entries
`(fingerprint, generated identifier name, representative node)` in
encounter order. -/
structure DeduplicationRegistry where
  extractedTypes : List (Str × Str × TypeNode)
deriving DecidableEq

/-- The loop of `buildDeduplicationRegistry`, threading the growing
reservation set: skip records with count below two or without enough
meaningful attributes; otherwise assign the next unique identifier for the
record's inline-prefixed candidate name and reserve it. -/
def buildDedupAux : FingerprintMap → List Str → List (Str × Str × TypeNode)
  | [], _ => []
  | (fp, record) :: rest, currentIdentifiers =>
    if record.count < 2 then buildDedupAux rest currentIdentifiers
    else if !isWorthExtracting record.typeNode then buildDedupAux rest currentIdentifiers
    else
      let baseName := inlinePrefix record.candidateName
      let id := getUniqueIdentifierForName baseName currentIdentifiers
      (fp, id, record.typeNode) :: buildDedupAux rest (currentIdentifiers ++ [id])

/-- Translation of `buildDeduplicationRegistry`: the reservation set starts
as a copy of `existingIdentifiers` (the input set itself is never
mutated — the model threads a separate list). -/
def buildDeduplicationRegistry (fingerprints : FingerprintMap)
    (existingIdentifiers : List Str) : DeduplicationRegistry :=
  ⟨buildDedupAux fingerprints existingIdentifiers⟩

/-- Lookup of a fingerprint in the registry. -/
def registryGet (r : DeduplicationRegistry) (fp : Str) : Option (Str × TypeNode) :=
  (r.extractedTypes.find? (fun e => e.1 == fp)).map (fun e => e.2)

/-! ### `types.ts` / `typeGenerator.ts`: the generation pipeline

The worker-channel progress reporting, the babel AST/code rendering and the
TypeScript bodies produced by the missing `schemaTypeGenerator.ts` are not
part of any claim; the model tracks the identifiers, comments and ordering
of the emitted declarations.  Asynchronous module streams are drained to
lists (the spec's cooperative scheduling suspends only between modules). -/

/-- Usage statistics returned by the evaluation service. -/
structure TypeEvaluationStats where
  allTypes : ℕ
  unknownTypes : ℕ
  emptyUnions : ℕ
deriving DecidableEq

/-- A query extracted from a source module (`variable.id.name` of the
source is flattened into `variableName`). -/
structure ExtractedQuery where
  filename : Str
  query : Str
  variableName : Str
deriving DecidableEq

/-- The two error classes of `types.ts`, with the `unknown` cause modelled
as its message string. -/
inductive CodegenError where
  | queryExtractionError (cause : Str) (filename : Str) (variableName : Option Str)
  | queryEvaluationError (cause : Str) (filename : Str) (variableName : Option Str)
deriving DecidableEq

/-- A module produced by query extraction. -/
structure ExtractedModule where
  errors : List CodegenError
  filename : Str
  queries : List ExtractedQuery
deriving DecidableEq

/-- A query that evaluated successfully during phase 1. -/
structure CollectedQuery extends ExtractedQuery where
  stats : TypeEvaluationStats
  typeNode : TypeNode
deriving DecidableEq

/-- A module after phase 1. -/
structure CollectedModule where
  errors : List CodegenError
  filename : Str
  queries : List CollectedQuery
deriving DecidableEq

/-- The per-query loop of `TypeGenerator.collectModules`: the
`try`/`catch` around `schemaTypeGenerator.evaluateQueryTypeNode` is
modelled by matching the `Except` result of the evaluation service; a
failure is recorded as a `QueryEvaluationError` carrying the cause, the
module's filename and the query's variable. -/
def collectQueries (evaluate : ExtractedQuery → Except Str (TypeEvaluationStats × TypeNode))
    (filename : Str) : List ExtractedQuery → List CollectedQuery × List CodegenError
  | [] => ([], [])
  | q :: rest =>
    let step := collectQueries evaluate filename rest
    match evaluate q with
    | .ok (stats, typeNode) => (⟨q, stats, typeNode⟩ :: step.1, step.2)
    | .error cause =>
      (step.1, .queryEvaluationError cause filename (some q.variableName) :: step.2)

/-- Translation of `TypeGenerator.collectModules` (phase 1).  The
evaluation service of the missing `schemaTypeGenerator.ts` is the explicit
`evaluate` parameter; per the spec it may fail, and failures never escape
the module: they are appended to the module's error list after the
extraction errors, and every other query of every module is still
evaluated. -/
def collectModules (evaluate : ExtractedQuery → Except Str (TypeEvaluationStats × TypeNode))
    (extractedModules : List ExtractedModule) : List CollectedModule :=
  extractedModules.map (fun m =>
    let step := collectQueries evaluate m.filename m.queries
    ⟨m.errors ++ step.2, m.filename, step.1⟩)

/-- Modelled from the spec: `casing.ts` is not under `src/`; the spec calls
for "a fixed result-type suffix convention", and the test snapshots show
`queryFoo ↦ QueryFooResult`, i.e. the suffix `Result` appended before
identifier normalization. -/
def resultSuffix (name : Str) : Str := name ++ str "Result"

/-- ASCII model of the whitespace class trimmed by JavaScript
`String.prototype.trim`. -/
def isJsWhitespace (c : Char) : Bool :=
  c = ' ' || (9 ≤ c.toNat && c.toNat ≤ 13)

/-- JavaScript `String.prototype.trim` (ASCII whitespace model). -/
def jsTrim (s : Str) : Str :=
  ((s.dropWhile isJsWhitespace).reverse.dropWhile isJsWhitespace).reverse

/-- Models `query.replaceAll(/(\r\n|\n|\r)/gm, '')`: every carriage return
and line feed is removed. -/
def stripLineBreaks (s : Str) : Str :=
  s.filter (fun c => !(c = '\n' || c = '\r'))

/-- Translation of `utils/formatPath.ts`: backslashes become slashes. -/
def formatPath (path : Str) : Str :=
  path.map (fun c => if c = '\\' then '/' else c)

/-- Modelled from the spec: `node:path` is an external collaborator.
`resolve` for a POSIX-style path: an absolute path is kept, a relative one
is joined to the root. -/
def pathResolve (root filename : Str) : Str :=
  match filename with
  | '/' :: _ => filename
  | _ => root ++ str "/" ++ filename

/-- Modelled from the spec: `node:path` `relative` for the paths this code
produces — a path under the root loses the root prefix. -/
def pathRelative (root p : Str) : Str :=
  if (root ++ str "/").isPrefixOf p then p.drop (root.length + 1) else p

/-- Translation of `helpers.ts` `normalizePrintablePath`, over the modelled
path primitives. -/
def normalizePrintablePath (root filename : Str) : Str :=
  formatPath (pathRelative root (pathResolve root filename))

/-- A query after phase 3: its result-type identifier and its three leading
documentation comments (the declaration body itself is produced by the
missing `schemaTypeGenerator.ts` and is not modelled). -/
structure EvaluatedQuery extends CollectedQuery where
  id : Str
  comments : List Str
deriving DecidableEq

/-- A module after phase 3. -/
structure EvaluatedModule where
  errors : List CodegenError
  filename : Str
  queries : List EvaluatedQuery
deriving DecidableEq

/-- The per-query loop of `TypeGenerator.generateEvaluatedModules`: assign
the unique result identifier derived from the variable name, attach the
three documentation comments (source path, variable, trimmed query text),
and only then reserve the identifier for subsequent queries. -/
def generateEvaluatedQueries (root filename : Str) :
    List CollectedQuery → List Str → List EvaluatedQuery × List Str
  | [], currentIdentifiers => ([], currentIdentifiers)
  | q :: rest, currentIdentifiers =>
    let id := getUniqueIdentifierForName (resultSuffix q.variableName) currentIdentifiers
    let trimmedQuery := jsTrim (stripLineBreaks q.query)
    let comments := [str " Source: " ++ normalizePrintablePath root filename,
                     str " Variable: " ++ q.variableName,
                     str " Query: " ++ trimmedQuery]
    let step := generateEvaluatedQueries root filename rest (currentIdentifiers ++ [id])
    (⟨q, id, comments⟩ :: step.1, step.2)

/-- Translation of `TypeGenerator.generateEvaluatedModules` (phase 3),
threading the shared identifier reservation set through all modules. -/
def generateEvaluatedModules (root : Str) :
    List CollectedModule → List Str → List EvaluatedModule × List Str
  | [], currentIdentifiers => ([], currentIdentifiers)
  | m :: rest, currentIdentifiers =>
    let step := generateEvaluatedQueries root m.filename m.queries currentIdentifiers
    let stepRest := generateEvaluatedModules root rest step.2
    (⟨m.errors, m.filename, step.1⟩ :: stepRest.1, stepRest.2)

/-- One step of filling `typesByQuerystring`: `typesByQuerystring[query] ??= []`
followed by a push of the identifier.  A plain-object string key keeps
insertion order (the model does not reproduce the integer-like-key
reordering of JavaScript objects, which no realistic query string
triggers). -/
def addQueryToMap (acc : List (Str × List Str)) (query : Str) (idName : Str) :
    List (Str × List Str) :=
  if (acc.find? (fun e => e.1 == query)).isSome then
    acc.map (fun e => if e.1 == query then (e.1, e.2 ++ [idName]) else e)
  else acc ++ [(query, [idName])]

/-- The grouping loop of `getQueryMapDeclaration`. -/
def queryMapEntries (queries : List EvaluatedQuery) : List (Str × List Str) :=
  queries.foldl (fun acc q => addQueryToMap acc q.query q.id) []

/-- Translation of `TypeGenerator.getQueryMapDeclaration`: the source
returns an empty program when `overloadClientMethods` is false or when
there are no evaluated queries, and otherwise a `SanityQueries` interface
mapping each distinct query string to the union of its result-type
identifiers; the model returns the interface entries, with `[]` standing
for the omitted declaration. -/
def getQueryMapDeclaration (overloadClientMethods : Bool)
    (evaluatedModules : List EvaluatedModule) : List (Str × List Str) :=
  if !overloadClientMethods then []
  else
    let queries := (evaluatedModules.map (fun m => m.queries)).flatten
    if queries.length = 0 then [] else queryMapEntries queries

/-- A named schema type as produced by the schema compiler: declared name
and generated identifier. -/
structure SchemaTypeDeclaration where
  id : Str
  name : Str
deriving DecidableEq

/-- A schema entry (only the declared name is relevant to the claims). -/
structure SchemaEntry where
  name : Str
deriving DecidableEq

/-- Modelled from the spec: `schemaTypeGenerator.ts` is not under `src/`.
Identifiers are assigned once, in schema declaration order, through the
sanitizer and uniqueness resolution, each reserved before the next entry is
processed.  (Duplicate declared names abort compilation before this point
and are not modelled.) -/
def assignSchemaIds : List SchemaEntry → List Str → List SchemaTypeDeclaration
  | [], _ => []
  | e :: rest, currentIdentifiers =>
    let id := getUniqueIdentifierForName e.name currentIdentifiers
    ⟨id, e.name⟩ :: assignSchemaIds rest (currentIdentifiers ++ [id])

/-- The schema-type declaration table of one generation run. -/
def schemaTypeDeclarationsOf (schema : List SchemaEntry) : List SchemaTypeDeclaration :=
  assignSchemaIds schema []

/-- Modelled from the spec: the name of the all-schema-types alias exported
by the missing `constants.ts` (visible in the test snapshots). -/
def ALL_SANITY_SCHEMA_TYPES : Str := str "AllSanitySchemaTypes"

/-- Body of the `AllSanitySchemaTypes` alias: the source builds either
`t.tsUnionType` of `t.tsTypeReference` per schema type, or
`t.tsNeverKeyword()`. -/
inductive AllSchemaTypesBody where
  | never : AllSchemaTypesBody
  | unionOfReferences (ids : List Str) : AllSchemaTypesBody
deriving DecidableEq

/-- Translation of `TypeGenerator.getAllSanitySchemaTypesDeclaration`: the
alias identifier together with its body — a union of references to all
schema type identifiers when there is at least one, `never` otherwise. -/
def getAllSanitySchemaTypesDeclaration (schemaTypes : List SchemaTypeDeclaration) :
    Str × AllSchemaTypesBody :=
  (ALL_SANITY_SCHEMA_TYPES,
   if schemaTypes.length > 0 then .unionOfReferences (schemaTypes.map (fun d => d.id))
   else .never)

/-- One emitted top-level declaration, abstracted to the data the ordering
and grouping claims are about. -/
inductive Decl where
  | schemaType (decl : SchemaTypeDeclaration)
  | allSchemaTypes (body : AllSchemaTypesBody)
  | internalReferenceSymbol
  | arrayOf
  | extractedType (fingerprint : Str) (id : Str)
  | queryResult (id : Str) (comments : List Str)
  | queryMapImport
  | queryMapInterface (entries : List (Str × List Str))
deriving DecidableEq

/-- Translation of `TypeGenerator.generateTypes`, as the ordered list of
declarations pushed into the output program: schema types, the all-schema-
types alias, the reference-marker symbol, the extracted deduplicated types
(in registry order), the `ArrayOf` alias when the generator's usage flag is
set, the per-query result declarations, and the query-map declaration (its
module import plus the module interface) when present.  `evaluate` and
`isArrayOfUsed` stand for the evaluation service and the `isArrayOfUsed()`
flag of the missing `schemaTypeGenerator.ts`; the reporter events and the
declaration bodies are not modelled. -/
def generateTypes (evaluate : ExtractedQuery → Except Str (TypeEvaluationStats × TypeNode))
    (isArrayOfUsed : Bool) (root : Str) (overloadClientMethods : Bool)
    (schema : List SchemaEntry) (queries : List ExtractedModule) : List Decl :=
  let schemaTypeDecls := schemaTypeDeclarationsOf schema
  let allSanity := getAllSanitySchemaTypesDeclaration schemaTypeDecls
  let collectedModules := collectModules evaluate queries
  let allTypeNodes := (collectedModules.map (fun m => m.queries.map (fun q => q.typeNode))).flatten
  let fingerprints := collectObjectFingerprints allTypeNodes
  let currentIdentifiers := schemaTypeDecls.map (fun d => d.id)
  let registry := buildDeduplicationRegistry fingerprints currentIdentifiers
  let currentIdentifiers2 := currentIdentifiers ++ registry.extractedTypes.map (fun e => e.2.1)
  let evaluated := generateEvaluatedModules root collectedModules currentIdentifiers2
  let queryMap := getQueryMapDeclaration overloadClientMethods evaluated.1
  (schemaTypeDecls.map Decl.schemaType) ++
    [Decl.allSchemaTypes allSanity.2] ++
    [Decl.internalReferenceSymbol] ++
    (registry.extractedTypes.map (fun e => Decl.extractedType e.1 e.2.1)) ++
    (if isArrayOfUsed then [Decl.arrayOf] else []) ++
    ((evaluated.1.map (fun m => m.queries.map (fun q => Decl.queryResult q.id q.comments))).flatten) ++
    (if queryMap.isEmpty then [] else [Decl.queryMapImport, Decl.queryMapInterface queryMap])

/-! ### The emission order asserted by the specification (claim C4) -/

/-- Kind code of a declaration, used to compare emission orders. -/
def declKind : Decl → ℕ
  | .schemaType _ => 0
  | .allSchemaTypes _ => 1
  | .internalReferenceSymbol => 2
  | .arrayOf => 3
  | .extractedType _ _ => 4
  | .queryResult _ _ => 5
  | .queryMapImport => 6
  | .queryMapInterface _ => 7

/-- Modelled from the spec's words, for comparison with the source order:
the claimed emission order is schema types, the all-schema-types alias, the
reference-marker symbol, then (conditionally) the `ArrayOf` alias, then the
deduplicated shared inline types, then the query result declarations, then
(conditionally) the query-map declaration.  The recogniser accepts exactly
the kind sequences `0* 1 2 3? 4* 5* (6 7)?`. -/
def specClaimedDeclOrder (decls : List Decl) : Bool :=
  let ks := decls.map declKind
  let afterSchema := ks.dropWhile (fun k => k == 0)
  match afterSchema with
  | 1 :: 2 :: rest =>
    let afterArrayOf := match rest with | 3 :: r => r | _ => rest
    let afterExtracted := afterArrayOf.dropWhile (fun k => k == 4)
    let afterQueries := afterExtracted.dropWhile (fun k => k == 5)
    afterQueries == [] || afterQueries == [6, 7]
  | _ => false

/-- A concrete object type node with two meaningful attributes (`slug`-like
shape), used to exercise the deduplication path of `generateTypes`. -/
def sharedObjNode : TypeNode :=
  .object [(str "a", false, .string none), (str "b", false, .string none)] none none

/-- A concrete evaluation service that succeeds on every query with
`sharedObjNode` as the result type. -/
def evalShared : ExtractedQuery → Except Str (TypeEvaluationStats × TypeNode) :=
  fun _ => .ok (⟨1, 0, 0⟩, sharedObjNode)

/-- One extracted module with two queries of identical text, so that the
shared object shape is seen twice and the query map groups two results. -/
def sharedModules : List ExtractedModule :=
  [⟨[], str "a.ts", [⟨str "a.ts", str "*", str "q1"⟩, ⟨str "a.ts", str "*", str "q2"⟩]⟩]

/-! ## Supporting lemmas -/

theorem endsWith_iff {l v : Str} : endsWith l v = true ↔ v <:+ l := by
  simp only [endsWith]
  exact List.isSuffixOf_iff_suffix

theorem endsWith_append (u v : Str) : endsWith (u ++ v) v = true :=
  endsWith_iff.mpr (List.suffix_append u v)

theorem endsWith_eq_of_length {l v w : Str} (hv : endsWith l v = true)
    (hw : endsWith l w = true) (hlen : v.length = w.length) : v = w := by
  obtain ⟨a, ha⟩ := endsWith_iff.mp hv
  obtain ⟨b, hb⟩ := endsWith_iff.mp hw
  rw [← hb] at ha
  have hab : a.length = b.length := by
    have := congrArg List.length ha
    simp at this
    omega
  exact (List.append_inj ha hab).2

theorem endsWith_of_suffix {l v w : Str} (hv : endsWith l v = true) (hw : w <:+ v) :
    endsWith l w = true :=
  endsWith_iff.mpr (hw.trans (endsWith_iff.mp hv))

theorem endsWith_false_of_length_ne {l v w : Str} (hv : endsWith l v = true)
    (hlen : v.length = w.length) (hne : v ≠ w) : endsWith l w = false := by
  cases hwe : endsWith l w with
  | false => rfl
  | true => exact absurd (endsWith_eq_of_length hv hwe hlen) hne

theorem take_append_of_sub {α : Type} (u v : List α) (k : ℕ) (hk : k ≤ v.length) :
    (u ++ v).take (u.length + v.length - k) = u ++ v.take (v.length - k) := by
  rw [List.take_append_eq_append_take]
  congr 1
  · rw [List.take_of_length_le]
    omega
  · congr 1
    omega

theorem append_length_gt {u v : Str} (k : ℕ) (hv : k < v.length) : (u ++ v).length > k := by
  simp only [List.length_append]
  omega

/-! ## Claim C9 -/

/-- Claim C9: `singularize` is a pure function mapping `"posts"` to
`"post"`, `"categories"` to `"category"`, `"addresses"` to `"address"`,
`"boss"` to `"boss"` and `"us"` to `"us"`; words ending in `zzes` with
length greater than 4 lose their last three characters.  Correction: other
words ending in `zes` do not lose the trailing `es` — the authoritative
revision of `singularize` removed `zes` from the sibilant-endings rule, so
such words fall through to the general trailing-`s` rule and lose only the
final `s`. -/
theorem claim_C9_singularize :
    singularize (str "posts") = str "post" ∧
    singularize (str "categories") = str "category" ∧
    singularize (str "addresses") = str "address" ∧
    singularize (str "boss") = str "boss" ∧
    singularize (str "us") = str "us" ∧
    (∀ u : Str, (u ++ str "zzes").length > 4 →
      singularize (u ++ str "zzes") = u ++ str "z") ∧
    (∀ u : Str,
      ¬(endsWith (u ++ str "zes") (str "zzes") = true ∧ (u ++ str "zes").length > 4) →
      singularize (u ++ str "zes") = u ++ str "ze") := by
  refine ⟨by decide, by decide, by decide, by decide, by decide, ?_, ?_⟩
  · intro u hu
    have hz : endsWith (u ++ str "zzes") (str "zzes") = true := endsWith_append u _
    have hzes : endsWith (u ++ str "zzes") (str "zes") = true :=
      endsWith_of_suffix hz ⟨str "z", by decide⟩
    have hies : endsWith (u ++ str "zzes") (str "ies") = false :=
      endsWith_false_of_length_ne hzes (by decide) (by decide)
    have hdec : decide ((u ++ str "zzes").length > 4) = true := decide_eq_true hu
    unfold singularize
    rw [hies, hz, hdec]
    simp only [Bool.false_and, Bool.and_self, Bool.false_eq_true, if_false, if_true]
    have h1 : str "zzes" = ['z', 'z', 'e', 's'] := by decide
    rw [h1, List.take_append_eq_append_take]
    have h2 : (u ++ ['z', 'z', 'e', 's']).length - 3 = u.length + 1 := by
      simp [List.length_append]
    rw [h2, List.take_of_length_le (by omega)]
    congr 1
    rw [show u.length + 1 - u.length = 1 by omega]
    decide
  · intro u hcond
    have hzes : endsWith (u ++ str "zes") (str "zes") = true := endsWith_append u _
    have hs : endsWith (u ++ str "zes") (str "s") = true :=
      endsWith_of_suffix hzes ⟨str "ze", by decide⟩
    have hes : endsWith (u ++ str "zes") (str "es") = true :=
      endsWith_of_suffix hzes ⟨str "z", by decide⟩
    have hies : endsWith (u ++ str "zes") (str "ies") = false :=
      endsWith_false_of_length_ne hzes (by decide) (by decide)
    have hss : endsWith (u ++ str "zes") (str "ss") = false :=
      endsWith_false_of_length_ne hes (by decide) (by decide)
    have hsses : endsWith (u ++ str "zes") (str "sses") = false := by
      cases h : endsWith (u ++ str "zes") (str "sses") with
      | false => rfl
      | true =>
        have : endsWith (u ++ str "zes") (str "ses") = true :=
          endsWith_of_suffix h ⟨str "s", by decide⟩
        have := endsWith_eq_of_length hzes this (by decide)
        exact absurd this (by decide)
    have hshes : endsWith (u ++ str "zes") (str "shes") = false := by
      cases h : endsWith (u ++ str "zes") (str "shes") with
      | false => rfl
      | true =>
        have : endsWith (u ++ str "zes") (str "hes") = true :=
          endsWith_of_suffix h ⟨str "s", by decide⟩
        have := endsWith_eq_of_length hzes this (by decide)
        exact absurd this (by decide)
    have hches : endsWith (u ++ str "zes") (str "ches") = false := by
      cases h : endsWith (u ++ str "zes") (str "ches") with
      | false => rfl
      | true =>
        have : endsWith (u ++ str "zes") (str "hes") = true :=
          endsWith_of_suffix h ⟨str "c", by decide⟩
        have := endsWith_eq_of_length hzes this (by decide)
        exact absurd this (by decide)
    have hxes : endsWith (u ++ str "zes") (str "xes") = false :=
      endsWith_false_of_length_ne hzes (by decide) (by decide)
    have hzzes : (endsWith (u ++ str "zes") (str "zzes") && decide ((u ++ str "zes").length > 4)) = false := by
      cases h : endsWith (u ++ str "zes") (str "zzes") with
      | false => simp
      | true =>
        have hd : decide ((u ++ str "zes").length > 4) = false :=
          decide_eq_false (fun hgt => hcond ⟨h, hgt⟩)
        rw [hd, Bool.and_false]
    have hgt2 : decide ((u ++ str "zes").length > 2) = true :=
      decide_eq_true (append_length_gt 2 (by decide))
    unfold singularize
    rw [hies, hzzes, hsses, hshes, hches, hxes, hs, hss, hgt2]
    simp only [Bool.false_and, Bool.or_self, Bool.false_or, Bool.not_false,
      Bool.true_and, Bool.and_self, Bool.false_eq_true, if_false, if_true]
    have h1 : str "zes" = ['z', 'e', 's'] := by decide
    rw [h1, List.take_append_eq_append_take]
    have h2 : (u ++ ['z', 'e', 's']).length - 1 = u.length + 2 := by
      simp [List.length_append]
    rw [h2, List.take_of_length_le (by omega)]
    congr 1
    rw [show u.length + 2 - u.length = 2 by omega]
    decide

/-- Counterexample to claim C9 as stated: `"mazes"` ends in `zes` but is
not a doubled-z plural; the code strips only the trailing `s`, giving
`"maze"`, not the `"maz"` that the claimed general `zes` rule (strip `es`)
would give. -/
theorem claim_C9_singularize_counterexample :
    singularize (str "mazes") = str "maze" ∧ str "maze" ≠ str "maz" := by
  decide

/-- Witness for claim C9's hypotheses: the doubled-z rule applied to
`"quizzes"` and the trailing-`s` rule applied to `"mazes"`. -/
theorem claim_C9_singularize_witness :
    singularize (str "qui" ++ str "zzes") = str "qui" ++ str "z" ∧
    singularize (str "ma" ++ str "zes") = str "ma" ++ str "ze" := by
  constructor
  · exact (claim_C9_singularize.2.2.2.2.2.1) (str "qui") (by decide)
  · exact (claim_C9_singularize.2.2.2.2.2.2) (str "ma") (by decide)

/-! ## Claim C10 -/

/-- Claim C10: with a schema of zero type entries the all-schema-types
alias is still emitted, with body `never` (not an empty union, not
omitted); with one or more entries its body is the union of the entries'
generated identifiers in schema declaration order. -/
theorem claim_C10_all_schema_types_alias :
    (getAllSanitySchemaTypesDeclaration []).2 = .never ∧
    (∀ schemaTypes : List SchemaTypeDeclaration, schemaTypes ≠ [] →
      (getAllSanitySchemaTypesDeclaration schemaTypes).2 =
        .unionOfReferences (schemaTypes.map (fun d => d.id))) ∧
    (∀ evaluate isArrayOfUsed root overloadClientMethods schema queries,
      Decl.allSchemaTypes
          (getAllSanitySchemaTypesDeclaration (schemaTypeDeclarationsOf schema)).2 ∈
        generateTypes evaluate isArrayOfUsed root overloadClientMethods schema queries) := by
  refine ⟨by decide, ?_, ?_⟩
  · intro schemaTypes hne
    have : 0 < schemaTypes.length := List.length_pos.mpr hne
    simp [getAllSanitySchemaTypesDeclaration, this]
  · intro evaluate isArrayOfUsed root overloadClientMethods schema queries
    simp only [generateTypes, List.mem_append, List.mem_singleton]
    tauto

/-- Witness for claim C10: a one-entry schema produces a union body, and
the alias declaration occurs in a concrete generation run. -/
theorem claim_C10_all_schema_types_alias_witness :
    (getAllSanitySchemaTypesDeclaration [⟨str "Foo", str "foo"⟩]).2 =
        .unionOfReferences [str "Foo"] ∧
    Decl.allSchemaTypes
        (getAllSanitySchemaTypesDeclaration (schemaTypeDeclarationsOf [⟨str "foo"⟩])).2 ∈
      generateTypes (fun _ => .error (str "no evaluator")) false (str "/src") true
        [⟨str "foo"⟩] [] := by
  constructor
  · exact claim_C10_all_schema_types_alias.2.1 [⟨str "Foo", str "foo"⟩] (by decide)
  · exact claim_C10_all_schema_types_alias.2.2 (fun _ => .error (str "no evaluator")) false
      (str "/src") true [⟨str "foo"⟩] []

/-! ## Claim C2 -/

theorem buildDedupAux_cons_skip_count {fp0 : Str} {rec0 : OccurrenceRecord}
    {tl : FingerprintMap} {cur : List Str} (h : rec0.count < 2) :
    buildDedupAux ((fp0, rec0) :: tl) cur = buildDedupAux tl cur := by
  simp [buildDedupAux, h]

theorem buildDedupAux_cons_skip_worth {fp0 : Str} {rec0 : OccurrenceRecord}
    {tl : FingerprintMap} {cur : List Str} (h1 : ¬ rec0.count < 2)
    (h2 : isWorthExtracting rec0.typeNode = false) :
    buildDedupAux ((fp0, rec0) :: tl) cur = buildDedupAux tl cur := by
  simp [buildDedupAux, h1, h2]

theorem buildDedupAux_cons_extract {fp0 : Str} {rec0 : OccurrenceRecord}
    {tl : FingerprintMap} {cur : List Str} (h1 : ¬ rec0.count < 2)
    (h2 : isWorthExtracting rec0.typeNode = true) :
    buildDedupAux ((fp0, rec0) :: tl) cur =
      (fp0, getUniqueIdentifierForName (inlinePrefix rec0.candidateName) cur,
        rec0.typeNode) ::
        buildDedupAux tl
          (cur ++ [getUniqueIdentifierForName (inlinePrefix rec0.candidateName) cur]) := by
  simp [buildDedupAux, h1, h2]

theorem buildDedupAux_keys_subset :
    ∀ (fps : FingerprintMap) (current : List Str) (e : Str × Str × TypeNode),
      e ∈ buildDedupAux fps current → e.1 ∈ fps.map (fun p => p.1) := by
  intro fps
  induction fps with
  | nil => intro current e h; simp [buildDedupAux] at h
  | cons hd tl ih =>
    intro current e h
    obtain ⟨fp0, rec0⟩ := hd
    by_cases h1 : rec0.count < 2
    · rw [buildDedupAux_cons_skip_count h1] at h
      exact List.mem_cons_of_mem _ (ih _ _ h)
    · cases h2 : isWorthExtracting rec0.typeNode with
      | false =>
        rw [buildDedupAux_cons_skip_worth h1 h2] at h
        exact List.mem_cons_of_mem _ (ih _ _ h)
      | true =>
        rw [buildDedupAux_cons_extract h1 h2] at h
        rcases List.mem_cons.mp h with h3 | h3
        · rw [h3]
          simp only [List.map_cons]
          exact List.mem_cons_self _ _
        · exact List.mem_cons_of_mem _ (ih _ _ h3)

theorem buildDedupAux_find?_isSome :
    ∀ (fps : FingerprintMap) (current : List Str) (fp : Str) (record : OccurrenceRecord),
      (fps.map (fun p => p.1)).Nodup → (fp, record) ∈ fps →
      ((buildDedupAux fps current).find? (fun e => e.1 == fp)).isSome =
        (decide (2 ≤ record.count) && isWorthExtracting record.typeNode) := by
  intro fps
  induction fps with
  | nil => intro current fp record _ h; simp at h
  | cons hd tl ih =>
    intro current fp record hnodup hmem
    obtain ⟨fp0, rec0⟩ := hd
    have hnodup2 : (tl.map (fun p => p.1)).Nodup := (List.nodup_cons.mp hnodup).2
    have hfp0 : fp0 ∉ tl.map (fun p => p.1) := (List.nodup_cons.mp hnodup).1
    have hnone_of_notin : ∀ cur : List Str,
        ((buildDedupAux tl cur).find? (fun e => e.1 == fp0)).isSome = false := by
      intro cur
      cases hfind : (buildDedupAux tl cur).find? (fun e => e.1 == fp0) with
      | none => rfl
      | some e =>
        have he := List.find?_some hfind
        have hemem := List.mem_of_find?_eq_some hfind
        have hkey : e.1 ∈ tl.map (fun p => p.1) := buildDedupAux_keys_subset tl cur e hemem
        rw [beq_iff_eq] at he
        rw [he] at hkey
        exact absurd hkey hfp0
    rcases List.mem_cons.mp hmem with hhd | htl
    · injection hhd with hfp hrec
      subst hfp
      subst hrec
      by_cases h1 : record.count < 2
      · have hnot : ¬ 2 ≤ record.count := by omega
        rw [buildDedupAux_cons_skip_count h1, hnone_of_notin current,
          decide_eq_false hnot, Bool.false_and]
      · cases h2 : isWorthExtracting record.typeNode with
        | true =>
          rw [buildDedupAux_cons_extract h1 h2]
          simp [List.find?_cons, decide_eq_true (by omega : 2 ≤ record.count)]
        | false =>
          rw [buildDedupAux_cons_skip_worth h1 h2, hnone_of_notin current,
            Bool.and_false]
    · have hfpne : fp0 ≠ fp := by
        intro hcontra
        subst hcontra
        exact hfp0 (List.mem_map.mpr ⟨(fp0, record), htl, rfl⟩)
      by_cases h1 : rec0.count < 2
      · rw [buildDedupAux_cons_skip_count h1]
        exact ih _ fp record hnodup2 htl
      · cases h2 : isWorthExtracting rec0.typeNode with
        | true =>
          rw [buildDedupAux_cons_extract h1 h2,
            List.find?_cons_of_neg _ (by simpa using hfpne)]
          exact ih _ fp record hnodup2 htl
        | false =>
          rw [buildDedupAux_cons_skip_worth h1 h2]
          exact ih _ fp record hnodup2 htl

/-- Claim C2: `buildDeduplicationRegistry` extracts a fingerprint into the
registry exactly when its occurrence count is at least 2 and its object has
at least 2 meaningful attributes, where meaningful excludes exactly the
keys `_key`, `_ref` and `_type`. -/
theorem claim_C2_dedup_extraction_iff :
    ∀ (fps : FingerprintMap) (existing : List Str) (fp : Str) (record : OccurrenceRecord)
      (attrs : List ObjectAttr) (rest : Option TypeNode) (deref : Option Str),
      (fps.map (fun p => p.1)).Nodup →
      (fp, record) ∈ fps →
      record.typeNode = .object attrs rest deref →
      ((registryGet (buildDeduplicationRegistry fps existing) fp).isSome ↔
        (2 ≤ record.count ∧
          2 ≤ ((attrs.map (fun a => a.1)).filter
            (fun k => decide (k ∉ [str "_key", str "_ref", str "_type"]))).length)) := by
  intro fps existing fp record attrs rest deref hnodup hmem hobj
  have h := buildDedupAux_find?_isSome fps existing fp record hnodup hmem
  have hreg : (registryGet (buildDeduplicationRegistry fps existing) fp).isSome =
      ((buildDedupAux fps existing).find? (fun e => e.1 == fp)).isSome := by
    simp [registryGet, buildDeduplicationRegistry]
  have hfilt : (attrs.map (fun a => a.1)).filter (fun k => !STRUCTURAL_KEYS.contains k) =
      (attrs.map (fun a => a.1)).filter
        (fun k => decide (k ∉ [str "_key", str "_ref", str "_type"])) := by
    apply List.filter_congr
    intro k _
    have hcm : STRUCTURAL_KEYS.contains k = decide (k ∈ [str "_key", str "_ref", str "_type"]) := by
      simp [STRUCTURAL_KEYS, List.contains, List.elem_eq_mem]
    by_cases hk : k ∈ [str "_key", str "_ref", str "_type"]
    · have hk2 : k ∈ STRUCTURAL_KEYS := hk
      simp [hcm, hk, hk2]
    · have hk2 : k ∉ STRUCTURAL_KEYS := hk
      simp [hcm, hk, hk2]
  rw [hreg, h, hobj]
  simp only [isWorthExtracting, hfilt, Bool.and_eq_true, decide_eq_true_eq]

/-- Witness for claim C2: a shape with exactly two non-structural
attributes occurring exactly twice is extracted; the same kind of shape
occurring once, and a one-meaningful-attribute shape occurring twice, are
not. -/
theorem claim_C2_dedup_extraction_iff_witness :
    (registryGet
        (buildDeduplicationRegistry
          [(str "f1", ⟨some (str "img"), 2,
            .object [(str "_type", false, .string (some (str "img"))),
                     (str "alt", false, .string none),
                     (str "url", false, .string none)] none none⟩)] [])
        (str "f1")).isSome ∧
    (registryGet
        (buildDeduplicationRegistry
          [(str "f2", ⟨some (str "img"), 1,
            .object [(str "alt", false, .string none),
                     (str "url", false, .string none)] none none⟩)] [])
        (str "f2")).isSome = false ∧
    (registryGet
        (buildDeduplicationRegistry
          [(str "f3", ⟨some (str "img"), 2,
            .object [(str "_type", false, .string (some (str "img"))),
                     (str "url", false, .string none)] none none⟩)] [])
        (str "f3")).isSome = false := by
  refine ⟨?_, by decide, by decide⟩
  exact Option.isSome_iff_exists.mpr
    (Option.isSome_iff_exists.mp
      ((claim_C2_dedup_extraction_iff
        [(str "f1", ⟨some (str "img"), 2,
          .object [(str "_type", false, .string (some (str "img"))),
                   (str "alt", false, .string none),
                   (str "url", false, .string none)] none none⟩)] [] (str "f1")
        ⟨some (str "img"), 2,
          .object [(str "_type", false, .string (some (str "img"))),
                   (str "alt", false, .string none),
                   (str "url", false, .string none)] none none⟩
        [(str "_type", false, .string (some (str "img"))),
         (str "alt", false, .string none),
         (str "url", false, .string none)] none none
        (by decide) (by decide) rfl).mpr ⟨by decide, by decide⟩))

/-! ## Claim C3 -/

theorem digitChar_toNat {m : ℕ} (hm : m < 10) : (digitChar m).toNat = 48 + m := by
  interval_cases m <;> decide

theorem decimalCharsAux_foldl_val :
    ∀ (fuel n : ℕ), n < 10 ^ fuel → ∀ acc : ℕ,
      (decimalCharsAux fuel n).foldl (fun a c => a * 10 + (c.toNat - 48)) acc =
        acc * 10 ^ (decimalCharsAux fuel n).length + n := by
  intro fuel
  induction fuel with
  | zero => intro n hn acc; interval_cases n; simp [decimalCharsAux]
  | succ fuel ih =>
    intro n hn acc
    by_cases hsmall : n < 10
    · simp [decimalCharsAux, hsmall, digitChar_toNat hsmall]
    · have hdiv : n / 10 < 10 ^ fuel := by
        rw [Nat.div_lt_iff_lt_mul (by omega)]
        calc n < 10 ^ (fuel + 1) := hn
        _ = 10 ^ fuel * 10 := by ring
      have hmod : n % 10 < 10 := Nat.mod_lt _ (by omega)
      simp only [decimalCharsAux, if_neg hsmall, List.foldl_append, List.length_append,
        List.foldl_cons, List.foldl_nil, List.length_cons, List.length_nil]
      rw [ih (n / 10) hdiv acc, digitChar_toNat hmod]
      have : 48 + n % 10 - 48 = n % 10 := by omega
      rw [this, pow_succ]
      have hdm : 10 * (n / 10) + n % 10 = n := Nat.div_add_mod n 10
      ring_nf
      ring_nf at hdm ⊢
      nlinarith [hdm]

theorem decimalChars_val (n : ℕ) :
    (decimalChars n).foldl (fun a c => a * 10 + (c.toNat - 48)) 0 = n := by
  have hlt : n < 10 ^ (n + 1) := by
    calc n < 2 ^ n := Nat.lt_two_pow n
    _ ≤ 10 ^ n := Nat.pow_le_pow_left (by omega) n
    _ < 10 ^ (n + 1) := Nat.pow_lt_pow_right (by omega) (by omega)
  have := decimalCharsAux_foldl_val (n + 1) n hlt 0
  simpa [decimalChars] using this

theorem decimalChars_injective {m n : ℕ} (h : decimalChars m = decimalChars n) : m = n := by
  have hm := decimalChars_val m
  rw [h, decimalChars_val n] at hm
  exact hm.symm

theorem decimalChars_ne_nil (n : ℕ) : decimalChars n ≠ [] := by
  by_cases hsmall : n < 10 <;> simp [decimalChars, decimalCharsAux, hsmall]

theorem identifierCandidate_injective (d : Str) :
    Function.Injective (identifierCandidate d) := by
  intro j k h
  by_cases hj : j = 0 <;> by_cases hk : k = 0
  · omega
  · exfalso
    rw [hj] at h
    rw [show identifierCandidate d 0 = d from by simp [identifierCandidate]] at h
    rw [show identifierCandidate d k = d ++ str "_" ++ decimalChars (k + 1) from by
      simp [identifierCandidate, hk]] at h
    have hlen := congrArg List.length h
    simp only [List.length_append] at hlen
    have hne : (decimalChars (k + 1)).length ≠ 0 :=
      fun hc => decimalChars_ne_nil (k + 1) (List.length_eq_zero.mp hc)
    have hu : (str "_").length = 1 := by decide
    omega
  · exfalso
    rw [hk] at h
    rw [show identifierCandidate d 0 = d from by simp [identifierCandidate]] at h
    rw [show identifierCandidate d j = d ++ str "_" ++ decimalChars (j + 1) from by
      simp [identifierCandidate, hj]] at h
    have hlen := congrArg List.length h
    simp only [List.length_append] at hlen
    have hne : (decimalChars (j + 1)).length ≠ 0 :=
      fun hc => decimalChars_ne_nil (j + 1) (List.length_eq_zero.mp hc)
    have hu : (str "_").length = 1 := by decide
    omega
  · rw [show identifierCandidate d j = d ++ str "_" ++ decimalChars (j + 1) from by
        simp [identifierCandidate, hj],
      show identifierCandidate d k = d ++ str "_" ++ decimalChars (k + 1) from by
        simp [identifierCandidate, hk], List.append_assoc, List.append_assoc] at h
    have h2 := List.append_cancel_left h
    have h3 := List.append_cancel_left h2
    have := decimalChars_injective h3
    omega

theorem isTakenIdentifier_iff_mem {name : Str} {ids : List Str} :
    isTakenIdentifier name ids = true ↔ name ∈ ids ++ RESERVED_IDENTIFIERS := by
  simp [isTakenIdentifier, List.mem_append]

theorem exists_free_candidate (d : Str) (ids : List Str) :
    ∃ j, j < ids.length + RESERVED_IDENTIFIERS.length + 1 ∧
      isTakenIdentifier (identifierCandidate d j) ids = false := by
  by_contra hcontra
  push_neg at hcontra
  have htaken : ∀ j < ids.length + RESERVED_IDENTIFIERS.length + 1,
      identifierCandidate d j ∈ ids ++ RESERVED_IDENTIFIERS := by
    intro j hj
    have := hcontra j hj
    rcases hb : isTakenIdentifier (identifierCandidate d j) ids with _ | _
    · exact absurd hb (this ·)
    · exact isTakenIdentifier_iff_mem.mp hb
  set B := ids.length + RESERVED_IDENTIFIERS.length with hB
  have hnodup : ((List.range (B + 1)).map (identifierCandidate d)).Nodup :=
    (List.nodup_range (B + 1)).map (identifierCandidate_injective d)
  have hsub : (List.range (B + 1)).map (identifierCandidate d) ⊆ ids ++ RESERVED_IDENTIFIERS := by
    intro x hx
    obtain ⟨j, hj, rfl⟩ := List.mem_map.mp hx
    exact htaken j (List.mem_range.mp hj)
  have hle := (List.subperm_of_subset hnodup hsub).length_le
  simp only [List.length_map, List.length_range, List.length_append] at hle
  omega

theorem find?_range_least :
    ∀ (n : ℕ) (p : ℕ → Bool) (j : ℕ), (List.range n).find? p = some j →
      p j = true ∧ ∀ i < j, p i = false := by
  intro n
  induction n with
  | zero => intro p j h; simp at h
  | succ n ih =>
    intro p j h
    rw [List.range_succ_eq_map] at h
    by_cases hp0 : p 0 = true
    · rw [List.find?_cons_of_pos _ hp0] at h
      injection h with h2
      subst h2
      exact ⟨hp0, by omega⟩
    · have hp0f : p 0 = false := Bool.eq_false_iff.mpr hp0
      rw [List.find?_cons_of_neg _ (by simp [hp0f]), List.find?_map] at h
      cases hfind : (List.range n).find? (p ∘ Nat.succ) with
      | none => rw [hfind] at h; simp at h
      | some j2 =>
        rw [hfind] at h
        simp only [Option.map] at h
        injection h with h2
        subst h2
        obtain ⟨hpj, hmin⟩ := ih (p ∘ Nat.succ) j2 hfind
        refine ⟨by simpa using hpj, ?_⟩
        intro i hi
        match i with
        | 0 => exact hp0f
        | i + 1 =>
          have := hmin i (by omega)
          simpa using this

theorem getUniqueIdentifierForName_spec (name : Str) (ids : List Str) :
    ∃ k, getUniqueIdentifierForName name ids =
        identifierCandidate (normalizeIdentifier name) k ∧
      isTakenIdentifier (identifierCandidate (normalizeIdentifier name) k) ids = false ∧
      ∀ j < k, isTakenIdentifier (identifierCandidate (normalizeIdentifier name) j) ids = true := by
  set d := normalizeIdentifier name with hd
  set B := ids.length + RESERVED_IDENTIFIERS.length + 1 with hB
  obtain ⟨j0, hj0B, hj0free⟩ := exists_free_candidate d ids
  cases hfind : (List.range B).find? (fun j => !isTakenIdentifier (identifierCandidate d j) ids) with
  | none =>
    exfalso
    have := List.find?_eq_none.mp hfind j0 (List.mem_range.mpr hj0B)
    simp [hj0free] at this
  | some k =>
    obtain ⟨hk, hmin⟩ := find?_range_least B _ k hfind
    refine ⟨k, ?_, ?_, ?_⟩
    · simp only [getUniqueIdentifierForName]
      rw [← hd, ← hB, hfind]
    · simpa using hk
    · intro j hj
      have := hmin j hj
      simpa using this

/-- Claim C3: registry naming is collision-free and sequential.  In
general, `getUniqueIdentifierForName` returns the normalized desired name
with the first unused integer suffix (starting at `_2`) appended whenever
an earlier candidate is already reserved or a reserved word; concretely,
with `"InlineSlug"` already reserved a candidate named `slug` is assigned
`"InlineSlug_2"`, and two different fingerprints both carrying candidate
name `item` resolve to `"InlineItem"` and `"InlineItem_2"`.  The input
reservation set is never mutated: in this model the function only returns
a name (the source copies callers' sets before extending them). -/
theorem claim_C3_registry_naming :
    (∀ (name : Str) (ids : List Str), ∃ k,
      getUniqueIdentifierForName name ids =
        identifierCandidate (normalizeIdentifier name) k ∧
      isTakenIdentifier (identifierCandidate (normalizeIdentifier name) k) ids = false ∧
      ∀ j < k, isTakenIdentifier (identifierCandidate (normalizeIdentifier name) j) ids = true) ∧
    (buildDeduplicationRegistry
        [(str "fpSlug", ⟨some (str "slug"), 2,
          .object [(str "current", false, .string none),
                   (str "source", false, .string none)] none none⟩)]
        [str "InlineSlug"]).extractedTypes.map (fun e => e.2.1) = [str "InlineSlug_2"] ∧
    (buildDeduplicationRegistry
        [(str "fpA", ⟨some (str "item"), 2,
          .object [(str "a", false, .string none),
                   (str "b", false, .string none)] none none⟩),
         (str "fpB", ⟨some (str "item"), 2,
          .object [(str "c", false, .number none),
                   (str "d", false, .number none)] none none⟩)]
        []).extractedTypes.map (fun e => e.2.1) = [str "InlineItem", str "InlineItem_2"] := by
  exact ⟨getUniqueIdentifierForName_spec, by decide, by decide⟩

/-- Witness for claim C3: the general clause applied to the concrete
`InlineItem` collision, together with the resulting concrete name. -/
theorem claim_C3_registry_naming_witness :
    (∃ k, getUniqueIdentifierForName (str "InlineItem") [str "InlineItem"] =
        identifierCandidate (normalizeIdentifier (str "InlineItem")) k ∧
      isTakenIdentifier (identifierCandidate (normalizeIdentifier (str "InlineItem")) k)
        [str "InlineItem"] = false ∧
      ∀ j < k, isTakenIdentifier (identifierCandidate (normalizeIdentifier (str "InlineItem")) j)
        [str "InlineItem"] = true) ∧
    getUniqueIdentifierForName (str "InlineItem") [str "InlineItem"] = str "InlineItem_2" := by
  exact ⟨claim_C3_registry_naming.1 (str "InlineItem") [str "InlineItem"], by decide⟩

/-! ## Claim C7 -/

theorem collectQueries_eq (evaluate : ExtractedQuery → Except Str (TypeEvaluationStats × TypeNode))
    (filename : Str) :
    ∀ qs : List ExtractedQuery,
      collectQueries evaluate filename qs =
        (qs.filterMap (fun q =>
          match evaluate q with
          | .ok (stats, typeNode) => some ⟨q, stats, typeNode⟩
          | .error _ => none),
         qs.filterMap (fun q =>
          match evaluate q with
          | .ok _ => none
          | .error cause =>
            some (.queryEvaluationError cause filename (some q.variableName)))) := by
  intro qs
  induction qs with
  | nil => simp [collectQueries]
  | cons q rest ih =>
    simp only [collectQueries, ih, List.filterMap_cons]
    cases hq : evaluate q with
    | ok v => obtain ⟨stats, typeNode⟩ := v; simp
    | error cause => simp

theorem generateEvaluatedQueries_toCollected (root filename : Str) :
    ∀ (qs : List CollectedQuery) (cur : List Str),
      (generateEvaluatedQueries root filename qs cur).1.map
        (fun q => q.toCollectedQuery) = qs := by
  intro qs
  induction qs with
  | nil => intro cur; simp [generateEvaluatedQueries]
  | cons q rest ih => intro cur; simp [generateEvaluatedQueries, ih]

/-- Claim C7: a query whose evaluation fails is recorded as a
`QueryEvaluationError` carrying the cause, the module's filename and the
query's variable, appended to that module's error list after the
pre-existing extraction errors; the failed query is excluded from the
collected queries, every other query of every module is still evaluated
(phase 1 is a total function over all modules), and phase 3 lowers exactly
the successfully collected queries of every module, preserving module
structure — no error escapes a module. -/
theorem claim_C7_evaluation_error_containment :
    ∀ (evaluate : ExtractedQuery → Except Str (TypeEvaluationStats × TypeNode))
      (modules : List ExtractedModule),
      (collectModules evaluate modules = modules.map (fun m =>
        ⟨m.errors ++ m.queries.filterMap (fun q =>
          match evaluate q with
          | .ok _ => none
          | .error cause =>
            some (.queryEvaluationError cause m.filename (some q.variableName))),
         m.filename,
         m.queries.filterMap (fun q =>
          match evaluate q with
          | .ok (stats, typeNode) => some ⟨q, stats, typeNode⟩
          | .error _ => none)⟩)) ∧
      (∀ (root : Str) (currentIdentifiers : List Str),
        (generateEvaluatedModules root (collectModules evaluate modules)
            currentIdentifiers).1.map
          (fun m => (m.filename, m.errors, m.queries.map (fun q => q.toCollectedQuery))) =
        (collectModules evaluate modules).map
          (fun m => (m.filename, m.errors, m.queries))) := by
  intro evaluate modules
  constructor
  · unfold collectModules
    apply List.map_congr_left
    intro m _
    rw [collectQueries_eq]
  · intro root currentIdentifiers
    generalize collectModules evaluate modules = collected
    induction collected generalizing currentIdentifiers with
    | nil => simp [generateEvaluatedModules]
    | cons m rest ih =>
      simp [generateEvaluatedModules, generateEvaluatedQueries_toCollected, ih]

/-! ## Claim C6 -/

theorem find?_map_key_preserving {β : Type} (f : Str × β → Str × β)
    (hf : ∀ e, (f e).1 = e.1) (q : Str) :
    ∀ l : List (Str × β),
      (l.map f).find? (fun e => e.1 == q) = (l.find? (fun e => e.1 == q)).map f := by
  intro l
  induction l with
  | nil => simp
  | cons e l ih =>
    simp only [List.map_cons, List.find?_cons, hf e]
    cases he : e.1 == q
    · simpa using ih
    · simp

theorem addQueryToMap_find?_self (acc : List (Str × List Str)) (qx : Str) (id : Str) :
    (addQueryToMap acc qx id).find? (fun e => e.1 == qx) =
      some (match acc.find? (fun e => e.1 == qx) with
            | some e => (e.1, e.2 ++ [id])
            | none => (qx, [id])) := by
  unfold addQueryToMap
  cases hfind : acc.find? (fun e => e.1 == qx) with
  | some e =>
    rw [if_pos (by simp [hfind])]
    have hf : ∀ e2 : Str × List Str,
        ((if e2.1 == qx then (e2.1, e2.2 ++ [id]) else e2)).1 = e2.1 := by
      intro e2
      by_cases h : e2.1 = qx <;> simp [h]
    rw [find?_map_key_preserving _ hf, hfind]
    have hkey : e.1 = qx := by
      have := List.find?_some hfind
      rwa [beq_iff_eq] at this
    simp [hkey]
  | none =>
    rw [if_neg (by simp [hfind])]
    rw [List.find?_append, hfind]
    simp

theorem addQueryToMap_find?_other (acc : List (Str × List Str)) (qx id : Str) {q : Str}
    (h : qx ≠ q) :
    (addQueryToMap acc qx id).find? (fun e => e.1 == q) =
      acc.find? (fun e => e.1 == q) := by
  unfold addQueryToMap
  by_cases hfind : (acc.find? (fun e => e.1 == qx)).isSome
  · rw [if_pos hfind]
    have hf : ∀ e2 : Str × List Str,
        ((if e2.1 == qx then (e2.1, e2.2 ++ [id]) else e2)).1 = e2.1 := by
      intro e2
      by_cases h2 : e2.1 = qx <;> simp [h2]
    rw [find?_map_key_preserving _ hf]
    cases hq : acc.find? (fun e => e.1 == q) with
    | none => simp
    | some e =>
      have hkey := List.find?_some hq
      rw [beq_iff_eq] at hkey
      have hne2 : ¬ e.1 = qx := by
        rw [hkey]
        exact fun hc => h hc.symm
      simp [hne2]
  · rw [if_neg hfind, List.find?_append]
    cases hq : acc.find? (fun e => e.1 == q) with
    | some e => simp
    | none =>
      simp only [Option.none_or]
      rw [List.find?_cons_of_neg _ (by simpa using h), List.find?_nil]

theorem foldl_addQueryToMap_find? :
    ∀ (qs : List EvaluatedQuery) (acc : List (Str × List Str)) (q : Str),
      ((qs.foldl (fun a x => addQueryToMap a x.query x.id) acc).find?
          (fun e => e.1 == q)) =
        (match acc.find? (fun e => e.1 == q) with
         | some e =>
           some (e.1, e.2 ++ (qs.filter (fun x => x.query == q)).map (fun x => x.id))
         | none =>
           if (qs.filter (fun x => x.query == q)) = [] then none
           else some (q, (qs.filter (fun x => x.query == q)).map (fun x => x.id))) := by
  intro qs
  induction qs with
  | nil =>
    intro acc q
    cases hfind : acc.find? (fun e => e.1 == q) <;> simp [hfind]
  | cons x qs ih =>
    intro acc q
    rw [List.foldl_cons, ih]
    by_cases hq : x.query == q
    · have hqeq : x.query = q := by rwa [beq_iff_eq] at hq
      subst hqeq
      rw [addQueryToMap_find?_self]
      cases hfind : acc.find? (fun e => e.1 == x.query) with
      | some e =>
        simp only [List.filter_cons, hq, if_pos rfl, List.map_cons]
        simp [List.append_assoc]
      | none =>
        simp only [List.filter_cons, hq, if_pos rfl, List.map_cons]
        simp
    · have hne : x.query ≠ q := by
        intro hc
        rw [hc] at hq
        simp at hq
      rw [addQueryToMap_find?_other _ _ _ hne]
      have hfilter : (x :: qs).filter (fun y => y.query == q) =
          qs.filter (fun y => y.query == q) := by
        rw [List.filter_cons]
        simp [Bool.eq_false_iff.mpr hq]
      rw [hfilter]

theorem addQueryToMap_keys_nodup (acc : List (Str × List Str)) (qx id : Str)
    (h : (acc.map (fun e => e.1)).Nodup) :
    ((addQueryToMap acc qx id).map (fun e => e.1)).Nodup := by
  unfold addQueryToMap
  by_cases hfind : (acc.find? (fun e => e.1 == qx)).isSome
  · rw [if_pos hfind]
    have : (acc.map (fun e => if e.1 == qx then (e.1, e.2 ++ [id]) else e)).map
        (fun e => e.1) = acc.map (fun e => e.1) := by
      rw [List.map_map]
      apply List.map_congr_left
      intro e _
      by_cases h2 : e.1 = qx <;> simp [h2]
    rw [this]
    exact h
  · rw [if_neg hfind]
    rw [List.map_append]
    have hnotin : qx ∉ acc.map (fun e => e.1) := by
      intro hmem
      obtain ⟨e, hemem, hekey⟩ := List.mem_map.mp hmem
      have : (acc.find? (fun e2 => e2.1 == qx)).isSome = true :=
        List.find?_isSome.mpr ⟨e, hemem, beq_iff_eq.mpr hekey⟩
      exact absurd this hfind
    simp only [List.map_cons, List.map_nil]
    rw [List.nodup_append]
    exact ⟨h, List.nodup_singleton _, by simpa using hnotin⟩

theorem foldl_addQueryToMap_keys_nodup :
    ∀ (qs : List EvaluatedQuery) (acc : List (Str × List Str)),
      (acc.map (fun e => e.1)).Nodup →
      (((qs.foldl (fun a x => addQueryToMap a x.query x.id) acc)).map
        (fun e => e.1)).Nodup := by
  intro qs
  induction qs with
  | nil => intro acc h; exact h
  | cons x qs ih =>
    intro acc h
    exact ih _ (addQueryToMap_keys_nodup acc x.query x.id h)

theorem addQueryToMap_length_le (acc : List (Str × List Str)) (qx id : Str) :
    acc.length ≤ (addQueryToMap acc qx id).length := by
  unfold addQueryToMap
  by_cases hfind : (acc.find? (fun e => e.1 == qx)).isSome
  · rw [if_pos hfind, List.length_map]
  · rw [if_neg hfind, List.length_append]
    omega

theorem foldl_addQueryToMap_length_le :
    ∀ (qs : List EvaluatedQuery) (acc : List (Str × List Str)),
      acc.length ≤ (qs.foldl (fun a x => addQueryToMap a x.query x.id) acc).length := by
  intro qs
  induction qs with
  | nil => intro acc; exact Nat.le_refl _
  | cons x qs ih =>
    intro acc
    exact (addQueryToMap_length_le acc x.query x.id).trans (ih _)

/-- Claim C6: the aggregate query map groups evaluated queries by exact
source-string equality — it is omitted (empty) exactly when there are no
evaluated queries; for every query string it holds exactly one entry,
whose value lists the result-type identifiers of every query sharing that
exact text, in encounter order; and two byte-identical queries in
different files bound to different variables yield two separate result
declarations but one aggregate entry with the union of both identifiers. -/
theorem claim_C6_query_map_grouping :
    (∀ evaluatedModules : List EvaluatedModule,
      (getQueryMapDeclaration true evaluatedModules = [] ↔
        (evaluatedModules.map (fun m => m.queries)).flatten = [])) ∧
    (∀ (evaluatedModules : List EvaluatedModule) (q : Str),
      (getQueryMapDeclaration true evaluatedModules).find? (fun e => e.1 == q) =
        (if ((evaluatedModules.map (fun m => m.queries)).flatten.filter
              (fun x => x.query == q)) = [] then none
         else
           some (q, (((evaluatedModules.map (fun m => m.queries)).flatten.filter
              (fun x => x.query == q)).map (fun x => x.id))))) ∧
    (∀ evaluatedModules : List EvaluatedModule,
      ((getQueryMapDeclaration true evaluatedModules).map (fun e => e.1)).Nodup) ∧
    ((generateEvaluatedModules (str "/src")
        (collectModules (fun _ => .ok (⟨1, 0, 0⟩, .null))
          [⟨[], str "/src/a.ts",
            [⟨str "/src/a.ts", str "*[_type == \"foo\"]", str "queryA"⟩]⟩,
           ⟨[], str "/src/b.ts",
            [⟨str "/src/b.ts", str "*[_type == \"foo\"]", str "queryB"⟩]⟩])
        []).1.map (fun m => m.queries.map (fun q => q.id)) =
      [[str "QueryAResult"], [str "QueryBResult"]]) ∧
    (getQueryMapDeclaration true
        (generateEvaluatedModules (str "/src")
          (collectModules (fun _ => .ok (⟨1, 0, 0⟩, .null))
            [⟨[], str "/src/a.ts",
              [⟨str "/src/a.ts", str "*[_type == \"foo\"]", str "queryA"⟩]⟩,
             ⟨[], str "/src/b.ts",
              [⟨str "/src/b.ts", str "*[_type == \"foo\"]", str "queryB"⟩]⟩])
          []).1 =
      [(str "*[_type == \"foo\"]", [str "QueryAResult", str "QueryBResult"])]) := by
  refine ⟨?_, ?_, ?_, by decide, by decide⟩
  · intro ms
    unfold getQueryMapDeclaration
    simp only [Bool.not_true, Bool.false_eq_true, if_false]
    by_cases hlen : ((ms.map (fun m => m.queries)).flatten).length = 0
    · simp [hlen, List.length_eq_zero.mp hlen]
    · rw [if_neg hlen]
      constructor
      · intro hcontra
        exfalso
        have h1 := foldl_addQueryToMap_length_le
          ((ms.map (fun m => m.queries)).flatten) []
        obtain ⟨x, xs, hx⟩ :
            ∃ x xs, (ms.map (fun m => m.queries)).flatten = x :: xs := by
          cases hq : (ms.map (fun m => m.queries)).flatten with
          | nil => rw [hq] at hlen; simp at hlen
          | cons x xs => exact ⟨x, xs, rfl⟩
        rw [hx] at hcontra
        unfold queryMapEntries at hcontra
        rw [List.foldl_cons] at hcontra
        have h2 := foldl_addQueryToMap_length_le xs (addQueryToMap [] x.query x.id)
        rw [hcontra] at h2
        simp [addQueryToMap] at h2
      · intro hnil
        rw [hnil] at hlen
        simp at hlen
  · intro ms q
    unfold getQueryMapDeclaration
    simp only [Bool.not_true, Bool.false_eq_true, if_false]
    by_cases hlen : ((ms.map (fun m => m.queries)).flatten).length = 0
    · have hnil := List.length_eq_zero.mp hlen
      simp [hnil]
    · rw [if_neg hlen]
      unfold queryMapEntries
      rw [foldl_addQueryToMap_find?]
      simp
  · intro ms
    unfold getQueryMapDeclaration
    simp only [Bool.not_true, Bool.false_eq_true, if_false]
    by_cases hlen : ((ms.map (fun m => m.queries)).flatten).length = 0
    · simp [hlen]
    · rw [if_neg hlen]
      exact foldl_addQueryToMap_keys_nodup _ [] (by simp)

/-! ## Claim C5 -/

theorem mapGet_append_left {m : FingerprintMap} {fp : Str} {rec : OccurrenceRecord}
    (l : FingerprintMap) (h : mapGet m fp = some rec) : mapGet (m ++ l) fp = some rec := by
  unfold mapGet at h ⊢
  rw [List.find?_append]
  cases hfind : m.find? (fun e => e.1 == fp) with
  | none =>
    rw [hfind] at h
    exact Option.noConfusion h
  | some e =>
    rw [hfind] at h
    exact h

theorem mapGet_mapIncrement_of_ne {m : FingerprintMap} {fp k : Str} (hne : fp ≠ k) :
    mapGet (mapIncrement m k) fp = mapGet m fp := by
  unfold mapGet mapIncrement
  have hf : ∀ e : Str × OccurrenceRecord,
      ((if e.1 == k then (e.1, ⟨e.2.candidateName, e.2.count + 1, e.2.typeNode⟩) else e)).1 =
        e.1 := by
    intro e
    by_cases h : e.1 = k <;> simp [h]
  rw [find?_map_key_preserving _ hf]
  cases hfind : m.find? (fun e => e.1 == fp) with
  | none => rfl
  | some e =>
    have hkey : e.1 = fp := by
      have := List.find?_some hfind
      rwa [beq_iff_eq] at this
    have : ¬ e.1 = k := by rw [hkey]; exact hne
    simp [this]

theorem mapGet_mapIncrement_self {m : FingerprintMap} {k : Str} {rec : OccurrenceRecord}
    (h : mapGet m k = some rec) :
    mapGet (mapIncrement m k) k = some ⟨rec.candidateName, rec.count + 1, rec.typeNode⟩ := by
  unfold mapGet at h
  unfold mapGet mapIncrement
  have hf : ∀ e : Str × OccurrenceRecord,
      ((if e.1 == k then (e.1, ⟨e.2.candidateName, e.2.count + 1, e.2.typeNode⟩) else e)).1 =
        e.1 := by
    intro e
    by_cases h2 : e.1 = k <;> simp [h2]
  rw [find?_map_key_preserving _ hf]
  cases hfind : m.find? (fun e => e.1 == k) with
  | none => rw [hfind] at h; simp at h
  | some e =>
    rw [hfind] at h
    have hkey := List.find?_some hfind
    have h2 : e.2 = rec := Option.some_injective _ h
    show some ((if e.1 == k then
        (e.1, (⟨e.2.candidateName, e.2.count + 1, e.2.typeNode⟩ : OccurrenceRecord))
      else e)).2 = _
    rw [if_pos hkey, h2]

theorem recordStep_preserves (m : FingerprintMap) (fpObj : Str) (newRec : OccurrenceRecord)
    {fp : Str} {rec : OccurrenceRecord} (h : mapGet m fp = some rec) :
    ∃ k, mapGet (match mapGet m fpObj with
        | some _ => mapIncrement m fpObj
        | none => m ++ [(fpObj, newRec)]) fp =
      some ⟨rec.candidateName, rec.count + k, rec.typeNode⟩ := by
  cases hobj : mapGet m fpObj with
  | none => exact ⟨0, mapGet_append_left _ h⟩
  | some rec0 =>
    by_cases heq : fp = fpObj
    · subst heq
      rw [h] at hobj
      injection hobj with hro
      subst hro
      exact ⟨1, mapGet_mapIncrement_self h⟩
    · refine ⟨0, ?_⟩
      rw [mapGet_mapIncrement_of_ne heq]
      exact h

mutual

theorem walkTypeNode_preserves :
    ∀ (t : TypeNode) (m : FingerprintMap) (p : Option Str) (fp : Str)
      (rec : OccurrenceRecord),
      mapGet m fp = some rec →
      ∃ k, mapGet (walkTypeNode t m p) fp =
        some ⟨rec.candidateName, rec.count + k, rec.typeNode⟩
  | .array of, m, p, fp, rec => fun h =>
      walkTypeNode_preserves of m
        (match p with | some (c :: cs) => some (singularize (c :: cs)) | _ => none) fp rec h
  | .union of, m, p, fp, rec => fun h => walkMembers_preserves of m p fp rec h
  | .object attrs rest deref, m, p, fp, rec => fun h => by
      obtain ⟨k1, h1⟩ := recordStep_preserves m
        (fingerprintTypeNode (.object attrs rest deref))
        ⟨extractCandidateName attrs p, 1, .object attrs rest deref⟩ h
      obtain ⟨k2, h2⟩ := walkAttributes_preserves attrs _ fp _ h1
      cases rest with
      | none =>
        refine ⟨k1 + k2, ?_⟩
        simpa [Nat.add_assoc] using h2
      | some r =>
        obtain ⟨k3, h3⟩ := walkTypeNode_preserves r _ none fp _ h2
        refine ⟨k1 + k2 + k3, ?_⟩
        simpa [Nat.add_assoc] using h3
  | .unknown, m, p, fp, rec => fun h => ⟨0, h⟩
  | .null, m, p, fp, rec => fun h => ⟨0, h⟩
  | .boolean v, m, p, fp, rec => fun h => ⟨0, h⟩
  | .number v, m, p, fp, rec => fun h => ⟨0, h⟩
  | .string v, m, p, fp, rec => fun h => ⟨0, h⟩
  | .inline n, m, p, fp, rec => fun h => ⟨0, h⟩
termination_by structural t => t

theorem walkAttributes_preserves :
    ∀ (attrs : List ObjectAttr) (m : FingerprintMap) (fp : Str)
      (rec : OccurrenceRecord),
      mapGet m fp = some rec →
      ∃ k, mapGet (walkAttributes attrs m) fp =
        some ⟨rec.candidateName, rec.count + k, rec.typeNode⟩
  | [], m, fp, rec => fun h => ⟨0, h⟩
  | (key, opt, value) :: restAttrs, m, fp, rec => fun h => by
      obtain ⟨k1, h1⟩ := walkTypeNode_preserves value m (some key) fp rec h
      obtain ⟨k2, h2⟩ := walkAttributes_preserves restAttrs _ fp _ h1
      refine ⟨k1 + k2, ?_⟩
      simpa [Nat.add_assoc] using h2
termination_by structural attrs => attrs

theorem walkMembers_preserves :
    ∀ (ms : List TypeNode) (m : FingerprintMap) (p : Option Str) (fp : Str)
      (rec : OccurrenceRecord),
      mapGet m fp = some rec →
      ∃ k, mapGet (walkMembers ms m p) fp =
        some ⟨rec.candidateName, rec.count + k, rec.typeNode⟩
  | [], m, p, fp, rec => fun h => ⟨0, h⟩
  | x :: xs, m, p, fp, rec => fun h => by
      obtain ⟨k1, h1⟩ := walkTypeNode_preserves x m p fp rec h
      obtain ⟨k2, h2⟩ := walkMembers_preserves xs _ p fp _ h1
      refine ⟨k1 + k2, ?_⟩
      simpa [Nat.add_assoc] using h2
termination_by structural ms => ms

end

theorem walkTypeNode_object_eq (attrs : List ObjectAttr) (rest : Option TypeNode)
    (deref : Option Str) (m : FingerprintMap) (p : Option Str) :
    walkTypeNode (.object attrs rest deref) m p =
      (match rest with
       | some r =>
         walkTypeNode r
           (walkAttributes attrs
             (match mapGet m (fingerprintTypeNode (.object attrs rest deref)) with
              | some _ => mapIncrement m (fingerprintTypeNode (.object attrs rest deref))
              | none => m ++ [(fingerprintTypeNode (.object attrs rest deref),
                  ⟨extractCandidateName attrs p, 1, .object attrs rest deref⟩)])) none
       | none =>
         walkAttributes attrs
           (match mapGet m (fingerprintTypeNode (.object attrs rest deref)) with
            | some _ => mapIncrement m (fingerprintTypeNode (.object attrs rest deref))
            | none => m ++ [(fingerprintTypeNode (.object attrs rest deref),
                ⟨extractCandidateName attrs p, 1, .object attrs rest deref⟩)])) := by
  cases rest <;> rfl

theorem walkTypeNode_object_first_sighting (attrs : List ObjectAttr)
    (rest : Option TypeNode) (deref : Option Str) (m : FingerprintMap) (p : Option Str)
    (h : mapGet m (fingerprintTypeNode (.object attrs rest deref)) = none) :
    ∃ c, mapGet (walkTypeNode (.object attrs rest deref) m p)
        (fingerprintTypeNode (.object attrs rest deref)) =
      some ⟨extractCandidateName attrs p, c, .object attrs rest deref⟩ := by
  rw [walkTypeNode_object_eq, h]
  have hinserted : mapGet (m ++ [(fingerprintTypeNode (.object attrs rest deref),
      ⟨extractCandidateName attrs p, 1, .object attrs rest deref⟩)])
      (fingerprintTypeNode (.object attrs rest deref)) =
      some ⟨extractCandidateName attrs p, 1, .object attrs rest deref⟩ := by
    unfold mapGet at h ⊢
    rw [List.find?_append]
    have hnone : m.find?
        (fun e => e.1 == fingerprintTypeNode (.object attrs rest deref)) = none := by
      cases hfind : m.find?
          (fun e => e.1 == fingerprintTypeNode (.object attrs rest deref)) with
      | none => rfl
      | some e => rw [hfind] at h; simp at h
    rw [hnone]
    simp
  obtain ⟨k2, h2⟩ := walkAttributes_preserves attrs _ _ _ hinserted
  cases rest with
  | none => exact ⟨1 + k2, by simpa using h2⟩
  | some r =>
    obtain ⟨k3, h3⟩ := walkTypeNode_preserves r _ none _ _ h2
    exact ⟨1 + k2 + k3, by simpa [Nat.add_assoc] using h3⟩

/-- Claim C5: the candidate name of an object fingerprint is fixed at its
first sighting — when an object is first recorded, its candidate is the
value of `extractCandidateName`: the `_type` literal if the object has a
non-optional `_type` attribute whose value is a string carrying a literal,
otherwise the current parent-key hint; and later walks only increase the
count, never changing the stored candidate name or representative node.
Concretely: attribute keys override the inherited parent key, the hint is
singularized through an array wrapper, union members all inherit the same
hint, and descending into a rest type clears the hint. -/
theorem claim_C5_candidate_name_rule :
    (∀ (attrs : List ObjectAttr) (rest : Option TypeNode) (deref : Option Str)
       (m : FingerprintMap) (p : Option Str),
      mapGet m (fingerprintTypeNode (.object attrs rest deref)) = none →
      ∃ c, mapGet (walkTypeNode (.object attrs rest deref) m p)
          (fingerprintTypeNode (.object attrs rest deref)) =
        some ⟨extractCandidateName attrs p, c, .object attrs rest deref⟩) ∧
    (∀ (t : TypeNode) (m : FingerprintMap) (p : Option Str) (fp : Str)
       (rec : OccurrenceRecord),
      mapGet m fp = some rec →
      ∃ k, mapGet (walkTypeNode t m p) fp =
        some ⟨rec.candidateName, rec.count + k, rec.typeNode⟩) ∧
    (∀ (attrs : List ObjectAttr) (p : Option Str) (k : Str) (v : Str),
      attrs.find? (fun a => a.1 == str "_type") = some (k, false, .string (some v)) →
      extractCandidateName attrs p = some v) ∧
    (∀ (attrs : List ObjectAttr) (p : Option Str),
      attrs.find? (fun a => a.1 == str "_type") = none →
      extractCandidateName attrs p = p) ∧
    (∀ (attrs : List ObjectAttr) (p : Option Str) (k : Str) (v : TypeNode),
      attrs.find? (fun a => a.1 == str "_type") = some (k, true, v) →
      extractCandidateName attrs p = p) ∧
    ((collectObjectFingerprints
        [.object [(str "outer", false,
          .object [(str "hero", false,
            .object [(str "value", false, .string none)] none none)] none none)]
          none none]).map (fun e => e.2.candidateName) =
      [none, some (str "outer"), some (str "hero")]) ∧
    ((collectObjectFingerprints
        [.object [(str "hero", false,
          .union [.object [(str "value", false, .string none)] none none,
                  .string none])] none none]).map (fun e => e.2.candidateName) =
      [none, some (str "hero")]) ∧
    ((collectObjectFingerprints
        [.object [(str "addresses", false,
          .array (.object [(str "line1", false, .string none),
                           (str "line2", false, .string none)] none none))] none none]).map
        (fun e => e.2.candidateName) = [none, some (str "address")]) ∧
    ((collectObjectFingerprints
        [.object [(str "foo", false,
          .object [(str "x", false, .string none)]
            (some (.object [(str "y", false, .string none)] none none)) none)]
          none none]).map (fun e => e.2.candidateName) =
      [none, some (str "foo"), none]) ∧
    ((collectObjectFingerprints
        [.object [(str "pic", false,
          .object [(str "_type", false, .string (some (str "image"))),
                   (str "asset", false, .string none)] none none)] none none]).map
        (fun e => e.2.candidateName) = [none, some (str "image")]) ∧
    ((collectObjectFingerprints
        [.object [(str "pic", false,
          .object [(str "_type", true, .string (some (str "image"))),
                   (str "asset", false, .string none)] none none)] none none]).map
        (fun e => e.2.candidateName) = [none, some (str "pic")]) ∧
    ((collectObjectFingerprints
        [.object [(str "a", false, .object [(str "v", false, .string none)] none none),
                  (str "b", false, .object [(str "v", false, .string none)] none none)]
          none none]).map (fun e => (e.2.candidateName, e.2.count)) =
      [(none, 1), (some (str "a"), 2)]) := by
  refine ⟨walkTypeNode_object_first_sighting, walkTypeNode_preserves, ?_, ?_, ?_,
    by decide, by decide, by decide, by decide, by decide, by decide, by decide⟩
  · intro attrs p k v hfind
    unfold extractCandidateName
    rw [hfind]
  · intro attrs p hfind
    unfold extractCandidateName
    rw [hfind]
  · intro attrs p k v hfind
    unfold extractCandidateName
    rw [hfind]

/-- Witness for claim C5: the first-sighting rule and the persistence rule
applied to a concrete walk. -/
theorem claim_C5_candidate_name_rule_witness :
    (∃ c, mapGet
        (walkTypeNode (.object [(str "v", false, .string none)] none none) []
          (some (str "hero")))
        (fingerprintTypeNode (.object [(str "v", false, .string none)] none none)) =
      some ⟨extractCandidateName [(str "v", false, .string none)] (some (str "hero")), c,
        .object [(str "v", false, .string none)] none none⟩) ∧
    (∃ k, mapGet
        (walkTypeNode (.object [(str "v", false, .string none)] none none)
          [(str "fpX", ⟨some (str "kept"), 3, .null⟩)] (some (str "ignored")))
        (str "fpX") = some ⟨some (str "kept"), 3 + k, .null⟩) := by
  constructor
  · exact claim_C5_candidate_name_rule.1 [(str "v", false, .string none)] none none []
      (some (str "hero")) (by decide)
  · exact claim_C5_candidate_name_rule.2.1
      (.object [(str "v", false, .string none)] none none)
      [(str "fpX", ⟨some (str "kept"), 3, .null⟩)] (some (str "ignored")) (str "fpX")
      ⟨some (str "kept"), 3, .null⟩ (by decide)

/-! ## Claim C8 -/

theorem charOfNat_toNat_letterRange {n : ℕ} (h1 : 65 ≤ n) (h2 : n ≤ 90) :
    (Char.ofNat n).toNat = n := by
  interval_cases n <;> decide

theorem jsToUpper_word {c : Char} (h : isWordChar c = true) :
    isWordChar (jsToUpper c) = true := by
  simp only [isWordChar, Bool.or_eq_true, decide_eq_true_eq, Bool.and_eq_true] at h ⊢
  unfold jsToUpper
  by_cases hr : 97 ≤ c.toNat ∧ c.toNat ≤ 122
  · rw [if_pos hr, charOfNat_toNat_letterRange (by omega) (by omega)]
    exact Or.inl (Or.inr ⟨by omega, by omega⟩)
  · rw [if_neg hr]
    exact h

theorem jsToUpper_identStart {c : Char} (h : isIdentStartChar c = true) :
    isIdentStartChar (jsToUpper c) = true := by
  simp only [isIdentStartChar, Bool.or_eq_true, decide_eq_true_eq, Bool.and_eq_true] at h ⊢
  unfold jsToUpper
  by_cases hr : 97 ≤ c.toNat ∧ c.toNat ≤ 122
  · rw [if_pos hr, charOfNat_toNat_letterRange (by omega) (by omega)]
    exact Or.inl (Or.inr ⟨by omega, by omega⟩)
  · rw [if_neg hr]
    exact h

theorem identStart_of_word_not_digit {c : Char} (h : isWordChar c = true)
    (hd : ¬(48 ≤ c.toNat ∧ c.toNat ≤ 57)) : isIdentStartChar c = true := by
  simp only [isWordChar, Bool.or_eq_true, decide_eq_true_eq, Bool.and_eq_true] at h
  simp only [isIdentStartChar, Bool.or_eq_true, decide_eq_true_eq, Bool.and_eq_true]
  rcases h with ((((h | h) | h) | h) | h)
  · exact Or.inl (Or.inl (Or.inl h))
  · exact Or.inl (Or.inl (Or.inr h))
  · exact absurd h hd
  · exact Or.inl (Or.inr h)
  · exact Or.inr h

theorem digitChar_word (m : ℕ) : isWordChar (digitChar m) = true := by
  unfold digitChar
  split <;> decide

theorem decimalCharsAux_all_word :
    ∀ (fuel n : ℕ), (decimalCharsAux fuel n).all isWordChar = true := by
  intro fuel
  induction fuel with
  | zero => intro n; rfl
  | succ fuel ih =>
    intro n
    by_cases hsmall : n < 10
    · simp [decimalCharsAux, hsmall, digitChar_word]
    · simp [decimalCharsAux, hsmall, List.all_append, ih, digitChar_word]

theorem replaceSepsAux_nil_cons_word {c : Char} {cs : Str} (hc : isWordChar c = true) :
    replaceSepsAux [] (c :: cs) = c :: replaceSepsAux [] cs := by
  show (if isWordChar c = true then c :: replaceSepsAux [] cs
        else replaceSepsAux [c] cs) = _
  rw [if_pos hc]

theorem replaceSepsAux_cons_cons_word {c p : Char} {cs ps : Str}
    (hc : isWordChar c = true) :
    replaceSepsAux (p :: ps) (c :: cs) = jsToUpper c :: replaceSepsAux [] cs := by
  show (if isWordChar c = true then jsToUpper c :: replaceSepsAux [] cs
        else replaceSepsAux (c :: p :: ps) cs) = _
  rw [if_pos hc]

theorem replaceSepsAux_cons_sep {c : Char} {cs pending : Str}
    (hc : isWordChar c = false) :
    replaceSepsAux pending (c :: cs) = replaceSepsAux (c :: pending) cs := by
  cases pending with
  | nil =>
    show (if isWordChar c = true then c :: replaceSepsAux [] cs
          else replaceSepsAux [c] cs) = _
    rw [hc, if_neg (by simp)]
  | cons p ps =>
    show (if isWordChar c = true then jsToUpper c :: replaceSepsAux [] cs
          else replaceSepsAux (c :: p :: ps) cs) = _
    rw [hc, if_neg (by simp)]

theorem replaceSepsAux_all_word :
    ∀ (input pending : Str) (d : Char), input.getLast? = some d → isWordChar d = true →
      (replaceSepsAux pending input).all isWordChar = true ∧
        replaceSepsAux pending input ≠ [] := by
  intro input
  induction input with
  | nil => intro pending d hlast; simp at hlast
  | cons c cs ih =>
    intro pending d hlast hword
    cases cs with
    | nil =>
      rw [List.getLast?_singleton] at hlast
      injection hlast with hcd
      subst hcd
      cases pending with
      | nil =>
        rw [replaceSepsAux_nil_cons_word hword]
        simp [hword, replaceSepsAux]
      | cons p ps =>
        rw [replaceSepsAux_cons_cons_word hword]
        simp [jsToUpper_word hword, replaceSepsAux]
    | cons c2 cs2 =>
      rw [List.getLast?_cons_cons] at hlast
      by_cases hc : isWordChar c = true
      · have hrec := ih [] d hlast hword
        cases pending with
        | nil =>
          rw [replaceSepsAux_nil_cons_word hc]
          simp [hc, hrec.1]
        | cons p ps =>
          rw [replaceSepsAux_cons_cons_word hc]
          simp [jsToUpper_word hc, hrec.1]
      · have hcf : isWordChar c = false := Bool.eq_false_iff.mpr hc
        rw [replaceSepsAux_cons_sep hcf]
        exact ih (c :: pending) d hlast hword

theorem sanitizeIdentifier_identifier {c : Char} {cs : Str}
    (hc : isWordChar c = true)
    {d : Char} (hd : (c :: cs).getLast? = some d) (hdw : isWordChar d = true) :
    ∃ c2 cs2, sanitizeIdentifier (c :: cs) = c2 :: cs2 ∧
      isIdentStartChar c2 = true ∧ cs2.all isWordChar = true := by
  have hstep : replaceLeadingDigit (c :: cs) =
      if 48 ≤ c.toNat ∧ c.toNat ≤ 57 then '_' :: cs else c :: cs := rfl
  unfold sanitizeIdentifier
  rw [hstep]
  by_cases hdig : 48 ≤ c.toNat ∧ c.toNat ≤ 57
  · rw [if_pos hdig]
    have hu : isWordChar '_' = true := by decide
    cases cs with
    | nil =>
      refine ⟨'_', [], ?_, by decide, by decide⟩
      rw [show replaceSeps ['_'] = replaceSepsAux [] ['_'] from rfl,
        replaceSepsAux_nil_cons_word hu]
      rfl
    | cons c2 cs2 =>
      rw [List.getLast?_cons_cons] at hd
      have hrec := replaceSepsAux_all_word (c2 :: cs2) [] d hd hdw
      refine ⟨'_', replaceSepsAux [] (c2 :: cs2), ?_, by decide, hrec.1⟩
      rw [show replaceSeps ('_' :: c2 :: cs2) = replaceSepsAux [] ('_' :: c2 :: cs2) from rfl,
        replaceSepsAux_nil_cons_word hu]
  · rw [if_neg hdig]
    have hstart : isIdentStartChar c = true := identStart_of_word_not_digit hc hdig
    cases cs with
    | nil =>
      refine ⟨c, [], ?_, hstart, by decide⟩
      rw [show replaceSeps [c] = replaceSepsAux [] [c] from rfl,
        replaceSepsAux_nil_cons_word hc]
      rfl
    | cons c2 cs2 =>
      rw [List.getLast?_cons_cons] at hd
      have hrec := replaceSepsAux_all_word (c2 :: cs2) [] d hd hdw
      refine ⟨c, replaceSepsAux [] (c2 :: cs2), ?_, hstart, hrec.1⟩
      rw [show replaceSeps (c :: c2 :: cs2) = replaceSepsAux [] (c :: c2 :: cs2) from rfl,
        replaceSepsAux_nil_cons_word hc]

theorem isIdentifierName_append_word {a b : Str} (ha : isIdentifierName a = true)
    (hb : b.all isWordChar = true) : isIdentifierName (a ++ b) = true := by
  cases a with
  | nil => simp [isIdentifierName] at ha
  | cons c cs =>
    simp only [isIdentifierName, Bool.and_eq_true] at ha
    simp only [List.cons_append, isIdentifierName, Bool.and_eq_true, List.all_append]
    exact ⟨ha.1, ha.2, hb⟩

theorem normalizeIdentifier_identifier {c : Char} {cs : Str}
    (hc : isWordChar c = true)
    {d : Char} (hd : (c :: cs).getLast? = some d) (hdw : isWordChar d = true) :
    isIdentifierName (normalizeIdentifier (c :: cs)) = true := by
  obtain ⟨c2, cs2, hsan, hstart, hall⟩ := sanitizeIdentifier_identifier hc hd hdw
  unfold normalizeIdentifier
  rw [hsan]
  simp only [isIdentifierName, Bool.and_eq_true]
  exact ⟨jsToUpper_identStart hstart, hall⟩

/-- Claim C8 (amended): for every input whose first and last characters are
identifier-class characters (`[A-Za-z0-9_$]`) — in particular nonempty and
with no leading or trailing separator run — the identifier produced by
sanitization plus uniqueness resolution matches
`[A-Za-z_$][A-Za-z0-9_$]*`: it is nonempty and contains no separators.
(The unamended universal claim fails on the empty string: the sanitizer has
no fallback, see the counterexample.) -/
theorem claim_C8_sanitized_identifier_valid :
    ∀ (name : Str) (ids : List Str) (c d : Char),
      name.head? = some c → isWordChar c = true →
      name.getLast? = some d → isWordChar d = true →
      isIdentifierName (getUniqueIdentifierForName name ids) = true := by
  intro name ids c d hhead hc hlast hd
  cases name with
  | nil => simp at hhead
  | cons c0 cs =>
    rw [List.head?_cons] at hhead
    injection hhead with hc0
    subst hc0
    obtain ⟨k, hk, _, _⟩ := getUniqueIdentifierForName_spec (c0 :: cs) ids
    rw [hk]
    have hnorm := normalizeIdentifier_identifier hc hlast hd
    unfold identifierCandidate
    by_cases hk0 : k = 0
    · rw [if_pos hk0]
      exact hnorm
    · rw [if_neg hk0, List.append_assoc]
      apply isIdentifierName_append_word hnorm
      rw [List.all_append]
      refine (Bool.and_eq_true ..).mpr ⟨by decide, ?_⟩
      exact decimalCharsAux_all_word _ _

/-- Counterexample to claim C8 as stated: the empty input produces the
empty identifier (no fallback exists in the code), and a separator-only
input keeps its separators. -/
theorem claim_C8_sanitized_identifier_valid_counterexample :
    getUniqueIdentifierForName (str "") [] = str "" ∧
    isIdentifierName (getUniqueIdentifierForName (str "") []) = false ∧
    sanitizeIdentifier (str "---") = str "-" ∧
    isIdentifierName (getUniqueIdentifierForName (str "---") []) = false := by
  refine ⟨by decide, by decide, by decide, by decide⟩

/-- Witness for claim C8: the amended theorem applied to the input
`"foo.bar"`. -/
theorem claim_C8_sanitized_identifier_valid_witness :
    isIdentifierName (getUniqueIdentifierForName (str "foo.bar") []) = true :=
  claim_C8_sanitized_identifier_valid (str "foo.bar") [] 'f' 'r' (by decide) (by decide)
    (by decide) (by decide)

/-! ## Claim C1: order and sorting facts -/

theorem char_toNat_inj {a b : Char} (h : a.toNat = b.toNat) : a = b :=
  Char.ext (UInt32.ext h)

theorem strLeb_total : ∀ a b : Str, strLeb a b = true ∨ strLeb b a = true
  | [], _ => Or.inl rfl
  | _ :: _, [] => Or.inr rfl
  | a :: as, b :: bs => by
    by_cases h1 : a.toNat < b.toNat
    · exact Or.inl (by simp [strLeb, h1])
    · by_cases h2 : b.toNat < a.toNat
      · exact Or.inr (by simp [strLeb, h2])
      · rcases strLeb_total as bs with h | h
        · exact Or.inl (by simp [strLeb, h1, h2, h])
        · exact Or.inr (by simp [strLeb, h1, h2, h])

theorem strLeb_trans : ∀ a b c : Str,
    strLeb a b = true → strLeb b c = true → strLeb a c = true
  | [], _, _ => fun _ _ => rfl
  | _ :: _, [], _ => fun h _ => by simp [strLeb] at h
  | _ :: _, _ :: _, [] => fun _ h => by simp [strLeb] at h
  | a :: as, b :: bs, c :: cs => fun h1 h2 => by
    simp only [strLeb] at h1 h2 ⊢
    rcases Nat.lt_trichotomy a.toNat b.toNat with hab | hab | hab
    · rcases Nat.lt_trichotomy b.toNat c.toNat with hbc | hbc | hbc
      · rw [if_pos (by omega)]
      · rw [if_pos (by omega)]
      · rw [if_neg (by omega), if_pos hbc] at h2
        exact absurd h2 (by simp)
    · rw [if_neg (by omega), if_neg (by omega)] at h1
      rcases Nat.lt_trichotomy b.toNat c.toNat with hbc | hbc | hbc
      · rw [if_pos (by omega)]
      · rw [if_neg (by omega), if_neg (by omega)] at h2
        rw [if_neg (by omega), if_neg (by omega)]
        exact strLeb_trans as bs cs h1 h2
      · rw [if_neg (by omega), if_pos hbc] at h2
        exact absurd h2 (by simp)
    · rw [if_neg (by omega), if_pos hab] at h1
      exact absurd h1 (by simp)

theorem strLeb_antisymm : ∀ a b : Str,
    strLeb a b = true → strLeb b a = true → a = b
  | [], [] => fun _ _ => rfl
  | [], _ :: _ => fun _ h => by simp [strLeb] at h
  | _ :: _, [] => fun h _ => by simp [strLeb] at h
  | a :: as, b :: bs => fun h1 h2 => by
    simp only [strLeb] at h1 h2
    rcases Nat.lt_trichotomy a.toNat b.toNat with hab | hab | hab
    · rw [if_neg (by omega), if_pos hab] at h2
      exact absurd h2 (by simp)
    · rw [if_neg (by omega), if_neg (by omega)] at h1
      rw [if_neg (by omega), if_neg (by omega)] at h2
      rw [char_toNat_inj hab, strLeb_antisymm as bs h1 h2]
    · rw [if_neg (by omega), if_pos hab] at h1
      exact absurd h1 (by simp)

theorem sortedByLeb_cons_cons {α : Type} (le : α → α → Bool) (a b : α) (l : List α) :
    sortedByLeb le (a :: b :: l) = true ↔
      le a b = true ∧ sortedByLeb le (b :: l) = true := by
  show (le a b && sortedByLeb le (b :: l)) = true ↔ _
  simp

theorem insertLe_cons {α : Type} (le : α → α → Bool) (a b : α) (l : List α) :
    insertLe le a (b :: l) =
      if le a b = true then a :: b :: l else b :: insertLe le a l := rfl

theorem insertLe_perm {α : Type} (le : α → α → Bool) (a : α) :
    ∀ l : List α, (insertLe le a l).Perm (a :: l)
  | [] => List.Perm.refl _
  | b :: bs => by
    unfold insertLe
    by_cases h : le a b = true
    · rw [if_pos h]
    · rw [if_neg h]
      exact ((insertLe_perm le a bs).cons b).trans (List.Perm.swap a b bs)

theorem sortLe_perm {α : Type} (le : α → α → Bool) :
    ∀ l : List α, (sortLe le l).Perm l
  | [] => List.Perm.refl _
  | a :: as => (insertLe_perm le a (sortLe le as)).trans ((sortLe_perm le as).cons a)

theorem insertLe_sortedBy {α : Type} (le : α → α → Bool)
    (htot : ∀ a b, le a b = true ∨ le b a = true) (a : α) :
    ∀ l : List α, sortedByLeb le l = true → sortedByLeb le (insertLe le a l) = true
  | [] => fun _ => rfl
  | b :: bs => fun h => by
    unfold insertLe
    by_cases hab : le a b = true
    · rw [if_pos hab]
      show (le a b && sortedByLeb le (b :: bs)) = true
      simp [hab, h]
    · rw [if_neg hab]
      have hba : le b a = true := (htot a b).resolve_left hab
      cases bs with
      | nil =>
        show (le b a && sortedByLeb le [a]) = true
        simp [hba, sortedByLeb]
      | cons c cs =>
        have hbc : le b c = true := ((sortedByLeb_cons_cons le b c cs).mp h).1
        have hrest : sortedByLeb le (c :: cs) = true :=
          ((sortedByLeb_cons_cons le b c cs).mp h).2
        have ih := insertLe_sortedBy le htot a (c :: cs) hrest
        by_cases hac : le a c = true
        · have hins : insertLe le a (c :: cs) = a :: c :: cs := by
            rw [insertLe_cons, if_pos hac]
          rw [hins]
          rw [hins] at ih
          show (le b a && sortedByLeb le (a :: c :: cs)) = true
          simp [hba, ih]
        · have hins : insertLe le a (c :: cs) = c :: insertLe le a cs := by
            rw [insertLe_cons, if_neg hac]
          rw [hins]
          rw [hins] at ih
          show (le b c && sortedByLeb le (c :: insertLe le a cs)) = true
          simp [hbc, ih]

theorem sortLe_sortedBy {α : Type} (le : α → α → Bool)
    (htot : ∀ a b, le a b = true ∨ le b a = true) :
    ∀ l : List α, sortedByLeb le (sortLe le l) = true
  | [] => rfl
  | a :: as => insertLe_sortedBy le htot a _ (sortLe_sortedBy le htot as)

theorem sortedByLeb_pairwise {α : Type} (le : α → α → Bool)
    (htrans : ∀ a b c, le a b = true → le b c = true → le a c = true) :
    ∀ l : List α, sortedByLeb le l = true → l.Pairwise (fun a b => le a b = true)
  | [] => fun _ => List.Pairwise.nil
  | [a] => fun _ => by simp
  | a :: b :: rest => fun h => by
    have hab : le a b = true := ((sortedByLeb_cons_cons le a b rest).mp h).1
    have htl : sortedByLeb le (b :: rest) = true :=
      ((sortedByLeb_cons_cons le a b rest).mp h).2
    have ih := sortedByLeb_pairwise le htrans (b :: rest) htl
    refine List.Pairwise.cons ?_ ih
    intro x hx
    rcases List.mem_cons.mp hx with rfl | hx
    · exact hab
    · exact htrans a b x hab (List.rel_of_pairwise_cons ih hx)

theorem sorted_perm_eq {α : Type} (le : α → α → Bool)
    (hanti : ∀ a b, le a b = true → le b a = true → a = b) :
    ∀ (l₁ l₂ : List α), l₁.Perm l₂ →
      l₁.Pairwise (fun a b => le a b = true) →
      l₂.Pairwise (fun a b => le a b = true) → l₁ = l₂
  | [], l₂ => fun hp _ _ => (hp.symm.eq_nil).symm
  | a :: as, l₂ => fun hp h1 h2 => by
    cases l₂ with
    | nil => exact absurd hp.eq_nil (by simp)
    | cons b bs =>
      by_cases hab : a = b
      · subst hab
        rw [sorted_perm_eq le hanti as bs hp.cons_inv h1.of_cons h2.of_cons]
      · have ha : a ∈ bs := by
          have hmem : a ∈ b :: bs := hp.mem_iff.mp (List.mem_cons_self a as)
          rcases List.mem_cons.mp hmem with h | h
          · exact absurd h hab
          · exact h
        have hb : b ∈ as := by
          have hmem : b ∈ a :: as := hp.symm.mem_iff.mp (List.mem_cons_self b bs)
          rcases List.mem_cons.mp hmem with h | h
          · exact absurd h (fun hh => hab hh.symm)
          · exact h
        exact absurd (hanti a b (List.rel_of_pairwise_cons h1 hb)
          (List.rel_of_pairwise_cons h2 ha)) hab

theorem sortLe_eq_self_of_sortedBy {α : Type} (le : α → α → Bool) :
    ∀ l : List α, sortedByLeb le l = true → sortLe le l = l
  | [] => fun _ => rfl
  | [_] => fun _ => rfl
  | a :: b :: rest => fun h => by
    have hab : le a b = true := ((sortedByLeb_cons_cons le a b rest).mp h).1
    have htl : sortedByLeb le (b :: rest) = true :=
      ((sortedByLeb_cons_cons le a b rest).mp h).2
    show insertLe le a (sortLe le (b :: rest)) = a :: b :: rest
    rw [sortLe_eq_self_of_sortedBy le (b :: rest) htl, insertLe_cons, if_pos hab]

theorem sortedByLeb_map {α β : Type} (f : α → β) (le : β → β → Bool) :
    ∀ l : List α, sortedByLeb le (l.map f) = sortedByLeb (fun a b => le (f a) (f b)) l
  | [] => rfl
  | [_] => rfl
  | a :: b :: rest => by
    show (le (f a) (f b) && sortedByLeb le ((b :: rest).map f)) = _
    rw [sortedByLeb_map f le (b :: rest)]
    rfl

theorem sortStrs_perm (l : List Str) : (sortStrs l).Perm l := sortLe_perm strLeb l

theorem sortStrs_eq_of_perm {l₁ l₂ : List Str} (h : l₁.Perm l₂) :
    sortStrs l₁ = sortStrs l₂ :=
  sorted_perm_eq strLeb strLeb_antisymm _ _
    ((sortStrs_perm l₁).trans (h.trans (sortStrs_perm l₂).symm))
    (sortedByLeb_pairwise strLeb strLeb_trans _ (sortLe_sortedBy strLeb strLeb_total l₁))
    (sortedByLeb_pairwise strLeb strLeb_trans _ (sortLe_sortedBy strLeb strLeb_total l₂))

/-! ## Claim C1: safe runs, follow sets and fingerprint heads -/

theorem safeRunUnamb :
    ∀ (u v s t : Str), u.all isWordChar = true → v.all isWordChar = true →
      notWordStart s = true → notWordStart t = true →
      u ++ s = v ++ t → u = v ∧ s = t
  | [], [], s, t => fun _ _ _ _ h => ⟨rfl, h⟩
  | [], c :: v', s, t => fun _ hv hs _ h => by
    rw [List.nil_append, List.cons_append] at h
    subst h
    simp only [List.all_cons, Bool.and_eq_true] at hv
    simp only [notWordStart, hv.1] at hs
    exact absurd hs (by simp)
  | c :: u', [], s, t => fun hu _ _ ht h => by
    rw [List.nil_append, List.cons_append] at h
    rw [← h] at ht
    simp only [List.all_cons, Bool.and_eq_true] at hu
    simp only [notWordStart, hu.1] at ht
    exact absurd ht (by simp)
  | a :: u', b :: v', s, t => fun hu hv hs ht h => by
    rw [List.cons_append, List.cons_append] at h
    injection h with h1 h2
    subst h1
    simp only [List.all_cons, Bool.and_eq_true] at hu hv
    obtain ⟨he, hst⟩ := safeRunUnamb u' v' s t hu.2 hv.2 hs ht h2
    exact ⟨by rw [he], hst⟩

theorem followOk_notWordStart : ∀ {s : Str}, followOk s = true → notWordStart s = true
  | [], _ => rfl
  | c :: cs, h => by
    have hc : c ∈ FOLLOWCHARS := by
      simpa [followOk, List.elem_eq_mem] using h
    fin_cases hc <;> rfl

theorem fp_head : ∀ x : TypeNode, ∃ r, fingerprintTypeNode x = headCharOf x :: r := by
  intro x
  cases x with
  | array a => exact ⟨_, rfl⟩
  | boolean v => cases v <;> exact ⟨_, rfl⟩
  | inline n => exact ⟨_, rfl⟩
  | null => exact ⟨_, rfl⟩
  | number v => cases v <;> exact ⟨_, rfl⟩
  | object attrs rest deref => exact ⟨_, rfl⟩
  | string v => cases v <;> exact ⟨_, rfl⟩
  | union of => exact ⟨_, rfl⟩
  | unknown => exact ⟨_, rfl⟩

/-! ## Claim C1: the canonical form preserves fingerprints -/

theorem memberFingerprints_eq_map :
    ∀ l, memberFingerprints l = l.map fingerprintTypeNode
  | [] => rfl
  | t :: ts => by
    show fingerprintTypeNode t :: memberFingerprints ts = _
    rw [memberFingerprints_eq_map ts, List.map_cons]

theorem attributeEntryFingerprints_eq_map :
    ∀ l, attributeEntryFingerprints l = l.map entryString
  | [] => rfl
  | (k, o, v) :: rest => by
    show (k ++ (if o then str "?" else str "") ++ str ":" ++ fingerprintTypeNode v) ::
        attributeEntryFingerprints rest = _
    rw [attributeEntryFingerprints_eq_map rest, List.map_cons]
    rfl

theorem fp_union_eq (of : List TypeNode) :
    fingerprintTypeNode (.union of) =
      str "(" ++ joinSep (str "|") (sortStrs (memberFingerprints of)) ++ str ")" := rfl

theorem fp_object_eq (attrs : List ObjectAttr) (rest : Option TypeNode)
    (deref : Option Str) :
    fingerprintTypeNode (.object attrs rest deref) =
      str "\x7b" ++ joinSep (str ",") (sortStrs (attributeEntryFingerprints attrs)) ++
        restPart rest ++ derefPart deref ++ str "\x7d" := rfl

mutual

theorem fp_canon : ∀ x, fingerprintTypeNode (canonNode x) = fingerprintTypeNode x
  | .array a => by
    show str "[" ++ fingerprintTypeNode (canonNode a) ++ str "]" = _
    rw [fp_canon a]
    rfl
  | .union of => by
    show fingerprintTypeNode (.union (sortLe fpLe (canonMembers of))) = _
    rw [fp_union_eq, fp_union_eq]
    rw [memberFingerprints_eq_map (sortLe fpLe (canonMembers of))]
    rw [sortStrs_eq_of_perm ((sortLe_perm fpLe (canonMembers of)).map fingerprintTypeNode)]
    rw [← memberFingerprints_eq_map, fpMembers_canon of]
  | .object attrs rest deref => by
    show fingerprintTypeNode
        (.object (sortLe entryLe (canonAttrs attrs)) (canonOpt rest) deref) = _
    rw [fp_object_eq, fp_object_eq]
    rw [attributeEntryFingerprints_eq_map (sortLe entryLe (canonAttrs attrs))]
    rw [sortStrs_eq_of_perm ((sortLe_perm entryLe (canonAttrs attrs)).map entryString)]
    rw [← attributeEntryFingerprints_eq_map, fpAttrs_canon attrs, fpOpt_canon rest]
  | .boolean v => rfl
  | .number v => rfl
  | .string v => rfl
  | .inline n => rfl
  | .null => rfl
  | .unknown => rfl
termination_by structural x => x

theorem fpMembers_canon : ∀ l, memberFingerprints (canonMembers l) = memberFingerprints l
  | [] => rfl
  | t :: ts => by
    show fingerprintTypeNode (canonNode t) :: memberFingerprints (canonMembers ts) = _
    rw [fp_canon t, fpMembers_canon ts]
    rfl
termination_by structural l => l

theorem fpAttrs_canon :
    ∀ l, attributeEntryFingerprints (canonAttrs l) = attributeEntryFingerprints l
  | [] => rfl
  | (k, o, v) :: rest => by
    show (k ++ (if o then str "?" else str "") ++ str ":" ++
        fingerprintTypeNode (canonNode v)) ::
        attributeEntryFingerprints (canonAttrs rest) = _
    rw [fp_canon v, fpAttrs_canon rest]
    rfl
termination_by structural l => l

theorem fpOpt_canon : ∀ r, restPart (canonOpt r) = restPart r
  | none => rfl
  | some t => by
    show str "@rest" ++ fingerprintTypeNode (canonNode t) = _
    rw [fp_canon t]
    rfl
termination_by structural r => r

end

/-! ## Claim C1: the canonical form is well-formed and canonical -/

theorem fpLe_total : ∀ a b : TypeNode, fpLe a b = true ∨ fpLe b a = true :=
  fun a b => strLeb_total (fingerprintTypeNode a) (fingerprintTypeNode b)

theorem entryLe_total : ∀ a b : ObjectAttr, entryLe a b = true ∨ entryLe b a = true :=
  fun a b => strLeb_total (entryString a) (entryString b)

theorem wfMembers_iff : ∀ l, wfMembers l = true ↔ ∀ t ∈ l, wfNode t = true
  | [] => by simp [wfMembers]
  | t :: ts => by
    show (wfNode t && wfMembers ts) = true ↔ _
    simp [wfMembers_iff ts, List.forall_mem_cons]

theorem wfAttrs_iff :
    ∀ l, wfAttrs l = true ↔ ∀ a ∈ l, safeName a.1 = true ∧ wfNode a.2.2 = true
  | [] => by
    constructor
    · intro _ a ha
      exact absurd ha (List.not_mem_nil a)
    · intro _
      rfl
  | (k, o, v) :: rest => by
    constructor
    · intro h
      have h' : (safeName k && wfNode v && wfAttrs rest) = true := h
      simp only [Bool.and_eq_true] at h'
      intro a ha
      rcases List.mem_cons.mp ha with rfl | ha
      · exact ⟨h'.1.1, h'.1.2⟩
      · exact (wfAttrs_iff rest).mp h'.2 a ha
    · intro h
      show (safeName k && wfNode v && wfAttrs rest) = true
      simp only [Bool.and_eq_true]
      obtain ⟨h1, h2⟩ := h (k, o, v) (List.mem_cons_self (k, o, v) rest)
      exact ⟨⟨h1, h2⟩, (wfAttrs_iff rest).mpr (fun a ha => h a (List.mem_cons_of_mem _ ha))⟩

theorem isCanonMembers_iff : ∀ l, isCanonMembers l = true ↔ ∀ t ∈ l, isCanonNode t = true
  | [] => by simp [isCanonMembers]
  | t :: ts => by
    show (isCanonNode t && isCanonMembers ts) = true ↔ _
    simp [isCanonMembers_iff ts, List.forall_mem_cons]

theorem isCanonAttrs_iff : ∀ l, isCanonAttrs l = true ↔ ∀ a ∈ l, isCanonNode a.2.2 = true
  | [] => by
    constructor
    · intro _ a ha
      exact absurd ha (List.not_mem_nil a)
    · intro _
      rfl
  | (k, o, v) :: rest => by
    constructor
    · intro h
      have h' : (isCanonNode v && isCanonAttrs rest) = true := h
      simp only [Bool.and_eq_true] at h'
      intro a ha
      rcases List.mem_cons.mp ha with rfl | ha
      · exact h'.1
      · exact (isCanonAttrs_iff rest).mp h'.2 a ha
    · intro h
      show (isCanonNode v && isCanonAttrs rest) = true
      simp only [Bool.and_eq_true]
      exact ⟨h (k, o, v) (List.mem_cons_self (k, o, v) rest),
        (isCanonAttrs_iff rest).mpr (fun a ha => h a (List.mem_cons_of_mem _ ha))⟩

mutual

theorem wf_canon : ∀ x, wfNode x = true → wfNode (canonNode x) = true
  | .array a => fun h => wf_canon a h
  | .union of => fun h => by
    show wfMembers (sortLe fpLe (canonMembers of)) = true
    have hm := wfMembers_canon of h
    rw [wfMembers_iff] at hm ⊢
    intro t ht
    exact hm t ((sortLe_perm fpLe (canonMembers of)).mem_iff.mp ht)
  | .object attrs rest deref => fun h => by
    cases deref with
    | none =>
      have h' : (wfAttrs attrs && wfOptNode rest && true) = true := h
      simp only [Bool.and_eq_true] at h'
      show (wfAttrs (sortLe entryLe (canonAttrs attrs)) && wfOptNode (canonOpt rest) &&
          true) = true
      simp only [Bool.and_eq_true]
      refine ⟨⟨?_, wfOpt_canon rest h'.1.2⟩, trivial⟩
      have hca := wfAttrs_canon attrs h'.1.1
      rw [wfAttrs_iff] at hca ⊢
      intro a hmem
      exact hca a ((sortLe_perm entryLe (canonAttrs attrs)).mem_iff.mp hmem)
    | some d =>
      have h' : (wfAttrs attrs && wfOptNode rest && safeName d) = true := h
      simp only [Bool.and_eq_true] at h'
      show (wfAttrs (sortLe entryLe (canonAttrs attrs)) && wfOptNode (canonOpt rest) &&
          safeName d) = true
      simp only [Bool.and_eq_true]
      refine ⟨⟨?_, wfOpt_canon rest h'.1.2⟩, h'.2⟩
      have hca := wfAttrs_canon attrs h'.1.1
      rw [wfAttrs_iff] at hca ⊢
      intro a hmem
      exact hca a ((sortLe_perm entryLe (canonAttrs attrs)).mem_iff.mp hmem)
  | .inline n => fun h => h
  | .boolean v => fun h => h
  | .number v => fun h => h
  | .string v => fun h => h
  | .null => fun h => h
  | .unknown => fun h => h
termination_by structural x => x

theorem wfMembers_canon : ∀ l, wfMembers l = true → wfMembers (canonMembers l) = true
  | [] => fun h => h
  | t :: ts => fun h => by
    have h' : (wfNode t && wfMembers ts) = true := h
    simp only [Bool.and_eq_true] at h'
    show (wfNode (canonNode t) && wfMembers (canonMembers ts)) = true
    simp only [Bool.and_eq_true]
    exact ⟨wf_canon t h'.1, wfMembers_canon ts h'.2⟩
termination_by structural l => l

theorem wfAttrs_canon : ∀ l, wfAttrs l = true → wfAttrs (canonAttrs l) = true
  | [] => fun h => h
  | (k, o, v) :: rest => fun h => by
    have h' : (safeName k && wfNode v && wfAttrs rest) = true := h
    simp only [Bool.and_eq_true] at h'
    show (safeName k && wfNode (canonNode v) && wfAttrs (canonAttrs rest)) = true
    simp only [Bool.and_eq_true]
    exact ⟨⟨h'.1.1, wf_canon v h'.1.2⟩, wfAttrs_canon rest h'.2⟩
termination_by structural l => l

theorem wfOpt_canon : ∀ r, wfOptNode r = true → wfOptNode (canonOpt r) = true
  | none => fun h => h
  | some t => fun h => wf_canon t h
termination_by structural r => r

end

mutual

theorem isCanon_canon : ∀ x, isCanonNode (canonNode x) = true
  | .array a => isCanon_canon a
  | .union of => by
    show (isCanonMembers (sortLe fpLe (canonMembers of)) &&
        sortedByLeb fpLe (sortLe fpLe (canonMembers of))) = true
    simp only [Bool.and_eq_true]
    refine ⟨?_, sortLe_sortedBy fpLe fpLe_total (canonMembers of)⟩
    have hm := isCanonMembers_canon of
    rw [isCanonMembers_iff] at hm ⊢
    intro t ht
    exact hm t ((sortLe_perm fpLe (canonMembers of)).mem_iff.mp ht)
  | .object attrs rest deref => by
    show (isCanonAttrs (sortLe entryLe (canonAttrs attrs)) && isCanonOpt (canonOpt rest) &&
        sortedByLeb entryLe (sortLe entryLe (canonAttrs attrs))) = true
    simp only [Bool.and_eq_true]
    refine ⟨⟨?_, isCanonOpt_canon rest⟩,
      sortLe_sortedBy entryLe entryLe_total (canonAttrs attrs)⟩
    have hm := isCanonAttrs_canon attrs
    rw [isCanonAttrs_iff] at hm ⊢
    intro a ha
    exact hm a ((sortLe_perm entryLe (canonAttrs attrs)).mem_iff.mp ha)
  | .boolean v => rfl
  | .number v => rfl
  | .string v => rfl
  | .inline n => rfl
  | .null => rfl
  | .unknown => rfl
termination_by structural x => x

theorem isCanonMembers_canon : ∀ l, isCanonMembers (canonMembers l) = true
  | [] => rfl
  | t :: ts => by
    show (isCanonNode (canonNode t) && isCanonMembers (canonMembers ts)) = true
    simp only [Bool.and_eq_true]
    exact ⟨isCanon_canon t, isCanonMembers_canon ts⟩
termination_by structural l => l

theorem isCanonAttrs_canon : ∀ l, isCanonAttrs (canonAttrs l) = true
  | [] => rfl
  | (k, o, v) :: rest => by
    show (isCanonNode (canonNode v) && isCanonAttrs (canonAttrs rest)) = true
    simp only [Bool.and_eq_true]
    exact ⟨isCanon_canon v, isCanonAttrs_canon rest⟩
termination_by structural l => l

theorem isCanonOpt_canon : ∀ r, isCanonOpt (canonOpt r) = true
  | none => rfl
  | some t => isCanon_canon t
termination_by structural r => r

end

/-! ## Claim C1: unambiguity of the scalar fingerprint pieces -/

theorem safeName_all {s : Str} (h : safeName s = true) : s.all isWordChar = true := by
  simp only [safeName, Bool.and_eq_true] at h
  exact h.2

theorem safeName_ne_nil {s : Str} (h : safeName s = true) : s ≠ [] := by
  intro he
  subst he
  exact absurd h (by decide)

theorem followOk_cons_iff (c : Char) (s : Str) :
    followOk (c :: s) = FOLLOWCHARS.contains c := rfl

theorem nodeSize_pos : ∀ x : TypeNode, 1 ≤ nodeSize x
  | .array a => by show 1 ≤ nodeSize a + 1; omega
  | .union of => by show 1 ≤ membersSize of + 1; omega
  | .object attrs rest _ => by show 1 ≤ attrsSize attrs + optNodeSize rest + 1; omega
  | .boolean _ => Nat.le_refl 1
  | .number _ => Nat.le_refl 1
  | .string _ => Nat.le_refl 1
  | .inline _ => Nat.le_refl 1
  | .null => Nat.le_refl 1
  | .unknown => Nat.le_refl 1

theorem decimalChars_all_word (n : ℕ) : (decimalChars n).all isWordChar = true :=
  decimalCharsAux_all_word (n + 1) n

theorem decimalCharsUnamb {m n : ℕ} {s t : Str}
    (hs : notWordStart s = true) (ht : notWordStart t = true)
    (h : decimalChars m ++ s = decimalChars n ++ t) : m = n ∧ s = t := by
  obtain ⟨he, hst⟩ := safeRunUnamb (decimalChars m) (decimalChars n) s t
    (decimalChars_all_word m) (decimalChars_all_word n) hs ht h
  exact ⟨decimalChars_injective he, hst⟩

theorem notMinus_of_decimalHead {n : ℕ} {z w : Str}
    (h : decimalChars n ++ z = '-' :: w) : False := by
  cases hd : decimalChars n with
  | nil => exact decimalChars_ne_nil n hd
  | cons c cs =>
    rw [hd, List.cons_append] at h
    injection h with h1 _
    have hw : isWordChar c = true := by
      have hall := decimalChars_all_word n
      rw [hd] at hall
      simp only [List.all_cons, Bool.and_eq_true] at hall
      exact hall.1
    rw [h1] at hw
    exact absurd hw (by decide)

theorem intCharsUnamb : ∀ (i j : Int) {s t : Str},
    notWordStart s = true → notWordStart t = true →
    intChars i ++ s = intChars j ++ t → i = j ∧ s = t
  | .ofNat m, .ofNat n, s, t => fun hs ht h => by
    obtain ⟨he, hst⟩ := decimalCharsUnamb hs ht h
    exact ⟨by rw [he], hst⟩
  | .ofNat m, .negSucc n, s, t => fun _ _ h => by
    exfalso
    have h' : decimalChars m ++ s = '-' :: (decimalChars (n + 1) ++ t) := h
    exact notMinus_of_decimalHead h'
  | .negSucc m, .ofNat n, s, t => fun _ _ h => by
    exfalso
    have h' : decimalChars n ++ t = '-' :: (decimalChars (m + 1) ++ s) := h.symm
    exact notMinus_of_decimalHead h'
  | .negSucc m, .negSucc n, s, t => fun hs ht h => by
    have h' : '-' :: (decimalChars (m + 1) ++ s) = '-' :: (decimalChars (n + 1) ++ t) := h
    injection h' with _ h2
    obtain ⟨he, hst⟩ := decimalCharsUnamb hs ht h2
    refine ⟨?_, hst⟩
    have : m = n := by omega
    rw [this]

theorem hexDigit_inj {m n : ℕ} (hm : m < 16) (hn : n < 16)
    (h : hexDigit m = hexDigit n) : m = n := by
  interval_cases m <;> interval_cases n <;>
    first
      | rfl
      | exact absurd h (by decide)

theorem jsonEscapeChar_head_ne_quote (c : Char) :
    ∃ d r, jsonEscapeChar c = d :: r ∧ d ≠ '"' := by
  unfold jsonEscapeChar
  split_ifs with h1 h2 h3 h4 h5 h6 h7 h8
  · exact ⟨'\\', _, rfl, by decide⟩
  · exact ⟨'\\', _, rfl, by decide⟩
  · exact ⟨'\\', _, rfl, by decide⟩
  · exact ⟨'\\', _, rfl, by decide⟩
  · exact ⟨'\\', _, rfl, by decide⟩
  · exact ⟨'\\', _, rfl, by decide⟩
  · exact ⟨'\\', _, rfl, by decide⟩
  · exact ⟨'\\', _, rfl, by decide⟩
  · exact ⟨c, [], rfl, h1⟩

theorem jsonEscapeChar_shape (c : Char) :
    (jsonEscapeChar c = [c] ∧ isEscFree c = true) ∨
      (∃ tc, jsonEscapeChar c = ['\\', tc] ∧ tc ≠ 'u' ∧ escTag tc = some c) ∨
      (jsonEscapeChar c =
          ['\\', 'u', '0', '0', hexDigit (c.toNat / 16), hexDigit (c.toNat % 16)] ∧
        c.toNat < 32) := by
  unfold jsonEscapeChar
  split_ifs with h1 h2 h3 h4 h5 h6 h7 h8
  · subst h1
    exact Or.inr (Or.inl ⟨'"', rfl, by decide, by decide⟩)
  · subst h2
    exact Or.inr (Or.inl ⟨'\\', rfl, by decide, by decide⟩)
  · subst h3
    exact Or.inr (Or.inl ⟨'b', rfl, by decide, by decide⟩)
  · subst h4
    exact Or.inr (Or.inl ⟨'t', rfl, by decide, by decide⟩)
  · subst h5
    exact Or.inr (Or.inl ⟨'n', rfl, by decide, by decide⟩)
  · subst h6
    exact Or.inr (Or.inl ⟨'f', rfl, by decide, by decide⟩)
  · subst h7
    exact Or.inr (Or.inl ⟨'r', rfl, by decide, by decide⟩)
  · exact Or.inr (Or.inr ⟨rfl, h8⟩)
  · refine Or.inl ⟨rfl, ?_⟩
    simp [isEscFree, h1, h2, h8]

theorem isEscFree_spec {c : Char} (h : isEscFree c = true) :
    c ≠ '"' ∧ c ≠ '\\' ∧ ¬ c.toNat < 32 := by
  refine ⟨fun hx => ?_, fun hx => ?_, fun hx => ?_⟩
  · subst hx
    exact absurd h (by decide)
  · subst hx
    exact absurd h (by decide)
  · have hf : isEscFree c = false := by
      simp [isEscFree, hx]
    rw [hf] at h
    exact absurd h (by simp)

theorem jsonEscapeCharUnamb (c d : Char) (a b : Str)
    (h : jsonEscapeChar c ++ a = jsonEscapeChar d ++ b) : c = d ∧ a = b := by
  rcases jsonEscapeChar_shape c with ⟨hc, hcf⟩ | ⟨tc, hc, htc, hetc⟩ | ⟨hc, hclt⟩ <;>
    rcases jsonEscapeChar_shape d with ⟨hd, hdf⟩ | ⟨td, hd, htd, hetd⟩ | ⟨hd, hdlt⟩ <;>
    rw [hc, hd] at h <;>
    simp only [List.cons_append, List.nil_append, List.cons.injEq, eq_self_iff_true,
      true_and] at h
  · exact ⟨h.1, h.2⟩
  · exact absurd h.1 (isEscFree_spec hcf).2.1
  · exact absurd h.1 (isEscFree_spec hcf).2.1
  · exact absurd h.1.symm (isEscFree_spec hdf).2.1
  · obtain ⟨ht, hab⟩ := h
    subst ht
    rw [hetc] at hetd
    exact ⟨Option.some_injective _ hetd, hab⟩
  · obtain ⟨ht, _⟩ := h
    exact absurd ht htc
  · exact absurd h.1.symm (isEscFree_spec hdf).2.1
  · obtain ⟨ht, _⟩ := h
    exact absurd ht.symm htd
  · obtain ⟨e1, e2, hab⟩ := h
    refine ⟨?_, hab⟩
    have g1 : c.toNat / 16 = d.toNat / 16 :=
      hexDigit_inj (by omega) (by omega) e1
    have g2 : c.toNat % 16 = d.toNat % 16 :=
      hexDigit_inj (by omega) (by omega) e2
    exact char_toNat_inj (by omega)

theorem jsonEscListUnamb :
    ∀ (u w s t : Str),
      (u.map jsonEscapeChar).flatten ++ ('"' :: s) =
        (w.map jsonEscapeChar).flatten ++ ('"' :: t) →
      u = w ∧ s = t
  | [], [], s, t => fun h => ⟨rfl, by simpa using h⟩
  | [], c :: w', s, t => fun h => by
    exfalso
    rw [List.map_nil, List.flatten_nil, List.nil_append, List.map_cons,
      List.flatten_cons, List.append_assoc] at h
    obtain ⟨d, r, hd, hne⟩ := jsonEscapeChar_head_ne_quote c
    rw [hd, List.cons_append] at h
    injection h with h1 _
    exact hne h1.symm
  | c :: u', [], s, t => fun h => by
    exfalso
    rw [List.map_nil, List.flatten_nil, List.nil_append, List.map_cons,
      List.flatten_cons, List.append_assoc] at h
    obtain ⟨d, r, hd, hne⟩ := jsonEscapeChar_head_ne_quote c
    rw [hd, List.cons_append] at h
    injection h with h1 _
    exact hne h1
  | c :: u', d :: w', s, t => fun h => by
    rw [List.map_cons, List.flatten_cons, List.append_assoc, List.map_cons,
      List.flatten_cons, List.append_assoc] at h
    obtain ⟨hcd, hrest⟩ := jsonEscapeCharUnamb c d _ _ h
    obtain ⟨hu, hst⟩ := jsonEscListUnamb u' w' s t hrest
    exact ⟨by rw [hcd, hu], hst⟩

theorem jsonStringifyUnamb {u w s t : Str}
    (h : jsonStringify u ++ s = jsonStringify w ++ t) : u = w ∧ s = t := by
  have h' : '"' :: (((u.map jsonEscapeChar).flatten ++ ['"']) ++ s) =
      '"' :: (((w.map jsonEscapeChar).flatten ++ ['"']) ++ t) := h
  injection h' with _ h2
  rw [List.append_assoc, List.append_assoc] at h2
  exact jsonEscListUnamb u w s t h2

/-! ## Claim C1: unambiguity of composite fingerprint pieces -/

theorem wfMembers_cons {t : TypeNode} {ts : List TypeNode}
    (h : wfMembers (t :: ts) = true) : wfNode t = true ∧ wfMembers ts = true := by
  have h' : (wfNode t && wfMembers ts) = true := h
  simpa using h'

theorem isCanonMembers_cons {t : TypeNode} {ts : List TypeNode}
    (h : isCanonMembers (t :: ts) = true) :
    isCanonNode t = true ∧ isCanonMembers ts = true := by
  have h' : (isCanonNode t && isCanonMembers ts) = true := h
  simpa using h'

theorem wfAttrs_cons {k : Str} {o : Bool} {v : TypeNode} {rest : List ObjectAttr}
    (h : wfAttrs ((k, o, v) :: rest) = true) :
    safeName k = true ∧ wfNode v = true ∧ wfAttrs rest = true := by
  have h' : (safeName k && wfNode v && wfAttrs rest) = true := h
  simp only [Bool.and_eq_true] at h'
  exact ⟨h'.1.1, h'.1.2, h'.2⟩

theorem isCanonAttrs_cons {k : Str} {o : Bool} {v : TypeNode} {rest : List ObjectAttr}
    (h : isCanonAttrs ((k, o, v) :: rest) = true) :
    isCanonNode v = true ∧ isCanonAttrs rest = true := by
  have h' : (isCanonNode v && isCanonAttrs rest) = true := h
  simpa using h'

theorem joinSep_cons_append (sep x : Str) (xs : List Str) (z : Str) :
    joinSep sep (x :: xs) ++ z =
      x ++ ((match xs with
        | [] => ([] : Str)
        | _ :: _ => sep ++ joinSep sep xs) ++ z) := by
  cases xs with
  | nil => simp [joinSep]
  | cons y ys => simp [joinSep, List.append_assoc]

theorem headCharOf_not_special (y : TypeNode) :
    headCharOf y ≠ ')' ∧ headCharOf y ≠ '|' ∧ headCharOf y ≠ ',' := by
  cases y <;>
    exact ⟨fun h => by simp [headCharOf] at h, fun h => by simp [headCharOf] at h,
      fun h => by simp [headCharOf] at h⟩

theorem derefUnamb : ∀ (d1 d2 : Option Str) (s t : Str),
    wfDeref d1 = true → wfDeref d2 = true →
    derefPart d1 ++ ('\x7d' :: s) = derefPart d2 ++ ('\x7d' :: t) →
    d1 = d2 ∧ s = t
  | none, none, s, t => fun _ _ h => ⟨rfl, by simpa using h⟩
  | some [], _, _, _ => fun h1 _ _ => absurd h1 (by decide)
  | _, some [], _, _ => fun _ h2 _ => absurd h2 (by decide)
  | none, some (c :: cs), s, t => fun _ _ h => by
    exfalso
    have h' : '\x7d' :: s = '-' :: ('>' :: '>' :: ((c :: cs) ++ ('\x7d' :: t))) := h
    injection h' with h1 _
    exact absurd h1 (by decide)
  | some (c :: cs), none, s, t => fun _ _ h => by
    exfalso
    have h' : '-' :: ('>' :: '>' :: ((c :: cs) ++ ('\x7d' :: s))) = '\x7d' :: t := h
    injection h' with h1 _
    exact absurd h1 (by decide)
  | some (c :: cs), some (d :: ds), s, t => fun h1 h2 h => by
    have h' : '-' :: ('>' :: '>' :: ((c :: cs) ++ ('\x7d' :: s))) =
        '-' :: ('>' :: '>' :: ((d :: ds) ++ ('\x7d' :: t))) := h
    injection h' with _ h'
    injection h' with _ h'
    injection h' with _ h'
    obtain ⟨he, hst⟩ := safeRunUnamb (c :: cs) (d :: ds) ('\x7d' :: s) ('\x7d' :: t)
      (safeName_all h1) (safeName_all h2) rfl rfl h'
    injection hst with _ hst
    exact ⟨by rw [he], hst⟩

theorem derefClose_head (d : Option Str) (x : Str) (hd : wfDeref d = true) :
    ∃ c r, derefPart d ++ ('\x7d' :: x) = c :: r ∧ (c = '\x7d' ∨ c = '-') := by
  match d, hd with
  | none, _ => exact ⟨'\x7d', x, rfl, Or.inl rfl⟩
  | some [], hd => exact absurd hd (by decide)
  | some (c :: cs), _ => exact ⟨'-', _, rfl, Or.inr rfl⟩

theorem followOk_derefClose (d : Option Str) (x : Str) (hd : wfDeref d = true) :
    followOk (derefPart d ++ ('\x7d' :: x)) = true := by
  obtain ⟨c, r, he, hc⟩ := derefClose_head d x hd
  rw [he, followOk_cons_iff]
  rcases hc with rfl | rfl <;> decide

theorem restDerefHead (r : Option TypeNode) (d : Option Str) (x : Str)
    (hd : wfDeref d = true) :
    ∃ c rest, restPart r ++ (derefPart d ++ ('\x7d' :: x)) = c :: rest ∧
      (c = '@' ∨ c = '-' ∨ c = '\x7d') := by
  cases r with
  | some rr => exact ⟨'@', _, rfl, Or.inl rfl⟩
  | none =>
    obtain ⟨c, rest, he, hc⟩ := derefClose_head d x hd
    refine ⟨c, rest, he, ?_⟩
    rcases hc with h | h
    · exact Or.inr (Or.inr h)
    · exact Or.inr (Or.inl h)

theorem restUnamb (n : ℕ)
    (ih : ∀ x y s t, nodeSize x ≤ n → wfNode x = true → isCanonNode x = true →
      wfNode y = true → isCanonNode y = true → followOk s = true → followOk t = true →
      fingerprintTypeNode x ++ s = fingerprintTypeNode y ++ t → x = y ∧ s = t) :
    ∀ (r1 r2 : Option TypeNode) (d1 d2 : Option Str) (s t : Str),
      optNodeSize r1 ≤ n →
      wfOptNode r1 = true → isCanonOpt r1 = true →
      wfOptNode r2 = true → isCanonOpt r2 = true →
      wfDeref d1 = true → wfDeref d2 = true →
      restPart r1 ++ (derefPart d1 ++ ('\x7d' :: s)) =
        restPart r2 ++ (derefPart d2 ++ ('\x7d' :: t)) →
      r1 = r2 ∧ d1 = d2 ∧ s = t
  | none, none, d1, d2, s, t => fun _ _ _ _ _ hd1 hd2 h => by
    obtain ⟨hd, hst⟩ := derefUnamb d1 d2 s t hd1 hd2 h
    exact ⟨rfl, hd, hst⟩
  | none, some r, d1, d2, s, t => fun _ _ _ _ _ hd1 hd2 h => by
    exfalso
    obtain ⟨c0, r0, he0, hc0⟩ := derefClose_head d1 s hd1
    have h' : derefPart d1 ++ ('\x7d' :: s) =
        '@' :: ('r' :: 'e' :: 's' :: 't' ::
          (fingerprintTypeNode r ++ (derefPart d2 ++ ('\x7d' :: t)))) := h
    rw [he0] at h'
    injection h' with h1 _
    rcases hc0 with rfl | rfl <;> exact absurd h1 (by decide)
  | some r, none, d1, d2, s, t => fun _ _ _ _ _ hd1 hd2 h => by
    exfalso
    obtain ⟨c0, r0, he0, hc0⟩ := derefClose_head d2 t hd2
    have h' : '@' :: ('r' :: 'e' :: 's' :: 't' ::
        (fingerprintTypeNode r ++ (derefPart d1 ++ ('\x7d' :: s)))) =
        derefPart d2 ++ ('\x7d' :: t) := h
    rw [he0] at h'
    injection h' with h1 _
    rcases hc0 with rfl | rfl <;> exact absurd h1.symm (by decide)
  | some r1, some r2, d1, d2, s, t =>
    fun hsz hw1 hc1 hw2 hc2 hd1 hd2 h => by
    have h' : '@' :: ('r' :: 'e' :: 's' :: 't' ::
        (fingerprintTypeNode r1 ++ (derefPart d1 ++ ('\x7d' :: s)))) =
        '@' :: ('r' :: 'e' :: 's' :: 't' ::
          (fingerprintTypeNode r2 ++ (derefPart d2 ++ ('\x7d' :: t)))) := h
    injection h' with _ h'
    injection h' with _ h'
    injection h' with _ h'
    injection h' with _ h'
    injection h' with _ h'
    obtain ⟨hr, hrest⟩ := ih r1 r2 _ _ hsz hw1 hc1 hw2 hc2
      (followOk_derefClose d1 s hd1) (followOk_derefClose d2 t hd2) h'
    obtain ⟨hd, hst⟩ := derefUnamb d1 d2 s t hd1 hd2 hrest
    exact ⟨by rw [hr], hd, hst⟩

theorem unionJoinUnamb (n : ℕ)
    (ih : ∀ x y s t, nodeSize x ≤ n → wfNode x = true → isCanonNode x = true →
      wfNode y = true → isCanonNode y = true → followOk s = true → followOk t = true →
      fingerprintTypeNode x ++ s = fingerprintTypeNode y ++ t → x = y ∧ s = t) :
    ∀ (xs ys : List TypeNode) (s t : Str),
      membersSize xs ≤ n →
      wfMembers xs = true → isCanonMembers xs = true →
      wfMembers ys = true → isCanonMembers ys = true →
      joinSep (str "|") (memberFingerprints xs) ++ (')' :: s) =
        joinSep (str "|") (memberFingerprints ys) ++ (')' :: t) →
      xs = ys ∧ s = t
  | [], [], s, t => fun _ _ _ _ _ h => ⟨rfl, by simpa using h⟩
  | [], y :: ys', s, t => fun _ _ _ _ _ h => by
    exfalso
    rw [show memberFingerprints (y :: ys') =
        fingerprintTypeNode y :: memberFingerprints ys' from rfl,
      joinSep_cons_append] at h
    obtain ⟨ry, hy⟩ := fp_head y
    rw [hy, List.cons_append] at h
    injection h with h1 _
    exact (headCharOf_not_special y).1 h1.symm
  | x :: xs', [], s, t => fun _ _ _ _ _ h => by
    exfalso
    rw [show memberFingerprints (x :: xs') =
        fingerprintTypeNode x :: memberFingerprints xs' from rfl,
      joinSep_cons_append] at h
    obtain ⟨rx, hx⟩ := fp_head x
    rw [hx, List.cons_append] at h
    injection h with h1 _
    exact (headCharOf_not_special x).1 h1
  | x :: xs', y :: ys', s, t => fun hsz hw1 hc1 hw2 hc2 h => by
    obtain ⟨hw1a, hw1b⟩ := wfMembers_cons hw1
    obtain ⟨hc1a, hc1b⟩ := isCanonMembers_cons hc1
    obtain ⟨hw2a, hw2b⟩ := wfMembers_cons hw2
    obtain ⟨hc2a, hc2b⟩ := isCanonMembers_cons hc2
    have hszx : nodeSize x ≤ n := by
      have h' : nodeSize x + membersSize xs' ≤ n := hsz
      omega
    rw [show memberFingerprints (x :: xs') =
        fingerprintTypeNode x :: memberFingerprints xs' from rfl,
      show memberFingerprints (y :: ys') =
        fingerprintTypeNode y :: memberFingerprints ys' from rfl,
      joinSep_cons_append, joinSep_cons_append] at h
    cases xs' with
    | nil =>
      cases ys' with
      | nil =>
        obtain ⟨hxy, hst⟩ := ih x y (')' :: s) (')' :: t) hszx hw1a hc1a hw2a hc2a
          rfl rfl h
        injection hst with _ hst
        exact ⟨by rw [hxy], hst⟩
      | cons y2 ys'' =>
        exfalso
        obtain ⟨_, hst⟩ := ih x y (')' :: s)
          ('|' :: (joinSep (str "|") (memberFingerprints (y2 :: ys'')) ++ (')' :: t)))
          hszx hw1a hc1a hw2a hc2a rfl rfl h
        injection hst with h1 _
        exact absurd h1 (by decide)
    | cons x2 xs'' =>
      cases ys' with
      | nil =>
        exfalso
        obtain ⟨_, hst⟩ := ih x y
          ('|' :: (joinSep (str "|") (memberFingerprints (x2 :: xs'')) ++ (')' :: s)))
          (')' :: t) hszx hw1a hc1a hw2a hc2a rfl rfl h
        injection hst with h1 _
        exact absurd h1 (by decide)
      | cons y2 ys'' =>
        obtain ⟨hxy, hst⟩ := ih x y
          ('|' :: (joinSep (str "|") (memberFingerprints (x2 :: xs'')) ++ (')' :: s)))
          ('|' :: (joinSep (str "|") (memberFingerprints (y2 :: ys'')) ++ (')' :: t)))
          hszx hw1a hc1a hw2a hc2a rfl rfl h
        injection hst with _ hst
        have hszr : membersSize (x2 :: xs'') ≤ n := by
          have h'' : nodeSize x + membersSize (x2 :: xs'') ≤ n := hsz
          have := nodeSize_pos x
          omega
        obtain ⟨hrest, hst'⟩ := unionJoinUnamb n ih (x2 :: xs'') (y2 :: ys'') s t
          hszr hw1b hc1b hw2b hc2b hst
        exact ⟨by rw [hxy, hrest], hst'⟩

theorem notWordStart_optColon (o : Bool) (z : Str) :
    notWordStart ((if o then str "?" else str "") ++ (str ":" ++ z)) = true := by
  cases o <;> rfl

theorem followOk_objTail (l : List ObjectAttr) (r : Option TypeNode) (d : Option Str)
    (x : Str) (hd : wfDeref d = true) :
    followOk ((match attributeEntryFingerprints l with
      | [] => ([] : Str)
      | _ :: _ => str "," ++ joinSep (str ",") (attributeEntryFingerprints l)) ++
      (restPart r ++ (derefPart d ++ ('\x7d' :: x)))) = true := by
  cases l with
  | cons a as =>
    obtain ⟨k, o, v⟩ := a
    exact rfl
  | nil =>
    cases r with
    | some rr => exact rfl
    | none => exact followOk_derefClose d x hd

theorem objEntriesUnamb (n : ℕ)
    (ih : ∀ x y s t, nodeSize x ≤ n → wfNode x = true → isCanonNode x = true →
      wfNode y = true → isCanonNode y = true → followOk s = true → followOk t = true →
      fingerprintTypeNode x ++ s = fingerprintTypeNode y ++ t → x = y ∧ s = t) :
    ∀ (l1 l2 : List ObjectAttr) (r1 r2 : Option TypeNode) (d1 d2 : Option Str)
      (s t : Str),
      attrsSize l1 + optNodeSize r1 ≤ n →
      wfAttrs l1 = true → isCanonAttrs l1 = true →
      wfAttrs l2 = true → isCanonAttrs l2 = true →
      wfOptNode r1 = true → isCanonOpt r1 = true →
      wfOptNode r2 = true → isCanonOpt r2 = true →
      wfDeref d1 = true → wfDeref d2 = true →
      joinSep (str ",") (attributeEntryFingerprints l1) ++
          (restPart r1 ++ (derefPart d1 ++ ('\x7d' :: s))) =
        joinSep (str ",") (attributeEntryFingerprints l2) ++
          (restPart r2 ++ (derefPart d2 ++ ('\x7d' :: t))) →
      l1 = l2 ∧ r1 = r2 ∧ d1 = d2 ∧ s = t
  | [], [], r1, r2, d1, d2, s, t =>
    fun hsz _ _ _ _ hwr1 hcr1 hwr2 hcr2 hd1 hd2 h => by
    have hsz' : optNodeSize r1 ≤ n := by
      have h' : 0 + optNodeSize r1 ≤ n := hsz
      omega
    obtain ⟨hr, hd, hst⟩ := restUnamb n ih r1 r2 d1 d2 s t hsz' hwr1 hcr1 hwr2 hcr2
      hd1 hd2 h
    exact ⟨rfl, hr, hd, hst⟩
  | [], (k2, o2, v2) :: l2', r1, r2, d1, d2, s, t =>
    fun _ _ _ hw2 _ _ _ _ _ hd1 _ h => by
    exfalso
    obtain ⟨hk2, _, _⟩ := wfAttrs_cons hw2
    obtain ⟨c0, r0, he0, hc0⟩ := restDerefHead r1 d1 s hd1
    cases k2 with
    | nil => exact absurd hk2 (by decide)
    | cons kc ks =>
      rw [show attributeEntryFingerprints ((kc :: ks, o2, v2) :: l2') =
          ((kc :: ks) ++ (if o2 then str "?" else str "") ++ str ":" ++
            fingerprintTypeNode v2) :: attributeEntryFingerprints l2' from rfl,
        joinSep_cons_append, he0] at h
      injection h with h1 _
      have hkw : isWordChar kc = true := by
        have hall := safeName_all hk2
        simp only [List.all_cons, Bool.and_eq_true] at hall
        exact hall.1
      rcases hc0 with rfl | rfl | rfl <;>
        rw [← h1] at hkw <;> exact absurd hkw (by decide)
  | (k1, o1, v1) :: l1', [], r1, r2, d1, d2, s, t =>
    fun _ hw1 _ _ _ _ _ _ _ _ hd2 h => by
    exfalso
    obtain ⟨hk1, _, _⟩ := wfAttrs_cons hw1
    obtain ⟨c0, r0, he0, hc0⟩ := restDerefHead r2 d2 t hd2
    cases k1 with
    | nil => exact absurd hk1 (by decide)
    | cons kc ks =>
      rw [show attributeEntryFingerprints ((kc :: ks, o1, v1) :: l1') =
          ((kc :: ks) ++ (if o1 then str "?" else str "") ++ str ":" ++
            fingerprintTypeNode v1) :: attributeEntryFingerprints l1' from rfl,
        joinSep_cons_append, he0] at h
      injection h with h1 _
      have hkw : isWordChar kc = true := by
        have hall := safeName_all hk1
        simp only [List.all_cons, Bool.and_eq_true] at hall
        exact hall.1
      rcases hc0 with rfl | rfl | rfl <;>
        rw [h1] at hkw <;> exact absurd hkw (by decide)
  | (k1, o1, v1) :: l1', (k2, o2, v2) :: l2', r1, r2, d1, d2, s, t =>
    fun hsz hw1 hc1 hw2 hc2 hwr1 hcr1 hwr2 hcr2 hd1 hd2 h => by
    obtain ⟨hk1, hv1, hl1⟩ := wfAttrs_cons hw1
    obtain ⟨hcv1, hcl1⟩ := isCanonAttrs_cons hc1
    obtain ⟨hk2, hv2, hl2⟩ := wfAttrs_cons hw2
    obtain ⟨hcv2, hcl2⟩ := isCanonAttrs_cons hc2
    have h' : k1 ++ ((if o1 then str "?" else str "") ++ (str ":" ++
        (fingerprintTypeNode v1 ++
          ((match attributeEntryFingerprints l1' with
            | [] => ([] : Str)
            | _ :: _ => str "," ++ joinSep (str ",") (attributeEntryFingerprints l1')) ++
            (restPart r1 ++ (derefPart d1 ++ ('\x7d' :: s))))))) =
        k2 ++ ((if o2 then str "?" else str "") ++ (str ":" ++
          (fingerprintTypeNode v2 ++
            ((match attributeEntryFingerprints l2' with
              | [] => ([] : Str)
              | _ :: _ => str "," ++ joinSep (str ",") (attributeEntryFingerprints l2')) ++
              (restPart r2 ++ (derefPart d2 ++ ('\x7d' :: t))))))) := by
      rw [show attributeEntryFingerprints ((k1, o1, v1) :: l1') =
          (k1 ++ (if o1 then str "?" else str "") ++ str ":" ++
            fingerprintTypeNode v1) :: attributeEntryFingerprints l1' from rfl,
        show attributeEntryFingerprints ((k2, o2, v2) :: l2') =
          (k2 ++ (if o2 then str "?" else str "") ++ str ":" ++
            fingerprintTypeNode v2) :: attributeEntryFingerprints l2' from rfl,
        joinSep_cons_append, joinSep_cons_append] at h
      simpa only [List.append_assoc] using h
    obtain ⟨hkk, hC⟩ := safeRunUnamb k1 k2 _ _ (safeName_all hk1) (safeName_all hk2)
      (notWordStart_optColon o1 _) (notWordStart_optColon o2 _) h'
    have key : o1 = o2 ∧ fingerprintTypeNode v1 ++
        ((match attributeEntryFingerprints l1' with
          | [] => ([] : Str)
          | _ :: _ => str "," ++ joinSep (str ",") (attributeEntryFingerprints l1')) ++
          (restPart r1 ++ (derefPart d1 ++ ('\x7d' :: s)))) =
        fingerprintTypeNode v2 ++
          ((match attributeEntryFingerprints l2' with
            | [] => ([] : Str)
            | _ :: _ => str "," ++ joinSep (str ",") (attributeEntryFingerprints l2')) ++
            (restPart r2 ++ (derefPart d2 ++ ('\x7d' :: t)))) := by
      cases o1 <;> cases o2
      · have hC' : ':' :: _ = ':' :: _ := hC
        injection hC' with _ h2
        exact ⟨rfl, h2⟩
      · have hC' : ':' :: _ = '?' :: (':' :: _) := hC
        injection hC' with h1 _
        exact absurd h1 (by decide)
      · have hC' : '?' :: (':' :: _) = ':' :: _ := hC
        injection hC' with h1 _
        exact absurd h1 (by decide)
      · have hC' : '?' :: (':' :: _) = '?' :: (':' :: _) := hC
        injection hC' with _ h2
        injection h2 with _ h3
        exact ⟨rfl, h3⟩
    obtain ⟨hoo, hfp⟩ := key
    have hszv : nodeSize v1 ≤ n := by
      have h'' : nodeSize v1 + attrsSize l1' + optNodeSize r1 ≤ n := hsz
      omega
    obtain ⟨hvv, hZ⟩ := ih v1 v2 _ _ hszv hv1 hcv1 hv2 hcv2
      (followOk_objTail l1' r1 d1 s hd1) (followOk_objTail l2' r2 d2 t hd2) hfp
    cases l1' with
    | nil =>
      cases l2' with
      | nil =>
        have hZ' : restPart r1 ++ (derefPart d1 ++ ('\x7d' :: s)) =
            restPart r2 ++ (derefPart d2 ++ ('\x7d' :: t)) := hZ
        have hsz' : optNodeSize r1 ≤ n := by
          have h'' : nodeSize v1 + 0 + optNodeSize r1 ≤ n := hsz
          omega
        obtain ⟨hr, hd, hst⟩ := restUnamb n ih r1 r2 d1 d2 s t hsz' hwr1 hcr1
          hwr2 hcr2 hd1 hd2 hZ'
        exact ⟨by rw [hkk, hoo, hvv], hr, hd, hst⟩
      | cons b bs =>
        exfalso
        obtain ⟨k2', o2', v2'⟩ := b
        obtain ⟨c0, r0, he0, hc0⟩ := restDerefHead r1 d1 s hd1
        have hZ' : restPart r1 ++ (derefPart d1 ++ ('\x7d' :: s)) =
            ',' :: (joinSep (str ",")
              (attributeEntryFingerprints ((k2', o2', v2') :: bs)) ++
              (restPart r2 ++ (derefPart d2 ++ ('\x7d' :: t)))) := hZ
        rw [he0] at hZ'
        injection hZ' with h1 _
        rcases hc0 with rfl | rfl | rfl <;> exact absurd h1 (by decide)
    | cons a as =>
      cases l2' with
      | nil =>
        exfalso
        obtain ⟨k1', o1', v1'⟩ := a
        obtain ⟨c0, r0, he0, hc0⟩ := restDerefHead r2 d2 t hd2
        have hZ' : ',' :: (joinSep (str ",")
            (attributeEntryFingerprints ((k1', o1', v1') :: as)) ++
            (restPart r1 ++ (derefPart d1 ++ ('\x7d' :: s)))) =
            restPart r2 ++ (derefPart d2 ++ ('\x7d' :: t)) := hZ
        rw [he0] at hZ'
        injection hZ' with h1 _
        rcases hc0 with rfl | rfl | rfl <;> exact absurd h1.symm (by decide)
      | cons b bs =>
        obtain ⟨k1', o1', v1'⟩ := a
        obtain ⟨k2', o2', v2'⟩ := b
        have hZ' : ',' :: (joinSep (str ",")
            (attributeEntryFingerprints ((k1', o1', v1') :: as)) ++
            (restPart r1 ++ (derefPart d1 ++ ('\x7d' :: s)))) =
            ',' :: (joinSep (str ",")
              (attributeEntryFingerprints ((k2', o2', v2') :: bs)) ++
              (restPart r2 ++ (derefPart d2 ++ ('\x7d' :: t)))) := hZ
        injection hZ' with _ hZ''
        have hszr : attrsSize ((k1', o1', v1') :: as) + optNodeSize r1 ≤ n := by
          have h'' : nodeSize v1 + attrsSize ((k1', o1', v1') :: as) +
              optNodeSize r1 ≤ n := hsz
          have := nodeSize_pos v1
          omega
        obtain ⟨hrest, hr, hd, hst⟩ := objEntriesUnamb n ih
          ((k1', o1', v1') :: as) ((k2', o2', v2') :: bs) r1 r2 d1 d2 s t hszr
          hl1 hcl1 hl2 hcl2 hwr1 hcr1 hwr2 hcr2 hd1 hd2 hZ''
        exact ⟨by rw [hkk, hoo, hvv, hrest], hr, hd, hst⟩

/-! ## Claim C1: the main injectivity induction -/

theorem fpUnambAux : ∀ n : ℕ, ∀ x y : TypeNode, ∀ s t : Str,
    nodeSize x ≤ n → wfNode x = true → isCanonNode x = true →
    wfNode y = true → isCanonNode y = true →
    followOk s = true → followOk t = true →
    fingerprintTypeNode x ++ s = fingerprintTypeNode y ++ t → x = y ∧ s = t := by
  intro n
  induction n with
  | zero =>
    intro x y s t hsz _ _ _ _ _ _ _
    exact absurd hsz (by have := nodeSize_pos x; omega)
  | succ n ihn =>
    intro x y s t hsz hwx hcx hwy hcy hfs hft heq
    have hhead : headCharOf x = headCharOf y := by
      obtain ⟨rx, hx⟩ := fp_head x
      obtain ⟨ry, hy⟩ := fp_head y
      have heq' := heq
      rw [hx, hy, List.cons_append, List.cons_append] at heq'
      injection heq' with h1 _
    cases x <;> cases y <;>
      try (exfalso; simp only [headCharOf] at hhead; exact absurd hhead (by decide))
    · -- unknown / unknown
      exact ⟨rfl, List.append_cancel_left heq⟩
    · -- null / null
      exact ⟨rfl, List.append_cancel_left heq⟩
    · -- null / number
      rename_i v
      exfalso
      cases v with
      | none =>
        have h' : 'n' :: ('u' :: ('l' :: ('l' :: s))) = 'n' :: t := heq
        injection h' with _ h2
        rw [← h2, followOk_cons_iff] at hft
        exact absurd hft (by decide)
      | some i =>
        have h' : 'n' :: ('u' :: ('l' :: ('l' :: s))) =
            'n' :: (':' :: (intChars i ++ t)) := heq
        injection h' with _ h2
        injection h2 with h3 _
        exact absurd h3 (by decide)
    · -- boolean / boolean
      rename_i v w
      cases v with
      | none =>
        cases w with
        | none => exact ⟨rfl, List.append_cancel_left heq⟩
        | some b =>
          exfalso
          have h' : 'b' :: s = 'b' :: (':' :: (boolChars b ++ t)) := heq
          injection h' with _ h2
          rw [h2, followOk_cons_iff] at hfs
          exact absurd hfs (by decide)
      | some b =>
        cases w with
        | none =>
          exfalso
          have h' : 'b' :: (':' :: (boolChars b ++ s)) = 'b' :: t := heq
          injection h' with _ h2
          rw [← h2, followOk_cons_iff] at hft
          exact absurd hft (by decide)
        | some b2 =>
          cases b <;> cases b2
          · exact ⟨rfl, List.append_cancel_left heq⟩
          · exfalso
            have h' : 'b' :: (':' :: ('f' :: ('a' :: ('l' :: ('s' :: ('e' :: s)))))) =
                'b' :: (':' :: ('t' :: ('r' :: ('u' :: ('e' :: t))))) := heq
            injection h' with _ h2
            injection h2 with _ h3
            injection h3 with h4 _
            exact absurd h4 (by decide)
          · exfalso
            have h' : 'b' :: (':' :: ('t' :: ('r' :: ('u' :: ('e' :: s))))) =
                'b' :: (':' :: ('f' :: ('a' :: ('l' :: ('s' :: ('e' :: t)))))) := heq
            injection h' with _ h2
            injection h2 with _ h3
            injection h3 with h4 _
            exact absurd h4 (by decide)
          · exact ⟨rfl, List.append_cancel_left heq⟩
    · -- number / null
      rename_i v
      exfalso
      cases v with
      | none =>
        have h' : 'n' :: s = 'n' :: ('u' :: ('l' :: ('l' :: t))) := heq
        injection h' with _ h2
        rw [h2, followOk_cons_iff] at hfs
        exact absurd hfs (by decide)
      | some i =>
        have h' : 'n' :: (':' :: (intChars i ++ s)) =
            'n' :: ('u' :: ('l' :: ('l' :: t))) := heq
        injection h' with _ h2
        injection h2 with h3 _
        exact absurd h3 (by decide)
    · -- number / number
      rename_i v w
      cases v with
      | none =>
        cases w with
        | none => exact ⟨rfl, List.append_cancel_left heq⟩
        | some j =>
          exfalso
          have h' : 'n' :: s = 'n' :: (':' :: (intChars j ++ t)) := heq
          injection h' with _ h2
          rw [h2, followOk_cons_iff] at hfs
          exact absurd hfs (by decide)
      | some i =>
        cases w with
        | none =>
          exfalso
          have h' : 'n' :: (':' :: (intChars i ++ s)) = 'n' :: t := heq
          injection h' with _ h2
          rw [← h2, followOk_cons_iff] at hft
          exact absurd hft (by decide)
        | some j =>
          have h' : 'n' :: (':' :: (intChars i ++ s)) =
              'n' :: (':' :: (intChars j ++ t)) := heq
          injection h' with _ h2
          injection h2 with _ h3
          obtain ⟨hij, hst⟩ := intCharsUnamb i j (followOk_notWordStart hfs)
            (followOk_notWordStart hft) h3
          exact ⟨by rw [hij], hst⟩
    · -- string / string
      rename_i v w
      cases v with
      | none =>
        cases w with
        | none => exact ⟨rfl, List.append_cancel_left heq⟩
        | some u =>
          exfalso
          have h' : 's' :: s = 's' :: (':' :: (jsonStringify u ++ t)) := heq
          injection h' with _ h2
          rw [h2, followOk_cons_iff] at hfs
          exact absurd hfs (by decide)
      | some u =>
        cases w with
        | none =>
          exfalso
          have h' : 's' :: (':' :: (jsonStringify u ++ s)) = 's' :: t := heq
          injection h' with _ h2
          rw [← h2, followOk_cons_iff] at hft
          exact absurd hft (by decide)
        | some u2 =>
          have h' : 's' :: (':' :: (jsonStringify u ++ s)) =
              's' :: (':' :: (jsonStringify u2 ++ t)) := heq
          injection h' with _ h2
          injection h2 with _ h3
          obtain ⟨huv, hst⟩ := jsonStringifyUnamb h3
          exact ⟨by rw [huv], hst⟩
    · -- inline / inline
      rename_i n1 n2
      have h' : '@' :: (n1 ++ s) = '@' :: (n2 ++ t) := heq
      injection h' with _ h2
      obtain ⟨hn, hst⟩ := safeRunUnamb n1 n2 s t (safeName_all hwx) (safeName_all hwy)
        (followOk_notWordStart hfs) (followOk_notWordStart hft) h2
      exact ⟨by rw [hn], hst⟩
    · -- array / array
      rename_i a b
      have h' : '[' :: ((fingerprintTypeNode a ++ [']']) ++ s) =
          '[' :: ((fingerprintTypeNode b ++ [']']) ++ t) := heq
      injection h' with _ h2
      rw [List.append_assoc, List.append_assoc] at h2
      have hsza : nodeSize a ≤ n := by
        have h'' : nodeSize a + 1 ≤ n + 1 := hsz
        omega
      obtain ⟨hab, hst⟩ := ihn a b (']' :: s) (']' :: t) hsza hwx hcx hwy hcy
        rfl rfl h2
      injection hst with _ hst
      exact ⟨by rw [hab], hst⟩
    · -- union / union
      rename_i xs ys
      have hcx1 : (isCanonMembers xs && sortedByLeb fpLe xs) = true := hcx
      have hcy1 : (isCanonMembers ys && sortedByLeb fpLe ys) = true := hcy
      simp only [Bool.and_eq_true] at hcx1 hcy1
      have hsx : sortStrs (memberFingerprints xs) = memberFingerprints xs := by
        apply sortLe_eq_self_of_sortedBy
        rw [memberFingerprints_eq_map, sortedByLeb_map]
        exact hcx1.2
      have hsy : sortStrs (memberFingerprints ys) = memberFingerprints ys := by
        apply sortLe_eq_self_of_sortedBy
        rw [memberFingerprints_eq_map, sortedByLeb_map]
        exact hcy1.2
      rw [fp_union_eq, fp_union_eq, hsx, hsy] at heq
      have h' : '(' :: ((joinSep (str "|") (memberFingerprints xs) ++ [')']) ++ s) =
          '(' :: ((joinSep (str "|") (memberFingerprints ys) ++ [')']) ++ t) := heq
      injection h' with _ h2
      rw [List.append_assoc, List.append_assoc] at h2
      have hszm : membersSize xs ≤ n := by
        have h'' : membersSize xs + 1 ≤ n + 1 := hsz
        omega
      obtain ⟨hmem, hst⟩ := unionJoinUnamb n ihn xs ys s t hszm hwx hcx1.1
        hwy hcy1.1 h2
      exact ⟨by rw [hmem], hst⟩
    · -- object / object
      rename_i a1 rest1 dref1 a2 rest2 dref2
      have hwx1 : (wfAttrs a1 && wfOptNode rest1 && wfDeref dref1) = true := hwx
      have hwy1 : (wfAttrs a2 && wfOptNode rest2 && wfDeref dref2) = true := hwy
      have hcx1 : (isCanonAttrs a1 && isCanonOpt rest1 && sortedByLeb entryLe a1) =
          true := hcx
      have hcy1 : (isCanonAttrs a2 && isCanonOpt rest2 && sortedByLeb entryLe a2) =
          true := hcy
      simp only [Bool.and_eq_true] at hwx1 hwy1 hcx1 hcy1
      have hsx : sortStrs (attributeEntryFingerprints a1) =
          attributeEntryFingerprints a1 := by
        apply sortLe_eq_self_of_sortedBy
        rw [attributeEntryFingerprints_eq_map, sortedByLeb_map]
        exact hcx1.2
      have hsy : sortStrs (attributeEntryFingerprints a2) =
          attributeEntryFingerprints a2 := by
        apply sortLe_eq_self_of_sortedBy
        rw [attributeEntryFingerprints_eq_map, sortedByLeb_map]
        exact hcy1.2
      rw [fp_object_eq, fp_object_eq, hsx, hsy] at heq
      simp only [List.append_assoc] at heq
      have h' : '\x7b' :: (joinSep (str ",") (attributeEntryFingerprints a1) ++
          (restPart rest1 ++ (derefPart dref1 ++ ('\x7d' :: s)))) =
          '\x7b' :: (joinSep (str ",") (attributeEntryFingerprints a2) ++
            (restPart rest2 ++ (derefPart dref2 ++ ('\x7d' :: t)))) := heq
      injection h' with _ h2
      have hsze : attrsSize a1 + optNodeSize rest1 ≤ n := by
        have h'' : attrsSize a1 + optNodeSize rest1 + 1 ≤ n + 1 := hsz
        omega
      obtain ⟨hl, hr, hd, hst⟩ := objEntriesUnamb n ihn a1 a2 rest1 rest2 dref1 dref2
        s t hsze hwx1.1.1 hcx1.1.1 hwy1.1.1 hcy1.1.1 hwx1.1.2 hcx1.1.2
        hwy1.1.2 hcy1.1.2 hwx1.2 hwy1.2 h2
      exact ⟨by rw [hl, hr, hd], hst⟩

/-- Fingerprint equality on well-formed nodes forces equal canonical
forms. -/
theorem fp_inj_of_canon {x y : TypeNode} (hwx : wfNode x = true)
    (hwy : wfNode y = true)
    (h : fingerprintTypeNode x = fingerprintTypeNode y) :
    canonNode x = canonNode y := by
  have h' : fingerprintTypeNode (canonNode x) ++ ([] : Str) =
      fingerprintTypeNode (canonNode y) ++ ([] : Str) := by
    rw [fp_canon x, fp_canon y, h]
  exact (fpUnambAux (nodeSize (canonNode x)) (canonNode x) (canonNode y) [] []
    le_rfl (wf_canon x hwx) (isCanon_canon x) (wf_canon y hwy) (isCanon_canon y)
    rfl rfl h').1

/-- Claim C1 (amended): over well-formed nodes — inline names, attribute
keys and dereference targets nonempty and drawn from `[A-Za-z0-9_$]`, as
for every name the schema and GROQ pipeline produce — two `TypeNode`s have
equal fingerprints exactly when they are structurally identical modulo
object-attribute order and union-member order, i.e. when their canonical
forms (attributes sorted by entry string, union members sorted by
fingerprint) coincide.  Reordering therefore never changes the fingerprint,
and any structural difference that survives canonicalisation — a literal
value, an optionality flag, an attribute key, a rest or dereference
marker — always changes it.  (Unrestricted keys break the claim: see the
counterexample.) -/
theorem claim_C1_fingerprint_iff (a b : TypeNode)
    (ha : wfNode a = true) (hb : wfNode b = true) :
    fingerprintTypeNode a = fingerprintTypeNode b ↔ canonNode a = canonNode b := by
  constructor
  · intro h
    exact fp_inj_of_canon ha hb h
  · intro h
    calc fingerprintTypeNode a = fingerprintTypeNode (canonNode a) :=
        (fp_canon a).symm
      _ = fingerprintTypeNode (canonNode b) := by rw [h]
      _ = fingerprintTypeNode b := fp_canon b

/-- Counterexample for claim C1 as stated (over all `TypeNode`s): an
attribute key containing fingerprint punctuation makes a one-attribute
object collide with a structurally different two-attribute object — the
fingerprints agree but the canonical forms (and the nodes themselves, under
any reordering) differ. -/
theorem claim_C1_fingerprint_iff_counterexample :
    fingerprintTypeNode (.object [(str "a:s,b", false, .string none)] none none) =
        fingerprintTypeNode (.object [(str "a", false, .string none),
          (str "b", false, .string none)] none none) ∧
      canonNode (.object [(str "a:s,b", false, .string none)] none none) ≠
        canonNode (.object [(str "a", false, .string none),
          (str "b", false, .string none)] none none) ∧
      (.object [(str "a:s,b", false, .string none)] none none : TypeNode) ≠
        .object [(str "a", false, .string none),
          (str "b", false, .string none)] none none :=
  ⟨by decide, by decide, by decide⟩

/-- Witness for claim C1: the amended equivalence applied to two well-formed
objects that differ only in attribute order, with all side conditions
evaluated. -/
theorem claim_C1_fingerprint_iff_witness :
    wfNode (.object [(str "b", false, .string none), (str "a", false, .null)]
        none none) = true ∧
      wfNode (.object [(str "a", false, .null), (str "b", false, .string none)]
        none none) = true ∧
      fingerprintTypeNode (.object [(str "b", false, .string none),
          (str "a", false, .null)] none none) =
        fingerprintTypeNode (.object [(str "a", false, .null),
          (str "b", false, .string none)] none none) ∧
      (fingerprintTypeNode (.object [(str "b", false, .string none),
          (str "a", false, .null)] none none) =
        fingerprintTypeNode (.object [(str "a", false, .null),
          (str "b", false, .string none)] none none) ↔
        canonNode (.object [(str "b", false, .string none),
          (str "a", false, .null)] none none) =
        canonNode (.object [(str "a", false, .null),
          (str "b", false, .string none)] none none)) :=
  ⟨by decide, by decide, by decide,
    claim_C1_fingerprint_iff _ _ (by decide) (by decide)⟩

/-! ## Claim C4: emission order of `generateTypes` -/

/-- The fingerprints of the registry's extracted types form a sublist of the
fingerprint map's keys: extraction keeps the map's first-occurrence order
and only skips entries. -/
theorem buildDedupAux_keys_sublist :
    ∀ (fps : FingerprintMap) (ids : List Str),
      ((buildDedupAux fps ids).map (fun e => e.1)).Sublist (fps.map (fun p => p.1))
  | [], _ => by simp [buildDedupAux]
  | (fp0, rec0) :: rest, ids => by
    by_cases h1 : rec0.count < 2
    · rw [buildDedupAux_cons_skip_count h1]
      exact (buildDedupAux_keys_sublist rest ids).cons _
    · by_cases h2 : isWorthExtracting rec0.typeNode = true
      · rw [buildDedupAux_cons_extract h1 h2]
        simp only [List.map_cons]
        exact (buildDedupAux_keys_sublist rest _).cons₂ _
      · rw [buildDedupAux_cons_skip_worth h1 (Bool.eq_false_iff.mpr h2)]
        exact (buildDedupAux_keys_sublist rest ids).cons _

/-- Every query lowered by `generateEvaluatedQueries` carries exactly three
leading documentation comments. -/
theorem generateEvaluatedQueries_comments_length :
    ∀ (root filename : Str) (qs : List CollectedQuery) (ids : List Str)
      (q : EvaluatedQuery), q ∈ (generateEvaluatedQueries root filename qs ids).1 →
      q.comments.length = 3
  | _, _, [], _, _ => by simp [generateEvaluatedQueries]
  | root, filename, q0 :: rest, ids, q => by
    intro hq
    simp only [generateEvaluatedQueries, List.mem_cons] at hq
    rcases hq with h | h
    · subst h; rfl
    · exact generateEvaluatedQueries_comments_length root filename rest _ q h

/-- Every query of every module lowered by `generateEvaluatedModules`
carries exactly three leading documentation comments. -/
theorem generateEvaluatedModules_comments_length :
    ∀ (root : Str) (ms : List CollectedModule) (ids : List Str)
      (m : EvaluatedModule), m ∈ (generateEvaluatedModules root ms ids).1 →
      ∀ q ∈ m.queries, q.comments.length = 3
  | _, [], _, _ => by simp [generateEvaluatedModules]
  | root, m0 :: rest, ids, m => by
    intro hm q hq
    simp only [generateEvaluatedModules, List.mem_cons] at hm
    rcases hm with h | h
    · subst h
      exact generateEvaluatedQueries_comments_length root m0.filename m0.queries ids q hq
    · exact generateEvaluatedModules_comments_length root rest _ m h q hq

/-- Claim C4 (amended): the actual emission order of `generateTypes` is
schema type declarations (in schema order), the all-schema-types alias, the
reference-marker symbol, the deduplicated shared inline types, then — after
them, not before — the `ArrayOf` alias when used, then the per-query result
declarations, then the query-map import and interface when present.  The
extracted types keep the first-occurrence order of the fingerprint
collection walk (their fingerprints form a sublist of the map's keys), and
every lowered query carries exactly three documentation comments.  (The
claim as stated puts `ArrayOf` before the extracted types; see the
counterexample.) -/
theorem claim_C4_emission_order
    (evaluate : ExtractedQuery → Except Str (TypeEvaluationStats × TypeNode))
    (isArrayOfUsed : Bool) (root : Str) (overloadClientMethods : Bool)
    (schema : List SchemaEntry) (queries : List ExtractedModule) :
    let schemaTypeDecls := schemaTypeDeclarationsOf schema
    let collectedModules := collectModules evaluate queries
    let fingerprints := collectObjectFingerprints
      ((collectedModules.map (fun m => m.queries.map (fun q => q.typeNode))).flatten)
    let registry := buildDeduplicationRegistry fingerprints
      (schemaTypeDecls.map (fun d => d.id))
    let evaluated := (generateEvaluatedModules root collectedModules
      (schemaTypeDecls.map (fun d => d.id) ++
        registry.extractedTypes.map (fun e => e.2.1))).1
    let queryMap := getQueryMapDeclaration overloadClientMethods evaluated
    generateTypes evaluate isArrayOfUsed root overloadClientMethods schema queries =
      (schemaTypeDecls.map Decl.schemaType) ++
        [Decl.allSchemaTypes (getAllSanitySchemaTypesDeclaration schemaTypeDecls).2] ++
        [Decl.internalReferenceSymbol] ++
        (registry.extractedTypes.map (fun e => Decl.extractedType e.1 e.2.1)) ++
        (if isArrayOfUsed then [Decl.arrayOf] else []) ++
        ((evaluated.map (fun m =>
          m.queries.map (fun q => Decl.queryResult q.id q.comments))).flatten) ++
        (if queryMap.isEmpty then [] else
          [Decl.queryMapImport, Decl.queryMapInterface queryMap]) ∧
      (registry.extractedTypes.map (fun e => e.1)).Sublist
        (fingerprints.map (fun p => p.1)) ∧
      (∀ m ∈ evaluated, ∀ q ∈ m.queries, q.comments.length = 3) := by
  refine ⟨rfl, buildDedupAux_keys_sublist _ _, ?_⟩
  intro m hm q hq
  exact generateEvaluatedModules_comments_length _ _ _ m hm q hq

/-- Counterexample for claim C4: a run in which both a deduplicated shared
type and the `ArrayOf` alias are emitted.  The source pushes the extracted
type before `ArrayOf`, so the order the claim asserts (`ArrayOf` before the
deduplicated types) is violated, and the spec-side order recogniser rejects
the output. -/
theorem claim_C4_emission_order_counterexample :
    specClaimedDeclOrder
        (generateTypes evalShared true (str "/src") true [] sharedModules) = false ∧
      generateTypes evalShared true (str "/src") true [] sharedModules =
        [Decl.allSchemaTypes .never, Decl.internalReferenceSymbol,
         Decl.extractedType (str "\x7ba:s,b:s\x7d") (str "InlineType"), Decl.arrayOf,
         Decl.queryResult (str "Q1Result")
           [str " Source: a.ts", str " Variable: q1", str " Query: *"],
         Decl.queryResult (str "Q2Result")
           [str " Source: a.ts", str " Variable: q2", str " Query: *"],
         Decl.queryMapImport,
         Decl.queryMapInterface [(str "*", [str "Q1Result", str "Q2Result"])]] := by
  exact ⟨by decide, by decide⟩

/-- Witness for claim C4: the amended order theorem applied to a concrete
run (one schema type, two queries sharing one extractable object shape, no
`ArrayOf` usage, no client-method overloads), evaluated to the literal
output. -/
theorem claim_C4_emission_order_witness :
    generateTypes evalShared false (str "/src") false [⟨str "post"⟩] sharedModules =
      [Decl.schemaType ⟨str "Post", str "post"⟩,
       Decl.allSchemaTypes (.unionOfReferences [str "Post"]),
       Decl.internalReferenceSymbol,
       Decl.extractedType (str "\x7ba:s,b:s\x7d") (str "InlineType"),
       Decl.queryResult (str "Q1Result")
         [str " Source: a.ts", str " Variable: q1", str " Query: *"],
       Decl.queryResult (str "Q2Result")
         [str " Source: a.ts", str " Variable: q2", str " Query: *"]] := by
  have h := claim_C4_emission_order evalShared false (str "/src") false
    [⟨str "post"⟩] sharedModules
  exact h.1.trans (by decide)

end Codegen
